import Mathlib

/-!
Akagi201/eosgo: the binary wire encoder (`types/encoder.go`).

A shallow embedding of the EOS packing encoder and the properties of its output.

Conventions of the embedding

* A byte is a `Nat` below 256; a Go `string` or `[]byte` is the `List Nat` of its bytes.
* Machine integers are `Nat` (unsigned) or `Int` (signed); every Go conversion that
  truncates or reinterprets is written with an explicit `%`.
* A Go `error` result is `Option Err`: `none` is `nil`, `Err.error` is a returned
  error, `Err.panic` is a run-time panic (index out of range, nil dereference, ...),
  which no caller can ignore.
* The `io.Writer` behind an encoder is a `Writer`: the bytes it has accepted and a
  schedule that says which of the coming `Write` calls it rejects. `bytes.Buffer`
  is the writer with the empty schedule.
* The `println` tracing of the source writes to standard error and is left out.
-/

namespace types

/-! ## Errors and the byte sink -/

/-- The two ways a call can fail: a returned `error`, or a panic. -/
inductive Err where
  | error (msg : String)
  | panic (msg : String)
  deriving DecidableEq, Repr

/-- The `io.Writer` of an encoder. `data` is what the sink accepted so far;
`schedule` tells for the coming `Write` calls, in order, whether the call is
rejected (`true`); calls beyond the schedule are accepted. -/
structure Writer where
  data : List Nat
  schedule : List Bool
  deriving DecidableEq, Repr

/-- The method `Write` of `io.Writer`: a rejected call stores nothing and returns an error. -/
def Writer.Write (w : Writer) (p : List Nat) : Writer × Option Err :=
  match w.schedule with
  | [] => (⟨w.data ++ p, []⟩, none)
  | false :: rest => (⟨w.data ++ p, rest⟩, none)
  | true :: rest => (⟨w.data, rest⟩, some (Err.error "write rejected"))

/-- A `bytes.Buffer` holding `data`: it accepts every write. -/
def bytesBuffer (data : List Nat) : Writer := ⟨data, []⟩

/-- The `Encoder` of the source: the sink and the count of bytes handed to it.
(The field `Order` is the constant `binary.LittleEndian` and is never read.) -/
structure Encoder where
  output : Writer
  count : Nat
  deriving DecidableEq, Repr

/-- The result of an encoder method: the encoder afterwards and the error. -/
abbrev Res := Encoder × Option Err

def NewEncoder (w : Writer) : Encoder := ⟨w, 0⟩

/-- An encoder in the middle of its work over a `bytes.Buffer`: the buffer holds
`data` and `count` bytes were counted so far. -/
def Encoder.onBuffer (data : List Nat) (count : Nat) : Encoder := ⟨bytesBuffer data, count⟩

/-- Source: `toWriter`. The count grows before the write, whatever the write returns. -/
def Encoder.toWriter (e : Encoder) (bytes : List Nat) : Res :=
  let r := e.output.Write bytes
  (⟨r.1, e.count + bytes.length⟩, r.2)

/-- A call whose returned error the caller drops: the error is forgotten, a panic is not. -/
def dropError (r : Res) : Res :=
  match r with
  | (e, some (Err.panic m)) => (e, some (Err.panic m))
  | (e, _) => (e, none)

/-! ## Sizes and the routines of `encoding/binary` -/

/-- Modelled from the spec: the table `TypeSize` is declared outside `encoder.go`;
the spec gives the declared widths 2, 4 and 8 bytes and the 32-byte hash block. -/
def TypeSize.UInt16 : Nat := 2

/-- Modelled from the spec: see `TypeSize.UInt16`. -/
def TypeSize.UInt32 : Nat := 4

/-- Modelled from the spec: see `TypeSize.UInt16`. -/
def TypeSize.UInt64 : Nat := 8

/-- Modelled from the spec: see `TypeSize.UInt16`. -/
def TypeSize.SHA256Bytes : Nat := 32

/-- The call `make([]byte, n)`. -/
def makeBytes (n : Nat) : List Nat := List.replicate n 0

/-- The routine `binary.LittleEndian.PutUint16`: `b[0] = byte(v); b[1] = byte(v >> 8)`;
`none` is the panic of the bounds check on a short buffer. -/
def PutUint16 (b : List Nat) (v : Nat) : Option (List Nat) :=
  if b.length < 2 then none
  else some ((b.set 0 (v % 256)).set 1 ((v >>> 8) % 256))

/-- The routine `binary.LittleEndian.PutUint32`. -/
def PutUint32 (b : List Nat) (v : Nat) : Option (List Nat) :=
  if b.length < 4 then none
  else some ((((b.set 0 (v % 256)).set 1 ((v >>> 8) % 256)).set 2 ((v >>> 16) % 256)).set 3
    ((v >>> 24) % 256))

/-- The routine `binary.LittleEndian.PutUint64`. -/
def PutUint64 (b : List Nat) (v : Nat) : Option (List Nat) :=
  if b.length < 8 then none
  else some ((((((((b.set 0 (v % 256)).set 1 ((v >>> 8) % 256)).set 2 ((v >>> 16) % 256)).set 3
    ((v >>> 24) % 256)).set 4 ((v >>> 32) % 256)).set 5 ((v >>> 40) % 256)).set 6
    ((v >>> 48) % 256)).set 7 ((v >>> 56) % 256))

/-- The routine `binary.PutUvarint` on a buffer with `room` bytes left:
`for x >= 0x80 { buf[i] = byte(x) | 0x80; x >>= 7; i++ }; buf[i] = byte(x)`.
The result is `buf[:i+1]`; `none` is the index-out-of-range panic of a full buffer. -/
def PutUvarint : Nat → Nat → Option (List Nat)
  | 0, _ => none
  | room + 1, x =>
    if x ≥ 0x80 then
      match PutUvarint room (x >>> 7) with
      | none => none
      | some rest => some (((x % 256) ||| 0x80) :: rest)
    else some [x % 256]

/-! ## The primitive writers -/

/-- Source: `WriteUVarInt(v int)`: `buf := make([]byte, 8)`, `PutUvarint(buf, uint64(v))`. -/
def Encoder.WriteUVarInt (e : Encoder) (v : Int) : Res :=
  match PutUvarint 8 (v % 2 ^ 64).toNat with
  | none => (e, some (Err.panic "index out of range"))
  | some bytes => e.toWriter bytes

/-- Source: `WriteByteArray`. -/
def Encoder.WriteByteArray (e : Encoder) (b : List Nat) : Res :=
  match e.WriteUVarInt (Int.ofNat b.length) with
  | (e1, some err) => (e1, some err)
  | (e1, none) => e1.toWriter b

/-- Source: `WriteByte`. -/
def Encoder.WriteByte (e : Encoder) (b : Nat) : Res := e.toWriter [b]

/-- Source: `WriteBool`. -/
def Encoder.WriteBool (e : Encoder) (b : Bool) : Res :=
  e.WriteByte (if b then 1 else 0)

/-- Source: `WriteUint16`. -/
def Encoder.WriteUint16 (e : Encoder) (i : Nat) : Res :=
  match PutUint16 (makeBytes TypeSize.UInt16) i with
  | none => (e, some (Err.panic "index out of range"))
  | some buf => e.toWriter buf

/-- Source: `WriteInt16`: the conversion `uint16(i)` of an `int16`. -/
def Encoder.WriteInt16 (e : Encoder) (i : Int) : Res :=
  e.WriteUint16 (i % 2 ^ 16).toNat

/-- Source: `WriteUint32`. -/
def Encoder.WriteUint32 (e : Encoder) (i : Nat) : Res :=
  match PutUint32 (makeBytes TypeSize.UInt32) i with
  | none => (e, some (Err.panic "index out of range"))
  | some buf => e.toWriter buf

/-- Source: `WriteUint64`. -/
def Encoder.WriteUint64 (e : Encoder) (i : Nat) : Res :=
  match PutUint64 (makeBytes TypeSize.UInt64) i with
  | none => (e, some (Err.panic "index out of range"))
  | some buf => e.toWriter buf

/-- Source: `WriteString`. -/
def Encoder.WriteString (e : Encoder) (s : List Nat) : Res := e.WriteByteArray s

/-- Source: `WriteSHA256Bytes`. -/
def Encoder.WriteSHA256Bytes (e : Encoder) (s : List Nat) : Res :=
  if s.length = 0 then e.toWriter (List.replicate TypeSize.SHA256Bytes 0)
  else e.toWriter s

/-! ## The name codec -/

deriving instance DecidableEq for Except

/-- Modelled from the spec: `StringToName` and its alphabet live outside `encoder.go`.
The alphabet is `.` (value 0), `1`-`5` (1 to 5) and `a`-`z` (6 to 31); any other
character has no symbol. -/
def charToSymbol (c : Nat) : Option Nat :=
  if c = 46 then some 0
  else if 49 ≤ c ∧ c ≤ 53 then some (c - 48)
  else if 97 ≤ c ∧ c ≤ 122 then some (c - 91)
  else none

/-- Modelled from the spec: the packing loop of `StringToName`, at character index `i`.
The first 12 characters put their 5-bit codes into bits 63 down to 4, most significant
character first; a 13th character puts its low 4 bits into bits 3-0; characters after
the 13th are ignored; a character outside the alphabet is an error that names the
character and its index. -/
def packName : Nat → List Nat → Except String Nat
  | _, [] => Except.ok 0
  | i, c :: cs =>
    if 12 < i then Except.ok 0
    else
      match charToSymbol c with
      | none =>
        Except.error ("invalid character " ++ toString c ++ " at index " ++ toString i)
      | some code =>
        match packName (i + 1) cs with
        | Except.error m => Except.error m
        | Except.ok rest =>
          if i < 12 then Except.ok (code * 2 ^ (59 - 5 * i) + rest)
          else Except.ok (code % 16 + rest)

/-- Modelled from the spec: `StringToName` is declared outside `encoder.go`; see `packName`. -/
def StringToName (s : List Nat) : Except String Nat := packName 0 s

/-- Modelled from the spec: the character of a symbol value, the inverse of `charToSymbol`. -/
def symbolToChar (k : Nat) : Nat :=
  if k = 0 then 46 else if k ≤ 5 then 48 + k else 91 + k

/-- Modelled from the spec: the symbol at character position `i` of a 64-bit name: the
5 bits that end at bit `59 - 5*i` for the first twelve positions, the low 4 bits for
the thirteenth. -/
def symbolAt (n i : Nat) : Nat :=
  if i < 12 then n / 2 ^ (59 - 5 * i) % 32 else n % 16

/-- Modelled from the spec: the 13 symbols of a 64-bit name, most significant first. -/
def nameSymbols (n : Nat) : List Nat := (List.range 13).map (symbolAt n)

/-- Strips the trailing bytes equal to `x` from a string (`strings.TrimRight`). -/
def trimRight (x : Nat) : List Nat → List Nat
  | [] => []
  | c :: cs =>
    match trimRight x cs with
    | [] => if c = x then [] else [c]
    | r :: rs => c :: r :: rs

/-- Modelled from the spec: `NameToString` is declared outside `encoder.go`: decoding
reverses the bit layout and strips the trailing zero-symbols. -/
def NameToString (n : Nat) : List Nat :=
  trimRight 46 ((nameSymbols n).map symbolToChar)

/-- The bytes of an ASCII string literal, for writing examples. -/
def ascii (s : String) : List Nat := s.toList.map Char.toNat

/-! ## The values handed to `Encode` -/

/-- The type `time.Time` as far as the encoder reads it: the seconds since the Unix
epoch (`Unix()`) and the nanoseconds within the second (below 10^9). -/
structure Time where
  sec : Int
  nsec : Nat
  deriving DecidableEq, Repr

/-- The method `Unix` of `time.Time`. -/
def Time.Unix (t : Time) : Int := t.sec

/-- The method `UnixNano` of `time.Time`, before its wrap-around to 64 bits. -/
def Time.UnixNano (t : Time) : Int := t.sec * 1000000000 + t.nsec

set_option linter.dupNamespace false in
/-- The type `Symbol`: precision (a `uint8`) and ticker. -/
structure Symbol where
  Precision : Nat
  Symbol : List Nat
  deriving DecidableEq, Repr

/-- The type `Asset`: an `int64` amount and the embedded `Symbol`. -/
structure Asset where
  Amount : Int
  Symbol : Symbol
  deriving DecidableEq, Repr

/-- The types `ecc.PublicKey` and `ecc.Signature`: curve tag and content. -/
structure Key where
  Curve : Nat
  Content : List Nat
  deriving DecidableEq, Repr

/-- What `Encode` reads of a struct field through `reflect`: its name, the value of its
`eos` tag, whether it is exported (`CanInterface`), and the result of `IsNil` on it
(`none` when the kind of the field has no nil, where `IsNil` panics). -/
structure StructField where
  Name : String
  tag : String
  exported : Bool
  IsNil : Option Bool
  deriving DecidableEq, Repr

/-- The fields that the field loop of `Encode` hands on to `Encode`: those not tagged
`eos:"-"`, not named `_` and exported (`CanInterface`). -/
def StructField.isEncoded (f : StructField) : Bool :=
  decide (f.tag ≠ "-") && (decide (f.Name ≠ "_") && f.exported)

/-- The dynamic values that reach `Encode`, one constructor for each type of its type
switch and for each shape of its structural fallback.

* `array`, `slice`, `struct`, `map` are values of types without a rule of their own;
  they carry the text `reflect` prints for their type. A nil slice or map is the one
  without elements. The entries of a `map` stand in the order `MapKeys` yields them.
* `ptr v` is a non-nil pointer to `v`; `nil` is a nil pointer or nil interface.
* `P2PMessageEnvelopePtr` is a non-nil `*P2PMessageEnvelope` (type tag, stored payload,
  structured message).
* `int32`, `int64` and `other` are values of types that have no rule and are no array,
  slice, struct, map or pointer; `other` carries the printed type and whether its kind
  is `string`. -/
inductive Value where
  | Name (s : List Nat)
  | AccountName (s : List Nat)
  | PermissionName (s : List Nat)
  | ActionName (s : List Nat)
  | TableName (s : List Nat)
  | ScopeName (s : List Nat)
  | string (s : List Nat)
  | TransactionStatus (b : Nat)
  | IDListMode (b : Nat)
  | byte (b : Nat)
  | int8 (i : Int)
  | int16 (i : Int)
  | uint16 (n : Nat)
  | uint32 (n : Nat)
  | uint64 (n : Nat)
  | Varuint32 (n : Nat)
  | bool (b : Bool)
  | Bool (b : Bool)
  | JSONTime (t : Time)
  | HexBytes (b : List Nat)
  | bytes (b : List Nat)
  | SHA256Bytes (b : List Nat)
  | PublicKey (pk : Key)
  | Signature (sig : Key)
  | Tstamp (t : Time)
  | BlockTimestamp (t : Time)
  | CurrencyName (s : List Nat)
  | Asset (a : Asset)
  | ActionData (HexData : List Nat) (Data : Option Value)
  | P2PMessageEnvelopePtr (typ : Nat) (Payload : List Nat) (P2PMessage : Option Value)
  | int32 (i : Int)
  | int64 (i : Int)
  | other (tname : String) (stringKind : Bool)
  | array (tname : String) (elems : List Value)
  | slice (tname : String) (elems : List Value)
  | struct (tname : String) (fields : List (StructField × Value))
  | map (tname : String) (entries : List (Value × Value))
  | ptr (v : Value)
  | nil (tname : String)

/-- The text of `reflect.Type.String()` for the type of a value. -/
def typeString : Value → String
  | .Name _ => "types.Name"
  | .AccountName _ => "types.AccountName"
  | .PermissionName _ => "types.PermissionName"
  | .ActionName _ => "types.ActionName"
  | .TableName _ => "types.TableName"
  | .ScopeName _ => "types.ScopeName"
  | .string _ => "string"
  | .TransactionStatus _ => "types.TransactionStatus"
  | .IDListMode _ => "types.IDListMode"
  | .byte _ => "uint8"
  | .int8 _ => "int8"
  | .int16 _ => "int16"
  | .uint16 _ => "uint16"
  | .uint32 _ => "uint32"
  | .uint64 _ => "uint64"
  | .Varuint32 _ => "types.Varuint32"
  | .bool _ => "bool"
  | .Bool _ => "types.Bool"
  | .JSONTime _ => "types.JSONTime"
  | .HexBytes _ => "types.HexBytes"
  | .bytes _ => "[]uint8"
  | .SHA256Bytes _ => "types.SHA256Bytes"
  | .PublicKey _ => "ecc.PublicKey"
  | .Signature _ => "ecc.Signature"
  | .Tstamp _ => "types.Tstamp"
  | .BlockTimestamp _ => "types.BlockTimestamp"
  | .CurrencyName _ => "types.CurrencyName"
  | .Asset _ => "types.Asset"
  | .ActionData _ _ => "types.ActionData"
  | .P2PMessageEnvelopePtr _ _ _ => "*types.P2PMessageEnvelope"
  | .int32 _ => "int32"
  | .int64 _ => "int64"
  | .other tname _ => tname
  | .array tname _ => tname
  | .slice tname _ => tname
  | .struct tname _ => tname
  | .map tname _ => tname
  | .ptr v => "*" ++ typeString v
  | .nil tname => tname

/-! ## The writers of the domain types -/

/-- One byte as two lower-case hexadecimal digits. -/
def hexDigit (n : Nat) : Char :=
  if n < 10 then Char.ofNat (48 + n) else Char.ofNat (87 + n)

/-- The routine `hex.EncodeToString`. -/
def hexEncodeToString (b : List Nat) : String :=
  String.mk (b.flatMap (fun x => [hexDigit (x / 16 % 16), hexDigit (x % 16)]))

/-- Source: `WriteName`. -/
def Encoder.WriteName (e : Encoder) (name : List Nat) : Res :=
  match StringToName name with
  | Except.error err => (e, some (Err.error ("WriteName: " ++ err)))
  | Except.ok val => e.WriteUint64 val

/-- Source: `WritePublicKey`. -/
def Encoder.WritePublicKey (e : Encoder) (pk : Key) : Res :=
  if pk.Content.length ≠ 33 then
    (e, some (Err.error ("public key \"" ++ hexEncodeToString pk.Content ++
      "\" should be 33 bytes, was " ++ toString pk.Content.length)))
  else
    match e.WriteByte (pk.Curve % 256) with
    | (e1, some err) => (e1, some err)
    | (e1, none) => e1.toWriter pk.Content

/-- Source: `WriteSignature`. -/
def Encoder.WriteSignature (e : Encoder) (s : Key) : Res :=
  if s.Content.length ≠ 65 then
    (e, some (Err.error ("signature should be 65 bytes, was " ++ toString s.Content.length)))
  else
    match e.WriteByte (s.Curve % 256) with
    | (e1, some err) => (e1, some err)
    | (e1, none) => e1.toWriter s.Content

/-- Source: `WriteTstamp`: `uint64(t.UnixNano())`. -/
def Encoder.WriteTstamp (e : Encoder) (t : Time) : Res :=
  e.WriteUint64 (t.UnixNano % 2 ^ 64).toNat

/-- Source: `WriteBlockTimestamp`: `uint32(bt.Unix() - 946684800)`. -/
def Encoder.WriteBlockTimestamp (e : Encoder) (bt : Time) : Res :=
  e.WriteUint32 ((bt.Unix - 946684800) % 2 ^ 32).toNat

/-- The built-in `copy(dst, src)`: the first `min(len(dst), len(src))` bytes of `dst`
are replaced by those of `src`. -/
def copyBytes (dst src : List Nat) : List Nat :=
  src.take dst.length ++ dst.drop src.length

/-- Source: `writeCurrencyName`. -/
def Encoder.writeCurrencyName (e : Encoder) (curreny : List Nat) : Res :=
  e.toWriter (copyBytes (makeBytes 7) curreny)

/-- Source: `writeAsset`. The results of the first two writes are dropped. -/
def Encoder.writeAsset (e : Encoder) (asset : Asset) : Res :=
  match dropError (e.WriteUint64 (asset.Amount % 2 ^ 64).toNat) with
  | (e1, some p) => (e1, some p)
  | (e1, none) =>
    match dropError (e1.WriteByte asset.Symbol.Precision) with
    | (e2, some p) => (e2, some p)
    | (e2, none) => e2.toWriter (copyBytes (makeBytes 7) asset.Symbol.Symbol)

/-- Source: `writeJSONTime`: `uint32(time.Unix())`. -/
def Encoder.writeJSONTime (e : Encoder) (time : Time) : Res :=
  e.WriteUint32 (time.Unix % 2 ^ 32).toNat

/-- The value of a hexadecimal digit (`fromHexChar` of `encoding/hex`). -/
def fromHexChar (c : Nat) : Option Nat :=
  if 48 ≤ c ∧ c ≤ 57 then some (c - 48)
  else if 97 ≤ c ∧ c ≤ 102 then some (c - 87)
  else if 65 ≤ c ∧ c ≤ 70 then some (c - 55)
  else none

/-- The text of `%#U` for a byte: `U+0067 'g'`, without the quoted character when it is
not printable. -/
def formatU (c : Nat) : String :=
  let digits := (Nat.toDigits 16 c).map Char.toUpper
  let code := "U+" ++ String.mk (List.replicate (4 - digits.length) (Char.ofNat 48) ++ digits)
  if (32 ≤ c ∧ c ≤ 126) ∨ (161 ≤ c ∧ c ≤ 255 ∧ c ≠ 173) then
    code ++ " " ++ String.mk [Char.ofNat 39, Char.ofNat c, Char.ofNat 39]
  else code

/-- The text of `hex.InvalidByteError`. -/
def invalidByte (c : Nat) : String := "encoding/hex: invalid byte: " ++ formatU c

/-- The routine `hex.DecodeString`: pairs of digits to bytes; the first invalid digit is
an error that names it, an odd length is an error. -/
def hexDecodeString : List Nat → Except String (List Nat)
  | [] => Except.ok []
  | [c] =>
    match fromHexChar c with
    | none => Except.error (invalidByte c)
    | some _ => Except.error "encoding/hex: odd length hex string"
  | a :: b :: rest =>
    match fromHexChar a, fromHexChar b with
    | some x, some y =>
      match hexDecodeString rest with
      | Except.ok bs => Except.ok ((x * 16 + y) :: bs)
      | Except.error m => Except.error m
    | none, _ => Except.error (invalidByte a)
    | some _, none => Except.error (invalidByte b)

/-- The loop of the slice rule of `Encode` over the bytes of a byte slice: each element
is a `byte` and goes through `WriteByte`. -/
def Encoder.encodeByteElems (e : Encoder) : List Nat → Res
  | [] => (e, none)
  | b :: bs =>
    match e.WriteByte b with
    | (e1, some err) => (e1, some err)
    | (e1, none) => Encoder.encodeByteElems e1 bs

/-- The text of the unsupported-type error of `Encode`. -/
def unsupported (t : String) : Err := Err.error ("Encode: unsupported type " ++ t)

/-- Whether the kind of a value is `string` and its type is not `string` itself: the named
string types, on which the assertion `d.(string)` of `writeActionData` panics. -/
def stringKind : Value → Bool
  | .Name _ => true
  | .AccountName _ => true
  | .PermissionName _ => true
  | .ActionName _ => true
  | .TableName _ => true
  | .ScopeName _ => true
  | .CurrencyName _ => true
  | .other _ k => k
  | _ => false

/-! ## `Encode` -/

mutual

/-- Source: `Encode`. The type switch comes first; a pointer that has no rule of its own
is followed once (`reflect.Indirect`) and the kind of what it points to decides.
The struct declarations of the domain types are outside `encoder.go`; behind a pointer
their fields are taken as the tests write them: the time types wrap a `time.Time`,
a key or signature is curve tag then content, an asset is amount then symbol. -/
def Encoder.Encode (e : Encoder) : Value → Res
  | .Name cv => e.WriteName cv
  | .AccountName cv => e.WriteName cv
  | .PermissionName cv => e.WriteName cv
  | .ActionName cv => e.WriteName cv
  | .TableName cv => e.WriteName cv
  | .ScopeName cv => e.WriteName cv
  | .string cv => e.WriteString cv
  | .TransactionStatus cv => e.WriteByte (cv % 256)
  | .IDListMode cv => e.WriteByte (cv % 256)
  | .byte cv => e.WriteByte cv
  | .int8 cv => e.WriteByte (cv % 256).toNat
  | .int16 cv => e.WriteInt16 cv
  | .uint16 cv => e.WriteUint16 cv
  | .uint32 cv => e.WriteUint32 cv
  | .uint64 cv => e.WriteUint64 cv
  | .Varuint32 cv => e.WriteUVarInt (Int.ofNat cv)
  | .bool cv => e.WriteBool cv
  | .Bool cv => e.WriteBool cv
  | .JSONTime cv => e.writeJSONTime cv
  | .HexBytes cv => e.WriteByteArray cv
  | .bytes cv => e.WriteByteArray cv
  | .SHA256Bytes cv => e.WriteSHA256Bytes cv
  | .PublicKey cv => e.WritePublicKey cv
  | .Signature cv => e.WriteSignature cv
  | .Tstamp cv => e.WriteTstamp cv
  | .BlockTimestamp cv => e.WriteBlockTimestamp cv
  | .CurrencyName cv => e.writeCurrencyName cv
  | .Asset cv => e.writeAsset cv
  | .ActionData hexData data => Encoder.writeActionData e hexData data
  | .P2PMessageEnvelopePtr typ payload msg =>
    Encoder.WriteBlockP2PMessageEnvelope e typ payload msg
  -- default: the kind of the value decides
  | .array _ elems => Encoder.encodeElems e elems
  | .slice _ elems =>
    match e.WriteUVarInt (Int.ofNat elems.length) with
    | (e1, some err) => (e1, some err)
    | (e1, none) => Encoder.encodeElems e1 elems
  | .struct _ fields => Encoder.encodeFields e fields
  | .map _ entries =>
    match e.WriteUVarInt (Int.ofNat entries.length) with
    | (e1, some err) => (e1, some err)
    | (e1, none) => Encoder.encodeEntries e1 entries
  | .int32 cv => (e, some (unsupported (typeString (.int32 cv))))
  | .int64 cv => (e, some (unsupported (typeString (.int64 cv))))
  | .other tname k => (e, some (unsupported (typeString (.other tname k))))
  | .nil _ => (e, some (Err.panic "reflect: call of reflect.Value.Type on zero Value"))
  -- pointers: `*ActionData` has a rule, every other pointer is followed once
  | .ptr (.ActionData hexData data) => Encoder.writeActionData e hexData data
  | .ptr (.array _ elems) => Encoder.encodeElems e elems
  | .ptr (.slice _ elems) =>
    match e.WriteUVarInt (Int.ofNat elems.length) with
    | (e1, some err) => (e1, some err)
    | (e1, none) => Encoder.encodeElems e1 elems
  | .ptr (.struct _ fields) => Encoder.encodeFields e fields
  | .ptr (.map _ entries) =>
    match e.WriteUVarInt (Int.ofNat entries.length) with
    | (e1, some err) => (e1, some err)
    | (e1, none) => Encoder.encodeEntries e1 entries
  -- the byte slices are slices of `byte`
  | .ptr (.HexBytes b) =>
    match e.WriteUVarInt (Int.ofNat b.length) with
    | (e1, some err) => (e1, some err)
    | (e1, none) => e1.encodeByteElems b
  | .ptr (.bytes b) =>
    match e.WriteUVarInt (Int.ofNat b.length) with
    | (e1, some err) => (e1, some err)
    | (e1, none) => e1.encodeByteElems b
  | .ptr (.SHA256Bytes b) =>
    match e.WriteUVarInt (Int.ofNat b.length) with
    | (e1, some err) => (e1, some err)
    | (e1, none) => e1.encodeByteElems b
  -- the time types are structs around a `time.Time`, whose fields are all unexported
  | .ptr (.JSONTime _) => (e, none)
  | .ptr (.Tstamp _) => (e, none)
  | .ptr (.BlockTimestamp _) => (e, none)
  -- the first field of a key or a signature is the curve tag, of a type without a rule
  | .ptr (.PublicKey _) => (e, some (unsupported "ecc.CurveID"))
  | .ptr (.Signature _) => (e, some (unsupported "ecc.CurveID"))
  -- the first field of an asset is the `int64` amount
  | .ptr (.Asset _) => (e, some (unsupported "int64"))
  | .ptr v => (e, some (unsupported (typeString v)))

/-- The element loop of the array and slice rules: stop at the first error. -/
def Encoder.encodeElems (e : Encoder) : List Value → Res
  | [] => (e, none)
  | v :: rest =>
    match Encoder.Encode e v with
    | (e1, some err) => (e1, some err)
    | (e1, none) => Encoder.encodeElems e1 rest

/-- The field loop of the struct rule. -/
def Encoder.encodeFields (e : Encoder) : List (StructField × Value) → Res
  | [] => (e, none)
  | (field, v) :: rest =>
    if field.tag = "-" then Encoder.encodeFields e rest
    else if field.Name ≠ "_" ∧ field.exported then
      if field.tag = "optional" then
        match field.IsNil with
        | none => (e, some (Err.panic "reflect: call of reflect.Value.IsNil on a value without nil"))
        | some isNil =>
          -- `e.WriteBool(isPresent)`: the result is dropped
          match dropError (e.WriteBool (!isNil)) with
          | (e1, some p) => (e1, some p)
          | (e1, none) =>
            if !isNil then
              match Encoder.Encode e1 v with
              | (e2, some err) => (e2, some err)
              | (e2, none) => Encoder.encodeFields e2 rest
            else Encoder.encodeFields e1 rest
      else
        match Encoder.Encode e v with
        | (e1, some err) => (e1, some err)
        | (e1, none) => Encoder.encodeFields e1 rest
    else Encoder.encodeFields e rest

/-- The entry loop of the map rule: key, then value. -/
def Encoder.encodeEntries (e : Encoder) : List (Value × Value) → Res
  | [] => (e, none)
  | (key, value) :: rest =>
    match Encoder.Encode e key with
    | (e1, some err) => (e1, some err)
    | (e1, none) =>
      match Encoder.Encode e1 value with
      | (e2, some err) => (e2, some err)
      | (e2, none) => Encoder.encodeEntries e2 rest

/-- Source: `writeActionData`, on the fields `HexData` and `Data` of the action data.
`MarshalBinary(d)` is `Encode` on a new encoder over a new `bytes.Buffer`.
A `*P2PMessageEnvelope` as `Data` would be dereferenced to the struct, whose declaration
is outside `encoder.go`; it is handed on as it is here, and the statements about the
payload of an action leave pointers as `d` aside (`pointerKind`). -/
def Encoder.writeActionData (e : Encoder) (hexData : List Nat) : Option Value → Res
  | none => e.WriteByteArray hexData
  -- a typed nil pointer: `Elem().Interface()` panics
  | some (.nil _) => (e, some (Err.panic "reflect: call of reflect.Value.Interface on zero Value"))
  -- a string: `hex.DecodeString`; the result of `WriteByteArray` is dropped
  | some (.string s) =>
    match hexDecodeString s with
    | Except.error err => (e, some (Err.error ("ack, " ++ err)))
    | Except.ok data => dropError (e.WriteByteArray data)
  | some (.ptr (.string s)) =>
    match hexDecodeString s with
    | Except.error err => (e, some (Err.error ("ack, " ++ err)))
    | Except.ok data => dropError (e.WriteByteArray data)
  | some (.ptr d) =>
    if stringKind d then (e, some (Err.panic "interface conversion: interface is not string"))
    else
      match Encoder.Encode (NewEncoder (bytesBuffer [])) d with
      | (_, some err) => (e, some err)
      | (sub, none) => e.WriteByteArray sub.output.data
  | some d =>
    if stringKind d then (e, some (Err.panic "interface conversion: interface is not string"))
    else
      match Encoder.Encode (NewEncoder (bytesBuffer [])) d with
      | (_, some err) => (e, some err)
      | (sub, none) => e.WriteByteArray sub.output.data

/-- Source: `WriteBlockP2PMessageEnvelope`, on the fields `Type`, `Payload` and
`P2PMessage` of the envelope. -/
def Encoder.WriteBlockP2PMessageEnvelope (e : Encoder) (typ : Nat) (payload : List Nat) :
    Option Value → Res
  | some m =>
    match Encoder.Encode (NewEncoder (bytesBuffer [])) m with
    | (_, some (Err.error err)) => (e, some (Err.error ("p2p message, " ++ err)))
    | (_, some (Err.panic p)) => (e, some (Err.panic p))
    | (sub, none) =>
      match e.WriteUint32 ((sub.output.data.length + 1) % 2 ^ 32) with
      | (e1, some err) => (e1, some err)
      | (e1, none) =>
        match e1.WriteByte (typ % 256) with
        | (e2, some err) => (e2, some err)
        | (e2, none) => e2.toWriter sub.output.data
  | none =>
    match e.WriteUint32 ((payload.length + 1) % 2 ^ 32) with
    | (e1, some err) => (e1, some err)
    | (e1, none) =>
      match e1.WriteByte (typ % 256) with
      | (e2, some err) => (e2, some err)
      | (e2, none) => e2.toWriter payload

end

/-- Source: `MarshalBinary`: the bytes of the buffer and the error of `Encode`. -/
def MarshalBinary (v : Value) : List Nat × Option Err :=
  let r := (NewEncoder (bytesBuffer [])).Encode v
  (r.1.output.data, r.2)

/-! ## The wire format in its own words

The definitions below state the format independently of the encoder; the theorems
compare the encoder with them. -/

/-- The unsigned LEB128 form of a number: its 7-bit groups, least significant first,
with the high bit set on every byte but the last. -/
def leb128 (n : Nat) : List Nat :=
  if n < 128 then [n] else (n % 128 + 128) :: leb128 (n / 128)
termination_by n
decreasing_by omega

/-- The number that a sequence of 7-bit groups stands for, least significant group first. -/
def groupsValue : List Nat → Nat
  | [] => 0
  | b :: bs => b % 128 + 128 * groupsValue bs

/-- The bytes after the first of a well-formed varint of more than one byte: high bit set
on all but the last, and the last is a non-zero group with the high bit clear. -/
def varintTail : List Nat → Bool
  | [] => false
  | [b] => decide (0 < b ∧ b < 128)
  | b :: c :: rest => decide (128 ≤ b ∧ b < 256) && varintTail (c :: rest)

/-- A well-formed varint: every byte except the last has its high bit set, the last has
it clear, and there is no redundant trailing zero group. -/
def wellFormedVarint : List Nat → Bool
  | [] => false
  | [b] => decide (b < 128)
  | b :: c :: rest => decide (128 ≤ b ∧ b < 256) && varintTail (c :: rest)

/-- The `k` little-endian bytes of a number. -/
def leBytes : Nat → Nat → List Nat
  | 0, _ => []
  | k + 1, n => n % 256 :: leBytes k (n / 256)

/-- The number that bytes stand for, read little-endian: the sum of `b_i * 256^i`. -/
def leValue : List Nat → Nat
  | [] => 0
  | b :: bs => b + 256 * leValue bs

/-- The signed reading of an unsigned 16-bit number (two's complement). -/
def asInt16 (u : Nat) : Int := if u < 2 ^ 15 then (u : Int) else (u : Int) - 2 ^ 16

/-! ## The decoder, from the spec

The decoder is not part of `encoder.go`. The definitions of this section follow the
spec: decoding mirrors the dispatch of `Encode` against the declared shape of the
destination, reads from a buffer with an advancing cursor, and refuses a read that
exceeds the remaining bytes before performing it. There is a shape for every type with
a rule in `Encode` and for every kind of its structural fallback. -/

/-- Modelled from the spec: the declared shape of a decoding destination. -/
inductive Shape where
  | Name
  | AccountName
  | PermissionName
  | ActionName
  | TableName
  | ScopeName
  | string
  | TransactionStatus
  | IDListMode
  | byte
  | int8
  | int16
  | uint16
  | uint32
  | uint64
  | Varuint32
  | bool
  | Bool
  | JSONTime
  | HexBytes
  | bytes
  | SHA256Bytes
  | PublicKey
  | Signature
  | Tstamp
  | BlockTimestamp
  | CurrencyName
  | Asset
  | ActionData
  | P2PMessageEnvelopePtr
  | array (tname : String) (len : Nat) (elem : Shape)
  | slice (tname : String) (elem : Shape)
  | struct (tname : String) (fields : List (StructField × Shape))
  | map (tname : String) (key : Shape) (value : Shape)
  | ptr (tname : String) (elem : Shape)

/-- The result of a read: the value and the bytes that remain, or the error text. -/
abbrev Read (α : Type) := Except String (α × List Nat)

/-- Modelled from the spec: a read of `k` bytes; a read beyond the remaining bytes is
refused with the name of the field, the bytes required and the bytes remaining
(`"byte required [1] byte, remaining [0]"`, `"uint16 required [2] bytes, remaining [0]"`). -/
def readBytes (what : String) (k : Nat) (buf : List Nat) : Read (List Nat) :=
  if buf.length < k then
    Except.error (what ++ " required [" ++ toString k ++ (if k = 1 then "] byte" else "] bytes")
      ++ ", remaining [" ++ toString buf.length ++ "]")
  else Except.ok (buf.take k, buf.drop k)

/-- Modelled from the spec: the groups of a varint, at most `fuel` bytes of them. -/
def uvarint : Nat → List Nat → Option (Nat × List Nat)
  | 0, _ => none
  | _ + 1, [] => none
  | fuel + 1, b :: rest =>
    if b < 128 then some (b, rest)
    else
      match uvarint fuel rest with
      | none => none
      | some (v, r) => some (b % 128 + 128 * v, r)

/-- Modelled from the spec: the varint read (unsigned LEB128, at most 10 bytes). -/
def ReadUvarint (buf : List Nat) : Read Nat :=
  match uvarint 10 buf with
  | none => Except.error "varint: invalid buffer size"
  | some r => Except.ok r

/-- Modelled from the spec: a byte array is its varint length and that many bytes. -/
def ReadByteArray (buf : List Nat) : Read (List Nat) :=
  match ReadUvarint buf with
  | Except.error m => Except.error m
  | Except.ok (l, rest) =>
    if rest.length < l then
      Except.error ("byte array: varlen=" ++ toString l ++ ", missing " ++
        toString (l - rest.length) ++ " bytes")
    else Except.ok (rest.take l, rest.drop l)

/-- Modelled from the spec: a fixed-width little-endian unsigned integer of `k` bytes. -/
def readLE (what : String) (k : Nat) (buf : List Nat) : Read Nat :=
  match readBytes what k buf with
  | Except.error m => Except.error m
  | Except.ok (bs, rest) => Except.ok (leValue bs, rest)

/-- The signed reading of an unsigned 64-bit number (two's complement). -/
def asInt64 (u : Nat) : Int := if u < 2 ^ 63 then (u : Int) else (u : Int) - 2 ^ 64

/-- Modelled from the spec: `n` items read one after the other with the reader `dec`. -/
def decodeN {α : Type} (dec : List Nat → Read α) : Nat → List Nat → Read (List α)
  | 0, buf => Except.ok ([], buf)
  | n + 1, buf =>
    match dec buf with
    | Except.error m => Except.error m
    | Except.ok (x, rest) =>
      match decodeN dec n rest with
      | Except.error m => Except.error m
      | Except.ok (xs, rest2) => Except.ok (x :: xs, rest2)

/-- Modelled from the spec: a map entry, the key read with `decKey` and then the value
with `decValue`. -/
def decodeEntry {α β : Type} (decKey : List Nat → Read α) (decValue : List Nat → Read β)
    (buf : List Nat) : Read (α × β) :=
  match decKey buf with
  | Except.error m => Except.error m
  | Except.ok (k, rest) =>
    match decValue rest with
    | Except.error m => Except.error m
    | Except.ok (v, rest2) => Except.ok ((k, v), rest2)

/-- Modelled from the spec: the 16 bytes of an asset: amount, precision, ticker with its
zero padding removed. -/
def ReadAsset (buf : List Nat) : Read Asset :=
  match readLE "asset" 8 buf with
  | Except.error m => Except.error m
  | Except.ok (amount, r1) =>
    match readBytes "asset" 1 r1 with
    | Except.error m => Except.error m
    | Except.ok (p, r2) =>
      match readBytes "asset" 7 r2 with
      | Except.error m => Except.error m
      | Except.ok (sym, r3) => Except.ok (⟨asInt64 amount, ⟨p.headD 0, trimRight 0 sym⟩⟩, r3)

/-- Modelled from the spec: curve tag and fixed content of a key or signature. -/
def readKey (what : String) (width : Nat) (buf : List Nat) : Read Key :=
  match readBytes what (width + 1) buf with
  | Except.error m => Except.error m
  | Except.ok (bs, rest) => Except.ok (⟨bs.headD 0, bs.tail⟩, rest)

/-- Modelled from the spec: a 64-bit name, unpacked to its string. -/
def ReadName (buf : List Nat) : Read (List Nat) :=
  match readLE "uint64" 8 buf with
  | Except.error m => Except.error m
  | Except.ok (n, rest) => Except.ok (NameToString n, rest)

/-- Applies `f` to the value of a read. -/
def Read.map {α β : Type} (f : α → β) (r : Read α) : Read β :=
  match r with
  | Except.error m => Except.error m
  | Except.ok (x, rest) => Except.ok (f x, rest)

/-- The signed reading of an unsigned 8-bit number (two's complement). -/
def asInt8 (u : Nat) : Int := if u < 2 ^ 7 then (u : Int) else (u : Int) - 2 ^ 8

/-- The zero value of `time.Time`: January 1 of the year 1, 00:00:00 UTC. -/
def zeroTime : Time := ⟨-62135596800, 0⟩

mutual

/-- Modelled from the spec: the zero value of a destination of the given shape, what a
new destination holds before `Decode` and what it still holds where `Decode` writes
nothing. -/
def zeroValue : Shape → Value
  | .Name => Value.Name []
  | .AccountName => Value.AccountName []
  | .PermissionName => Value.PermissionName []
  | .ActionName => Value.ActionName []
  | .TableName => Value.TableName []
  | .ScopeName => Value.ScopeName []
  | .string => Value.string []
  | .TransactionStatus => Value.TransactionStatus 0
  | .IDListMode => Value.IDListMode 0
  | .byte => Value.byte 0
  | .int8 => Value.int8 0
  | .int16 => Value.int16 0
  | .uint16 => Value.uint16 0
  | .uint32 => Value.uint32 0
  | .uint64 => Value.uint64 0
  | .Varuint32 => Value.Varuint32 0
  | .bool => Value.bool false
  | .Bool => Value.Bool false
  | .JSONTime => Value.JSONTime zeroTime
  | .HexBytes => Value.HexBytes []
  | .bytes => Value.bytes []
  | .SHA256Bytes => Value.SHA256Bytes []
  | .PublicKey => Value.PublicKey ⟨0, []⟩
  | .Signature => Value.Signature ⟨0, []⟩
  | .Tstamp => Value.Tstamp zeroTime
  | .BlockTimestamp => Value.BlockTimestamp zeroTime
  | .CurrencyName => Value.CurrencyName []
  | .Asset => Value.Asset ⟨0, ⟨0, []⟩⟩
  | .ActionData => Value.ActionData [] none
  | .P2PMessageEnvelopePtr => Value.nil "*types.P2PMessageEnvelope"
  | .array tname len elem => Value.array tname (List.replicate len (zeroValue elem))
  | .slice tname _ => Value.slice tname []
  | .struct tname fields => Value.struct tname (zeroFields fields)
  | .map tname _ _ => Value.map tname []
  | .ptr tname _ => Value.nil tname

/-- See `zeroValue`. -/
def zeroFields : List (StructField × Shape) → List (StructField × Value)
  | [] => []
  | (field, sh) :: rest => (field, zeroValue sh) :: zeroFields rest

end

/-- Modelled from the spec: the envelope of a P2P message (section 4.5): the 4-byte
length, which counts the type tag, then the tag, then the payload. The structured message
is not rebuilt. -/
def ReadP2PMessageEnvelope (buf : List Nat) : Read Value :=
  match readLE "uint32" 4 buf with
  | Except.error m => Except.error m
  | Except.ok (len, r1) =>
    match readBytes "byte" 1 r1 with
    | Except.error m => Except.error m
    | Except.ok (t, r2) =>
      match readBytes "payload" (len - 1) r2 with
      | Except.error m => Except.error m
      | Except.ok (p, r3) => Except.ok (Value.P2PMessageEnvelopePtr (t.headD 0) p none, r3)

mutual

/-- Modelled from the spec: `Decode` into a destination of the given shape, the mirror
of the dispatch of `Encode`. An `ActionData` comes back as its bytes (the registry of
payload shapes is outside the codec), and a pointer destination is a new value of the
shape it points to. -/
def Decode : Shape → List Nat → Read Value
  | .Name, buf => (ReadName buf).map Value.Name
  | .AccountName, buf => (ReadName buf).map Value.AccountName
  | .PermissionName, buf => (ReadName buf).map Value.PermissionName
  | .ActionName, buf => (ReadName buf).map Value.ActionName
  | .TableName, buf => (ReadName buf).map Value.TableName
  | .ScopeName, buf => (ReadName buf).map Value.ScopeName
  | .string, buf => (ReadByteArray buf).map Value.string
  | .TransactionStatus, buf =>
    (readBytes "byte" 1 buf).map (fun b => Value.TransactionStatus (b.headD 0))
  | .IDListMode, buf => (readBytes "byte" 1 buf).map (fun b => Value.IDListMode (b.headD 0))
  | .byte, buf => (readBytes "byte" 1 buf).map (fun b => Value.byte (b.headD 0))
  | .int8, buf => (readBytes "byte" 1 buf).map (fun b => Value.int8 (asInt8 (b.headD 0)))
  | .int16, buf => (readLE "int16" 2 buf).map (fun n => Value.int16 (asInt16 n))
  | .uint16, buf => (readLE "uint16" 2 buf).map Value.uint16
  | .uint32, buf => (readLE "uint32" 4 buf).map Value.uint32
  | .uint64, buf => (readLE "uint64" 8 buf).map Value.uint64
  | .Varuint32, buf => (ReadUvarint buf).map (fun n => Value.Varuint32 (n % 2 ^ 32))
  | .bool, buf => (readBytes "bool" 1 buf).map (fun b => Value.bool (b.headD 0 != 0))
  | .Bool, buf => (readBytes "bool" 1 buf).map (fun b => Value.Bool (b.headD 0 != 0))
  | .JSONTime, buf =>
    (readLE "uint32" 4 buf).map (fun (n : Nat) => Value.JSONTime ⟨(n : Int), 0⟩)
  | .HexBytes, buf => (ReadByteArray buf).map Value.HexBytes
  | .bytes, buf => (ReadByteArray buf).map Value.bytes
  | .SHA256Bytes, buf => (readBytes "sha256" 32 buf).map Value.SHA256Bytes
  | .PublicKey, buf => (readKey "publicKey" 33 buf).map Value.PublicKey
  | .Signature, buf => (readKey "signature" 65 buf).map Value.Signature
  | .Tstamp, buf =>
    (readLE "tstamp" 8 buf).map
      (fun (n : Nat) => Value.Tstamp ⟨((n / 1000000000 : Nat) : Int), n % 1000000000⟩)
  | .BlockTimestamp, buf =>
    (readLE "blockTimestamp" 4 buf).map
      (fun (n : Nat) => Value.BlockTimestamp ⟨(n : Int) + 946684800, 0⟩)
  | .CurrencyName, buf =>
    (readBytes "currencyName" 7 buf).map (fun bs => Value.CurrencyName (trimRight 0 bs))
  | .Asset, buf => (ReadAsset buf).map Value.Asset
  | .ActionData, buf => (ReadByteArray buf).map (fun b => Value.ActionData b none)
  | .P2PMessageEnvelopePtr, buf => ReadP2PMessageEnvelope buf
  | .array tname len elem, buf => (decodeN (Decode elem) len buf).map (Value.array tname)
  | .slice tname elem, buf =>
    match ReadUvarint buf with
    | Except.error m => Except.error m
    | Except.ok (l, rest) => (decodeN (Decode elem) l rest).map (Value.slice tname)
  | .struct tname fields, buf => (decodeFields fields buf).map (Value.struct tname)
  | .map tname key value, buf =>
    match ReadUvarint buf with
    | Except.error m => Except.error m
    | Except.ok (l, rest) =>
      (decodeN (decodeEntry (Decode key) (Decode value)) l rest).map (Value.map tname)
  | .ptr _ elem, buf => (Decode elem buf).map Value.ptr

/-- Modelled from the spec: the fields of an aggregate, in declaration order. A field
that `Encode` does not write (excluded, unexported or named `_`) is not read and keeps
the zero value; a field tagged `optional` is read after its presence byte, and keeps the
zero value when that byte is 0. -/
def decodeFields : List (StructField × Shape) → List Nat → Read (List (StructField × Value))
  | [], buf => Except.ok ([], buf)
  | (field, sh) :: rest, buf =>
    if field.isEncoded then
      if field.tag = "optional" then
        match readBytes "bool" 1 buf with
        | Except.error m => Except.error m
        | Except.ok (b, buf0) =>
          if b.headD 0 != 0 then
            match Decode sh buf0 with
            | Except.error m => Except.error m
            | Except.ok (v, buf1) =>
              match decodeFields rest buf1 with
              | Except.error m => Except.error m
              | Except.ok (vs, buf2) =>
                Except.ok (({ field with IsNil := some false }, v) :: vs, buf2)
          else
            match decodeFields rest buf0 with
            | Except.error m => Except.error m
            | Except.ok (vs, buf2) =>
              Except.ok (({ field with IsNil := some true }, zeroValue sh) :: vs, buf2)
      else
        match Decode sh buf with
        | Except.error m => Except.error m
        | Except.ok (v, buf1) =>
          match decodeFields rest buf1 with
          | Except.error m => Except.error m
          | Except.ok (vs, buf2) => Except.ok ((field, v) :: vs, buf2)
    else
      match decodeFields rest buf with
      | Except.error m => Except.error m
      | Except.ok (vs, buf2) => Except.ok ((field, zeroValue sh) :: vs, buf2)

end

/-- An identifier that packing and unpacking give back: at most 13 characters of the
alphabet, no `.` at the end, and a 13th character with a symbol value below 16. -/
def canonicalName (s : List Nat) : Bool :=
  decide (s.length ≤ 13) && s.all (fun c => (charToSymbol c).isSome)
    && decide (s.getLast? ≠ some 46)
    && (match s.get? 12 with
        | none => true
        | some c =>
          match charToSymbol c with
          | none => false
          | some k => decide (k < 16))

/-- The values behind a pointer that `Encode` encodes like the value itself: those of the
structural fallback (array, slice, aggregate, map, and the byte slices as slices of bytes)
and `ActionData`, whose pointer has a rule of its own. -/
def followedByPointer : Value → Bool
  | .array _ _ => true
  | .slice _ _ => true
  | .struct _ _ => true
  | .map _ _ => true
  | .HexBytes _ => true
  | .bytes _ => true
  | .ActionData _ _ => true
  | _ => false

mutual

/-- The value `v` is a value of a destination of shape `sh`, within the ranges of its
type: integers within their width, lengths that fit in memory, a hash of 32 bytes or
empty, a key of 33 and a signature of 65 bytes with a one-byte curve tag, a `Tstamp`
from 1970 on whose nanosecond count fits 64 bits, a `BlockTimestamp` at a whole second
from 2000 on that fits 32 bits, an asset or currency name with a ticker of at most 7 bytes that
does not end in a zero byte, a canonical identifier, a `JSONTime` at a whole second that
fits 32 bits, an `ActionData` that holds its bytes, an envelope that holds its payload, and
a pointer that `Encode` follows to a value of the shape. -/
def conforms : Shape → Value → Bool
  | .Name, v => match v with
    | .Name s => canonicalName s
    | _ => false
  | .AccountName, v => match v with
    | .AccountName s => canonicalName s
    | _ => false
  | .PermissionName, v => match v with
    | .PermissionName s => canonicalName s
    | _ => false
  | .ActionName, v => match v with
    | .ActionName s => canonicalName s
    | _ => false
  | .TableName, v => match v with
    | .TableName s => canonicalName s
    | _ => false
  | .ScopeName, v => match v with
    | .ScopeName s => canonicalName s
    | _ => false
  | .string, v => match v with
    | .string s => decide (s.length < 2 ^ 56)
    | _ => false
  | .TransactionStatus, v => match v with
    | .TransactionStatus b => decide (b < 256)
    | _ => false
  | .IDListMode, v => match v with
    | .IDListMode b => decide (b < 256)
    | _ => false
  | .byte, v => match v with
    | .byte _ => true
    | _ => false
  | .int8, v => match v with
    | .int8 i => decide (-2 ^ 7 ≤ i ∧ i < 2 ^ 7)
    | _ => false
  | .int16, v => match v with
    | .int16 i => decide (-2 ^ 15 ≤ i ∧ i < 2 ^ 15)
    | _ => false
  | .uint16, v => match v with
    | .uint16 n => decide (n < 2 ^ 16)
    | _ => false
  | .uint32, v => match v with
    | .uint32 n => decide (n < 2 ^ 32)
    | _ => false
  | .uint64, v => match v with
    | .uint64 n => decide (n < 2 ^ 64)
    | _ => false
  | .Varuint32, v => match v with
    | .Varuint32 n => decide (n < 2 ^ 32)
    | _ => false
  | .bool, v => match v with
    | .bool _ => true
    | _ => false
  | .Bool, v => match v with
    | .Bool _ => true
    | _ => false
  | .JSONTime, v => match v with
    | .JSONTime t => decide (t.nsec = 0 ∧ 0 ≤ t.sec ∧ t.sec < 2 ^ 32)
    | _ => false
  | .HexBytes, v => match v with
    | .HexBytes b => decide (b.length < 2 ^ 56)
    | _ => false
  | .bytes, v => match v with
    | .bytes b => decide (b.length < 2 ^ 56)
    | _ => false
  | .SHA256Bytes, v => match v with
    | .SHA256Bytes b => decide (b.length = 32 ∨ b.length = 0)
    | _ => false
  | .PublicKey, v => match v with
    | .PublicKey pk => decide (pk.Content.length = 33 ∧ pk.Curve < 256)
    | _ => false
  | .Signature, v => match v with
    | .Signature sig => decide (sig.Content.length = 65 ∧ sig.Curve < 256)
    | _ => false
  | .Tstamp, v => match v with
    | .Tstamp t => decide (0 ≤ t.sec ∧ t.nsec < 1000000000 ∧ t.UnixNano < 2 ^ 64)
    | _ => false
  | .BlockTimestamp, v => match v with
    | .BlockTimestamp t =>
      decide (t.nsec = 0 ∧ 946684800 ≤ t.sec ∧ t.sec < 946684800 + 2 ^ 32)
    | _ => false
  | .CurrencyName, v => match v with
    | .CurrencyName s => decide (s.length ≤ 7 ∧ s.getLast? ≠ some 0)
    | _ => false
  | .Asset, v => match v with
    | .Asset a =>
      decide (-2 ^ 63 ≤ a.Amount ∧ a.Amount < 2 ^ 63 ∧ a.Symbol.Symbol.length ≤ 7
        ∧ a.Symbol.Symbol.getLast? ≠ some 0)
    | _ => false
  | .ActionData, v => match v with
    | .ActionData hexData data => data.isNone && decide (hexData.length < 2 ^ 56)
    | _ => false
  | .P2PMessageEnvelopePtr, v => match v with
    | .P2PMessageEnvelopePtr typ payload msg =>
      msg.isNone && decide (typ < 256 ∧ payload.length + 1 < 2 ^ 32)
    | _ => false
  | .array tname len elem, v => match v with
    | .array t vs => decide (t = tname) && decide (vs.length = len) && vs.all (conforms elem)
    | _ => false
  | .slice tname elem, v => match v with
    | .slice t vs =>
      decide (t = tname) && decide (vs.length < 2 ^ 56) && vs.all (conforms elem)
    | _ => false
  | .struct tname fields, v => match v with
    | .struct t fvs => decide (t = tname) && conformsFields fields fvs
    | _ => false
  | .map tname key value, v => match v with
    | .map t es =>
      decide (t = tname) && decide (es.length < 2 ^ 56)
        && es.all (fun kv => conforms key kv.1 && conforms value kv.2)
    | _ => false
  | .ptr _ elem, v => match v with
    | .ptr w => followedByPointer w && conforms elem w
    | _ => false

/-- The fields of a value are those of the shape. A field that `Encode` writes as it is
conforms to its shape; a field tagged `optional` is null, or not null and conforms; a
field that `Encode` does not write holds whatever it holds. -/
def conformsFields : List (StructField × Shape) → List (StructField × Value) → Bool
  | [], fvs => fvs.isEmpty
  | (field, sh) :: rest, fvs => match fvs with
    | [] => false
    | (g, v) :: fvs1 =>
      decide (g.Name = field.Name ∧ g.tag = field.tag ∧ g.exported = field.exported)
        && (if field.isEncoded then
              if field.tag = "optional" then
                decide (g.IsNil = some true) || (decide (g.IsNil = some false) && conforms sh v)
              else decide (g.IsNil = field.IsNil) && conforms sh v
            else true)
        && conformsFields rest fvs1

end

mutual

/-- The value with every empty hash replaced by 32 zero bytes. -/
def normalize : Value → Value
  | .SHA256Bytes b => .SHA256Bytes (if b.length = 0 then List.replicate 32 0 else b)
  | .array tname elems => .array tname (normalizeElems elems)
  | .slice tname elems => .slice tname (normalizeElems elems)
  | .struct tname fields => .struct tname (normalizeFields fields)
  | .map tname entries => .map tname (normalizeEntries entries)
  | v => v

/-- See `normalize`. -/
def normalizeElems : List Value → List Value
  | [] => []
  | v :: rest => normalize v :: normalizeElems rest

/-- See `normalize`. -/
def normalizeFields : List (StructField × Value) → List (StructField × Value)
  | [] => []
  | (field, v) :: rest => (field, normalize v) :: normalizeFields rest

/-- See `normalize`. -/
def normalizeEntries : List (Value × Value) → List (Value × Value)
  | [] => []
  | (k, v) :: rest => (normalize k, normalize v) :: normalizeEntries rest

end

mutual

/-- What decoding the bytes of `v` into a new destination of shape `sh` is to yield: `v`
with every empty hash replaced by 32 zero bytes and with every field that `Encode` does
not write (excluded, unexported, named `_`, or optional and null) replaced by the zero
value of its shape. -/
def expected : Shape → Value → Value
  | .array _ _ elem, v => match v with
    | .array t vs => Value.array t (vs.map (expected elem))
    | _ => normalize v
  | .slice _ elem, v => match v with
    | .slice t vs => Value.slice t (vs.map (expected elem))
    | _ => normalize v
  | .struct _ fields, v => match v with
    | .struct t fvs => Value.struct t (expectedFields fields fvs)
    | _ => normalize v
  | .map _ key value, v => match v with
    | .map t es => Value.map t (es.map (fun kv => (expected key kv.1, expected value kv.2)))
    | _ => normalize v
  | .ptr _ elem, v => match v with
    | .ptr w => Value.ptr (expected elem w)
    | _ => normalize v
  | _, v => normalize v

/-- See `expected`. -/
def expectedFields : List (StructField × Shape) → List (StructField × Value) →
    List (StructField × Value)
  | [], _ => []
  | (field, sh) :: rest, fvs => match fvs with
    | [] => []
    | (g, v) :: fvs1 =>
      (if field.isEncoded then
        if field.tag = "optional" then
          if g.IsNil = some true then ({ field with IsNil := some true }, zeroValue sh)
          else ({ field with IsNil := some false }, expected sh v)
        else (field, expected sh v)
      else (field, zeroValue sh)) :: expectedFields rest fvs1

end

/-- The bytes that `MarshalBinary` returns for a value. -/
def wire (v : Value) : List Nat := (MarshalBinary v).1

/-- On a `bytes.Buffer`, `Encode` of `v` succeeds and appends exactly `bs`. -/
def EncodesTo (v : Value) (bs : List Nat) : Prop :=
  ∀ (data : List Nat) (count : Nat),
    (Encoder.onBuffer data count).Encode v =
      (Encoder.onBuffer (data ++ bs) (count + bs.length), none)

/-- Decoding `bs`, whatever follows it, into a destination of shape `sh` succeeds,
yields `w` and leaves exactly what follows. -/
def DecodesFrom (sh : Shape) (w : Value) (bs : List Nat) : Prop :=
  ∀ rest : List Nat, Decode sh (bs ++ rest) = Except.ok (w, rest)

/-! ## The aggregate of `TestDecoder_Encode` -/

/-- An exported field without an `eos` tag, as all fields of `EncodeTestStruct`. -/
def plainField (name : String) : StructField := ⟨name, "", true, none⟩

/-- The value that `TestDecoder_Encode` encodes, with the clock of the test read at
2018-11-01T00:00:00.123456789Z; the hash is given as `f5`. -/
def EncodeTestStruct.value (f5 : List Nat) : Value :=
  Value.struct "types_test.EncodeTestStruct" [
    (plainField "F1", Value.string (ascii "abc")),
    (plainField "F2", Value.int16 (-75)),
    (plainField "F3", Value.uint16 99),
    (plainField "F4", Value.uint32 999),
    (plainField "F5", Value.SHA256Bytes f5),
    (plainField "F6", Value.slice "[]string"
      [Value.string (ascii "def"), Value.string (ascii "789")]),
    (plainField "F7", Value.array "[2]string"
      [Value.string (ascii "foo"), Value.string (ascii "bar")]),
    (plainField "F8", Value.map "map[string]string"
      [(Value.string (ascii "foo"), Value.string (ascii "bar")),
       (Value.string (ascii "hello"), Value.string (ascii "you"))]),
    (plainField "F9", Value.PublicKey ⟨0, List.replicate 33 0⟩),
    (plainField "F10", Value.Signature ⟨0, List.replicate 65 0⟩),
    (plainField "F11", Value.byte 1),
    (plainField "F12", Value.uint64 87),
    (plainField "F13", Value.bytes [1, 2, 3, 4, 5]),
    (plainField "F14", Value.Tstamp ⟨1541030400, 123456789⟩),
    (plainField "F15", Value.BlockTimestamp ⟨1541030400, 0⟩),
    (plainField "F16", Value.Varuint32 999),
    (plainField "F17", Value.bool true),
    (plainField "F18", Value.Asset ⟨100000, ⟨4, ascii "EOS"⟩⟩)]

/-! ## The aggregates of `TestSimplePacking` and of the tag tests -/

/-- The value that `TestSimplePacking` encodes. -/
def SimplePacking.value : Value :=
  Value.ptr (Value.struct "types_test.M" [
    (plainField "Acct", Value.AccountName (ascii "bob")),
    (plainField "A", Value.slice "[]*types_test.S" [
      Value.ptr (Value.struct "types_test.S" [(plainField "P", Value.string (ascii "hello"))]),
      Value.ptr (Value.struct "types_test.S" [(plainField "P", Value.string (ascii "world"))])])])

/-- A value of `TagTestStruct`. -/
def TagTestStruct.value (s1 s2 : List Nat) : Value :=
  Value.struct "types_test.TagTestStruct" [
    (⟨"S1", "-", true, none⟩, Value.string s1),
    (plainField "S2", Value.string s2)]

/-- The encoder method `f` acts on every `bytes.Buffer` alike: whatever the buffer holds,
it appends `bs` and returns `err`. -/
def ActsAs (f : Encoder → Res) (bs : List Nat) (err : Option Err) : Prop :=
  ∀ (data : List Nat) (count : Nat),
    f (Encoder.onBuffer data count) = (Encoder.onBuffer (data ++ bs) (count + bs.length), err)

/-- The outcome of steps run one after the other, each given as the bytes it appends
and its error: the bytes up to and including the first step that fails, and its error. -/
def runAll : List (List Nat × Option Err) → List Nat × Option Err
  | [] => ([], none)
  | (bs, some err) :: _ => (bs, some err)
  | (bs, none) :: rest => (bs ++ (runAll rest).1, (runAll rest).2)

/-- The encoder method `f` acts on every `bytes.Buffer` alike, with some bytes and some
error. -/
def Framed (f : Encoder → Res) : Prop := ∃ bs err, ActsAs f bs err

/-- What one field of an aggregate appends and returns, by the struct rule of `Encode`:
nothing for a field tagged `-`, named `_` or unexported; for a field tagged `optional`
the presence byte and, when the field is not nil, what its value appends; otherwise what
its value appends. -/
def fieldStep (fv : StructField × Value) : List Nat × Option Err :=
  if fv.1.tag = "-" then ([], none)
  else if fv.1.Name ≠ "_" ∧ fv.1.exported then
    if fv.1.tag = "optional" then
      match fv.1.IsNil with
      | none =>
        ([], some (Err.panic "reflect: call of reflect.Value.IsNil on a value without nil"))
      | some true => ([0], none)
      | some false => (1 :: (MarshalBinary fv.2).1, (MarshalBinary fv.2).2)
    else MarshalBinary fv.2
  else ([], none)

/-- The kinds that the structural fallback of `Encode` handles: arrays, slices, aggregates
and maps of types without a rule of their own. -/
def isStructural : Value → Bool
  | .array _ _ => true
  | .slice _ _ => true
  | .struct _ _ => true
  | .map _ _ => true
  | _ => false

/-! ## The reference block of a transaction

`SetRefBlock` and the transaction header are declared outside `encoder.go`. -/

/-- Modelled from the spec: the big-endian value of a block of bytes ("big-endian 16-bit
value of `b[2:4]`", section 4.5). -/
def beValue (bs : List Nat) : Nat := bs.foldl (fun acc b => acc * 256 + b) 0

/-- Modelled from the spec: the two anti-replay reference fields of a transaction header
(section 4.5), a `uint16` and a `uint32`. -/
structure TransactionHeader where
  RefBlockNum : Nat
  RefBlockPrefix : Nat
  deriving DecidableEq, Repr

/-- Modelled from the spec: `SetRefBlock` (section 4.5): "`ref_block_num` = big-endian
16-bit value of `b[2:4]`; `ref_block_prefix` = little-endian 32-bit value of `b[8:12]`". -/
def TransactionHeader.SetRefBlock (tx : TransactionHeader) (blockID : List Nat) :
    TransactionHeader :=
  { tx with
    RefBlockNum := beValue ((blockID.drop 2).take 2)
    RefBlockPrefix := leValue ((blockID.drop 8).take 4) }

/-- The block id of `TestSetRefBlock`:
`0012cf6247be7e2050090bd83b473369b705ba1d280cd55d3aef79998c784b9b`. -/
def TestSetRefBlock.blockID : List Nat :=
  [0x00, 0x12, 0xcf, 0x62, 0x47, 0xbe, 0x7e, 0x20, 0x50, 0x09, 0x0b, 0xd8, 0x3b, 0x47, 0x33, 0x69,
   0xb7, 0x05, 0xba, 0x1d, 0x28, 0x0c, 0xd5, 0x5d, 0x3a, 0xef, 0x79, 0x99, 0x8c, 0x78, 0x4b, 0x9b]

/-- The block id of `TestPackTransaction`:
`00106438d58d4fcab54cf89ca8308e5971cff735979d6050c6c1b45d8aadcad6`. -/
def TestPackTransaction.blockID : List Nat :=
  [0x00, 0x10, 0x64, 0x38, 0xd5, 0x8d, 0x4f, 0xca, 0xb5, 0x4c, 0xf8, 0x9c, 0xa8, 0x30, 0x8e, 0x59,
   0x71, 0xcf, 0xf7, 0x35, 0x97, 0x9d, 0x60, 0x50, 0xc6, 0xc1, 0xb4, 0x5d, 0x8a, 0xad, 0xca, 0xd6]

/-- The values of non-structural kind (string, integer and boolean kinds) whose type has
a rule of its own in the type switch of `Encode`. -/
def exactRuleLeaf : Value → Bool
  | .Name _ => true
  | .AccountName _ => true
  | .PermissionName _ => true
  | .ActionName _ => true
  | .TableName _ => true
  | .ScopeName _ => true
  | .string _ => true
  | .TransactionStatus _ => true
  | .IDListMode _ => true
  | .byte _ => true
  | .int8 _ => true
  | .int16 _ => true
  | .uint16 _ => true
  | .uint32 _ => true
  | .uint64 _ => true
  | .Varuint32 _ => true
  | .bool _ => true
  | .Bool _ => true
  | .CurrencyName _ => true
  | _ => false

/-- Whether a value is of the type `string` itself. -/
def isString : Value → Bool
  | .string _ => true
  | _ => false

/-- Whether the kind of a value is `Ptr`: a pointer, nil or not. -/
def pointerKind : Value → Bool
  | .ptr _ => true
  | .nil _ => true
  | .P2PMessageEnvelopePtr _ _ _ => true
  | _ => false

/-! ## Actions

The struct declarations `Action`, `PermissionLevel` and `ActionData`, and the constructor
`NewActionData`, are outside `encoder.go`; `NewTransfer` and `Transfer` are in
`token/transfer.go`. -/

/-- An identifier that `StringToName` accepts. -/
def validName (s : List Nat) : Bool :=
  match StringToName s with
  | Except.ok _ => true
  | Except.error _ => false

/-- The 8 bytes of the Name of an identifier: the little-endian bytes of `StringToName`. -/
def nameBytes (s : List Nat) : List Nat :=
  match StringToName s with
  | Except.ok n => leBytes 8 n
  | Except.error _ => []

/-- Modelled from the spec: a `PermissionLevel` is the actor, an `AccountName`, then the
permission, a `PermissionName` ("each: actor Name + permission Name", section 4.5). -/
def PermissionLevel.value (pl : List Nat × List Nat) : Value :=
  Value.struct "types.PermissionLevel" [
    (plainField "Actor", Value.AccountName pl.1),
    (plainField "Permission", Value.PermissionName pl.2)]

/-- Modelled from the spec: an `Action` is the account, the action name, the list of
authorizations and the embedded `ActionData`, in this order ("account Name + action Name +
varint count + ordered PermissionLevel entries + length-prefixed opaque payload bytes",
section 4.5). -/
def Action.value (account name : List Nat) (authorization : List (List Nat × List Nat))
    (hexData : List Nat) (data : Option Value) : Value :=
  Value.struct "types.Action" [
    (plainField "Account", Value.AccountName account),
    (plainField "Name", Value.ActionName name),
    (⟨"Authorization", "", true, some authorization.isEmpty⟩,
      Value.slice "[]types.PermissionLevel" (authorization.map PermissionLevel.value)),
    (plainField "ActionData", Value.ActionData hexData data)]

/-- Source: the struct `Transfer` of `token/transfer.go`. -/
def Transfer.value (src dst : List Nat) (quantity : Asset) (memo : List Nat) : Value :=
  Value.struct "token.Transfer" [
    (plainField "From", Value.AccountName src),
    (plainField "To", Value.AccountName dst),
    (plainField "Quantity", Value.Asset quantity),
    (plainField "Memo", Value.string memo)]

/-- Source: `NewTransfer` of `token/transfer.go`; it returns a pointer to the action.
Modelled from the spec: `NewActionData(obj)` is an `ActionData` without serialized bytes
whose structured value is `obj` ("a structured value to be serialized lazily by the codec
at encode time", section 6). -/
def NewTransfer (src dst : List Nat) (quantity : Asset) (memo : List Nat) : Value :=
  Value.ptr (Action.value (ascii "eosio.token") (ascii "transfer")
    [(src, ascii "active")] [] (some (Transfer.value src dst quantity memo)))

/-! ## The text form of an asset

`Asset.String` and `NewAsset` are outside `encoder.go`; only their tests are at hand. -/

/-- Modelled from the spec: the decimal digits of a number, least significant first;
`fuel` bounds the number of digits. -/
def decimalDigits : Nat → Nat → List Nat
  | 0, _ => []
  | fuel + 1, n => if n < 10 then [n] else n % 10 :: decimalDigits fuel (n / 10)

/-- Modelled from the spec: the decimal text of a natural number, most significant digit
first, in ASCII. -/
def decimalText (n : Nat) : List Nat :=
  ((decimalDigits (n + 1) n).map (fun d => d + 48)).reverse

/-- Modelled from the spec: the decimal text of a signed integer. -/
def intText (i : Int) : List Nat :=
  if i < 0 then 45 :: decimalText (-i).toNat else decimalText i.toNat

/-- Modelled from the spec: `Asset.String` (section 4.2): "insert a decimal point
`precision` digits from the right (omit the point if precision is 0), then a single
space, then the ticker". The digits are padded with zeros on the left to `precision + 1`
digits, as in the fixture `(10, precision 5, "SYS") -> "0.00010 SYS"`. -/
def Asset.String (a : Asset) : List Nat :=
  let digits := intText a.Amount
  let padded := List.replicate (a.Symbol.Precision + 1 - digits.length) 48 ++ digits
  let magnitude :=
    if a.Symbol.Precision = 0 then padded
    else padded.take (padded.length - a.Symbol.Precision) ++
      46 :: padded.drop (padded.length - a.Symbol.Precision)
  magnitude ++ 32 :: a.Symbol.Symbol

/-- The text before and after the first occurrence of `sep`, if there is one. -/
def splitFirst (sep : Nat) : List Nat → Option (List Nat × List Nat)
  | [] => none
  | c :: rest =>
    if c = sep then some ([], rest)
    else
      match splitFirst sep rest with
      | none => none
      | some (a, b) => some (c :: a, b)

/-- The number that decimal digits stand for, continuing from `acc`; `none` at a
character that is no digit. -/
def digitsValue : Nat → List Nat → Option Nat
  | acc, [] => some acc
  | acc, c :: rest =>
    if 48 ≤ c ∧ c ≤ 57 then digitsValue (acc * 10 + (c - 48)) rest else none

/-- Modelled from the spec: a digit string "interpreted as a signed integer" that "fits a
signed 64-bit integer" (sections 3 and 4.2). -/
def parseInt64 (s : List Nat) : Except String Int :=
  if s.head? = some 45 then
    match s.tail with
    | [] => Except.error "invalid syntax"
    | d :: ds =>
      match digitsValue 0 (d :: ds) with
      | none => Except.error "invalid syntax"
      | some n => if n ≤ 2 ^ 63 then Except.ok (-(n : Int)) else Except.error "value out of range"
  else
    match s with
    | [] => Except.error "invalid syntax"
    | d :: ds =>
      match digitsValue 0 (d :: ds) with
      | none => Except.error "invalid syntax"
      | some n => if n < 2 ^ 63 then Except.ok (n : Int) else Except.error "value out of range"

/-- Modelled from the spec: `NewAsset` (section 4.2), on `"<magnitude>[ <ticker>]"`:
"Precision = count of digits after a decimal point (0 if none). Amount = the digit string
with the decimal point removed, interpreted as a signed integer. Ticker must be 1-7
characters". Without a ticker, "ticker defaults to EOS with precision 4", and a fractional
part of more than 4 digits is a parse error; the amount is then scaled to 4 digits, as
`TestNewEOSAssetFromString` has it (`"1000.1" -> 10001000`). -/
def NewAsset (s : List Nat) : Except String Asset :=
  match splitFirst 32 s with
  | some (magnitude, ticker) =>
    if ticker.length = 0 ∨ 7 < ticker.length then
      Except.error "the ticker must have 1 to 7 characters"
    else
      match splitFirst 46 magnitude with
      | none =>
        match parseInt64 magnitude with
        | Except.error m => Except.error m
        | Except.ok amount => Except.ok ⟨amount, ⟨0, ticker⟩⟩
      | some (whole, fraction) =>
        match parseInt64 (whole ++ fraction) with
        | Except.error m => Except.error m
        | Except.ok amount => Except.ok ⟨amount, ⟨fraction.length, ticker⟩⟩
  | none =>
    match splitFirst 46 s with
    | none =>
      match parseInt64 s with
      | Except.error m => Except.error m
      | Except.ok amount => Except.ok ⟨amount * 10 ^ 4, ⟨4, ascii "EOS"⟩⟩
    | some (whole, fraction) =>
      if 4 < fraction.length then Except.error "more than 4 digits after the decimal point"
      else
        match parseInt64 (whole ++ fraction) with
        | Except.error m => Except.error m
        | Except.ok amount =>
          Except.ok ⟨amount * 10 ^ (4 - fraction.length), ⟨4, ascii "EOS"⟩⟩

/-! # Theorems -/

/-! ## The sink and the primitive writers -/

theorem toWriter_onBuffer (data : List Nat) (count : Nat) (bs : List Nat) :
    (Encoder.onBuffer data count).toWriter bs =
      (Encoder.onBuffer (data ++ bs) (count + bs.length), none) := rfl

set_option maxRecDepth 100000 in
theorem lor_128 (b : Nat) (hb : b < 256) : b ||| 128 = b % 128 + 128 := by
  have h : ∀ x : Fin 256, x.val ||| 128 = x.val % 128 + 128 := by decide
  exact h ⟨b, hb⟩

theorem leb128_small (n : Nat) (h : n < 128) : leb128 n = [n] := by
  rw [leb128]; simp [h]

theorem leb128_big (n : Nat) (h : 128 ≤ n) :
    leb128 n = (n % 128 + 128) :: leb128 (n / 128) := by
  rw [leb128]; simp [Nat.not_lt.mpr h]

theorem leb128_ne_nil (n : Nat) : leb128 n ≠ [] := by
  by_cases h : n < 128
  · simp [leb128_small n h]
  · simp [leb128_big n (by omega)]

/-- With room for the groups of `x`, `PutUvarint` writes the LEB128 form of `x`. -/
theorem PutUvarint_eq (room x : Nat) (hr : 0 < room) (h : x < 128 ^ room) :
    PutUvarint room x = some (leb128 x) := by
  induction room generalizing x with
  | zero => omega
  | succ r ih =>
    unfold PutUvarint
    by_cases hx : x ≥ 0x80
    · have hr1 : 0 < r := by
        rcases Nat.eq_zero_or_pos r with h0 | h0
        · subst h0; simp at h; omega
        · exact h0
      have h2 : x >>> 7 < 128 ^ r := by
        rw [Nat.shiftRight_eq_div_pow]
        rw [pow_succ] at h
        omega
      simp only [hx, if_true, ih _ hr1 h2]
      rw [leb128_big x hx, lor_128 _ (Nat.mod_lt _ (by norm_num)), Nat.shiftRight_eq_div_pow]
      congr 2
      omega
    · simp only [hx, if_false]
      have : x < 128 := by omega
      rw [leb128_small x this, Nat.mod_eq_of_lt (by omega)]

theorem WriteUVarInt_onBuffer (data : List Nat) (count v : Nat) (hv : v < 2 ^ 56) :
    (Encoder.onBuffer data count).WriteUVarInt (Int.ofNat v) =
      (Encoder.onBuffer (data ++ leb128 v) (count + (leb128 v).length), none) := by
  have h1 : (Int.ofNat v % 2 ^ 64).toNat = v := by
    simp only [Int.ofNat_eq_coe]
    omega
  unfold Encoder.WriteUVarInt
  rw [h1, PutUvarint_eq 8 v (by norm_num) (by norm_num at hv ⊢; omega)]
  exact toWriter_onBuffer _ _ _

theorem groupsValue_leb128 (n : Nat) : groupsValue (leb128 n) = n := by
  induction n using Nat.strong_induction_on with
  | _ n ih =>
    by_cases h : n < 128
    · rw [leb128_small n h]; simp [groupsValue]; omega
    · rw [leb128_big n (by omega)]
      simp only [groupsValue]
      rw [ih (n / 128) (by omega)]
      omega

theorem varintTail_leb128 (n : Nat) (h : 0 < n) : varintTail (leb128 n) = true := by
  induction n using Nat.strong_induction_on with
  | _ n ih =>
    by_cases hs : n < 128
    · rw [leb128_small n hs]; simp [varintTail]; omega
    · have hq : 0 < n / 128 := by omega
      have := ih (n / 128) (by omega) hq
      rw [leb128_big n (by omega)]
      cases hl : leb128 (n / 128) with
      | nil => exact absurd hl (leb128_ne_nil _)
      | cons c rest =>
        rw [hl] at this
        simp only [varintTail, this, Bool.and_true, decide_eq_true_eq]
        omega

theorem wellFormedVarint_leb128 (n : Nat) : wellFormedVarint (leb128 n) = true := by
  by_cases hs : n < 128
  · rw [leb128_small n hs]; simp [wellFormedVarint]; omega
  · have hq : 0 < n / 128 := by omega
    have := varintTail_leb128 (n / 128) hq
    rw [leb128_big n (by omega)]
    cases hl : leb128 (n / 128) with
    | nil => exact absurd hl (leb128_ne_nil _)
    | cons c rest =>
      rw [hl] at this
      simp only [wellFormedVarint, this, Bool.and_true, decide_eq_true_eq]
      omega

/-! ## C2 -/

/-- C2: for every integer `v` with `0 <= v < 2^32`, `WriteUVarInt(v)` and `Encode` of the
`Varuint32` `v` append exactly the unsigned LEB128 form of `v`: its 7-bit groups least
significant first, the high bit set on every byte but the last, no redundant trailing
zero group; `0 -> 00`, `1 -> 01`, `127 -> 7f`, `128 -> 80 01`. -/
theorem C2_WriteUVarInt_appends_leb128 (data : List Nat) (count v : Nat) (hv : v < 2 ^ 32) :
    (Encoder.onBuffer data count).WriteUVarInt (Int.ofNat v) =
        (Encoder.onBuffer (data ++ leb128 v) (count + (leb128 v).length), none)
    ∧ (Encoder.onBuffer data count).Encode (Value.Varuint32 v) =
        (Encoder.onBuffer (data ++ leb128 v) (count + (leb128 v).length), none)
    ∧ wellFormedVarint (leb128 v) = true
    ∧ groupsValue (leb128 v) = v
    ∧ MarshalBinary (Value.Varuint32 0) = ([0x00], none)
    ∧ MarshalBinary (Value.Varuint32 1) = ([0x01], none)
    ∧ MarshalBinary (Value.Varuint32 127) = ([0x7f], none)
    ∧ MarshalBinary (Value.Varuint32 128) = ([0x80, 0x01], none) := by
  have h56 : v < 2 ^ 56 := by
    have : (2 : Nat) ^ 32 ≤ 2 ^ 56 := by norm_num
    omega
  refine ⟨WriteUVarInt_onBuffer data count v h56, ?_, wellFormedVarint_leb128 v,
    groupsValue_leb128 v, by decide, by decide, by decide, by decide⟩
  simp only [Encoder.Encode]
  exact WriteUVarInt_onBuffer data count v h56

theorem C2_WriteUVarInt_appends_leb128_witness :
    (300 : Nat) < 2 ^ 32
    ∧ (Encoder.onBuffer [7] 1).WriteUVarInt (Int.ofNat 300) =
        (Encoder.onBuffer ([7] ++ leb128 300) (1 + (leb128 300).length), none)
    ∧ (Encoder.onBuffer [7] 1).Encode (Value.Varuint32 300) =
        (Encoder.onBuffer [7, 0xac, 0x02] 3, none) :=
  ⟨by norm_num, (C2_WriteUVarInt_appends_leb128 [7] 1 300 (by norm_num)).1, by decide⟩

theorem leb128_split_unique (n m : Nat) (x y : List Nat) (h : leb128 n ++ x = leb128 m ++ y) :
    n = m ∧ x = y := by
  induction n using Nat.strong_induction_on generalizing m with
  | _ n ih =>
    by_cases hn : n < 128 <;> by_cases hm : m < 128
    · rw [leb128_small n hn, leb128_small m hm] at h
      simp at h; exact h
    · rw [leb128_small n hn, leb128_big m (by omega)] at h
      simp at h; omega
    · rw [leb128_big n (by omega), leb128_small m hm] at h
      simp at h; omega
    · rw [leb128_big n (by omega), leb128_big m (by omega)] at h
      simp only [List.cons_append, List.cons.injEq] at h
      have := ih (n / 128) (by omega) (m / 128) h.2
      constructor
      · omega
      · exact this.2

theorem length_leBytes (k n : Nat) : (leBytes k n).length = k := by
  induction k generalizing n with
  | zero => rfl
  | succ k ih => simp [leBytes, ih]

theorem leValue_leBytes (k n : Nat) (h : n < 256 ^ k) : leValue (leBytes k n) = n := by
  induction k generalizing n with
  | zero => simp at h; subst h; rfl
  | succ k ih =>
    simp only [leBytes, leValue]
    rw [ih (n / 256) (by rw [pow_succ] at h; omega)]
    omega

theorem leBytes_lt (k n b : Nat) (h : b ∈ leBytes k n) : b < 256 := by
  induction k generalizing n with
  | zero => simp [leBytes] at h
  | succ k ih =>
    simp only [leBytes, List.mem_cons] at h
    rcases h with h | h
    · omega
    · exact ih _ h

theorem PutUint16_make (n : Nat) : PutUint16 (makeBytes TypeSize.UInt16) n = some (leBytes 2 n) := by
  simp [PutUint16, makeBytes, TypeSize.UInt16, leBytes, Nat.shiftRight_eq_div_pow]

theorem PutUint32_make (n : Nat) : PutUint32 (makeBytes TypeSize.UInt32) n = some (leBytes 4 n) := by
  simp [PutUint32, makeBytes, TypeSize.UInt32, leBytes, Nat.shiftRight_eq_div_pow, Nat.div_div_eq_div_mul]

theorem PutUint64_make (n : Nat) : PutUint64 (makeBytes TypeSize.UInt64) n = some (leBytes 8 n) := by
  simp [PutUint64, makeBytes, TypeSize.UInt64, leBytes, Nat.shiftRight_eq_div_pow, Nat.div_div_eq_div_mul]

theorem WriteUint16_onBuffer (data : List Nat) (count n : Nat) :
    (Encoder.onBuffer data count).WriteUint16 n =
      (Encoder.onBuffer (data ++ leBytes 2 n) (count + 2), none) := by
  unfold Encoder.WriteUint16
  simp only [PutUint16_make, toWriter_onBuffer, length_leBytes]

theorem WriteUint32_onBuffer (data : List Nat) (count n : Nat) :
    (Encoder.onBuffer data count).WriteUint32 n =
      (Encoder.onBuffer (data ++ leBytes 4 n) (count + 4), none) := by
  unfold Encoder.WriteUint32
  simp only [PutUint32_make, toWriter_onBuffer, length_leBytes]

theorem WriteUint64_onBuffer (data : List Nat) (count n : Nat) :
    (Encoder.onBuffer data count).WriteUint64 n =
      (Encoder.onBuffer (data ++ leBytes 8 n) (count + 8), none) := by
  unfold Encoder.WriteUint64
  simp only [PutUint64_make, toWriter_onBuffer, length_leBytes]

theorem WriteByteArray_onBuffer (data : List Nat) (count : Nat) (b : List Nat)
    (hb : b.length < 2 ^ 56) :
    (Encoder.onBuffer data count).WriteByteArray b =
      (Encoder.onBuffer (data ++ leb128 b.length ++ b)
        (count + (leb128 b.length).length + b.length), none) := by
  unfold Encoder.WriteByteArray
  rw [WriteUVarInt_onBuffer data count b.length hb]
  exact toWriter_onBuffer _ _ _

/-! ## C3 -/

/-- C3: for every byte sequence `b` (as `[]byte`, `HexBytes` or the bytes of a string),
`WriteByteArray`, `WriteString` and `Encode` append the varint of `len(b)` followed by the
bytes of `b` unchanged and nothing else; for `len(b) < 128` that is `len(b) + 1` bytes
(`"123"` takes 4 bytes, `""` the single byte `00`); and what follows such a value starts
exactly at its end, so two values written one after the other split in one way only.
The length bound is the one every slice in memory meets. -/
theorem C3_byte_array_is_varint_length_then_bytes (data : List Nat) (count : Nat)
    (b : List Nat) (hb : b.length < 2 ^ 56) :
    (Encoder.onBuffer data count).WriteByteArray b =
        (Encoder.onBuffer (data ++ leb128 b.length ++ b)
          (count + (leb128 b.length).length + b.length), none)
    ∧ (Encoder.onBuffer data count).WriteString b =
        (Encoder.onBuffer (data ++ leb128 b.length ++ b)
          (count + (leb128 b.length).length + b.length), none)
    ∧ (Encoder.onBuffer data count).Encode (Value.bytes b) =
        (Encoder.onBuffer (data ++ leb128 b.length ++ b)
          (count + (leb128 b.length).length + b.length), none)
    ∧ (Encoder.onBuffer data count).Encode (Value.HexBytes b) =
        (Encoder.onBuffer (data ++ leb128 b.length ++ b)
          (count + (leb128 b.length).length + b.length), none)
    ∧ (Encoder.onBuffer data count).Encode (Value.string b) =
        (Encoder.onBuffer (data ++ leb128 b.length ++ b)
          (count + (leb128 b.length).length + b.length), none)
    ∧ (b.length < 128 → (leb128 b.length ++ b).length = b.length + 1)
    ∧ (∀ c rest1 rest2 : List Nat,
        leb128 b.length ++ b ++ rest1 = leb128 c.length ++ c ++ rest2 → b = c ∧ rest1 = rest2)
    ∧ MarshalBinary (Value.string (ascii "123")) = ([0x03, 0x31, 0x32, 0x33], none)
    ∧ MarshalBinary (Value.string (ascii "")) = ([0x00], none) := by
  have h := WriteByteArray_onBuffer data count b hb
  refine ⟨h, h, ?_, ?_, ?_, ?_, ?_, by decide, by decide⟩
  · simp only [Encoder.Encode]; exact h
  · simp only [Encoder.Encode]; exact h
  · simp only [Encoder.Encode]; exact h
  · intro hs
    rw [leb128_small _ hs]; simp
  · intro c rest1 rest2 heq
    rw [List.append_assoc, List.append_assoc] at heq
    have h1 := leb128_split_unique _ _ _ _ heq
    exact List.append_inj h1.2 h1.1

theorem C3_byte_array_is_varint_length_then_bytes_witness :
    [1, 2, 3].length < 2 ^ 56
    ∧ (Encoder.onBuffer [] 0).WriteByteArray [1, 2, 3] =
        (Encoder.onBuffer ([] ++ leb128 [1, 2, 3].length ++ [1, 2, 3])
          (0 + (leb128 [1, 2, 3].length).length + [1, 2, 3].length), none)
    ∧ (Encoder.onBuffer [] 0).WriteByteArray [1, 2, 3] = (Encoder.onBuffer [3, 1, 2, 3] 4, none) :=
  ⟨by norm_num,
    (C3_byte_array_is_varint_length_then_bytes [] 0 [1, 2, 3] (by norm_num)).1, by decide⟩

/-! ## C4 -/

/-- C4: for every `uint16`, `uint32` and `uint64` value `n`, `WriteUint16`, `WriteUint32`
and `WriteUint64` append exactly 2, 4 and 8 bytes `b_0..b_k` with `n` the sum of
`b_i * 256^i`; for every `int16` value `i`, `WriteInt16(i)` appends the 2-byte little-endian
form of `i mod 2^16`, and reading the two bytes back little-endian as a signed 16-bit
integer gives `i` again (`-99 -> 9d ff`). -/
theorem C4_fixed_width_little_endian (data : List Nat) (count n16 n32 n64 : Nat) (i : Int)
    (h16 : n16 < 2 ^ 16) (h32 : n32 < 2 ^ 32) (h64 : n64 < 2 ^ 64)
    (hi : -2 ^ 15 ≤ i ∧ i < 2 ^ 15) :
    ((Encoder.onBuffer data count).WriteUint16 n16 =
        (Encoder.onBuffer (data ++ leBytes 2 n16) (count + 2), none)
      ∧ (leBytes 2 n16).length = 2 ∧ (∀ b ∈ leBytes 2 n16, b < 256)
      ∧ leValue (leBytes 2 n16) = n16)
    ∧ ((Encoder.onBuffer data count).WriteUint32 n32 =
        (Encoder.onBuffer (data ++ leBytes 4 n32) (count + 4), none)
      ∧ (leBytes 4 n32).length = 4 ∧ (∀ b ∈ leBytes 4 n32, b < 256)
      ∧ leValue (leBytes 4 n32) = n32)
    ∧ ((Encoder.onBuffer data count).WriteUint64 n64 =
        (Encoder.onBuffer (data ++ leBytes 8 n64) (count + 8), none)
      ∧ (leBytes 8 n64).length = 8 ∧ (∀ b ∈ leBytes 8 n64, b < 256)
      ∧ leValue (leBytes 8 n64) = n64)
    ∧ ((Encoder.onBuffer data count).WriteInt16 i =
        (Encoder.onBuffer (data ++ leBytes 2 (i % 2 ^ 16).toNat) (count + 2), none)
      ∧ ((leValue (leBytes 2 (i % 2 ^ 16).toNat) : Nat) : Int) = i % 2 ^ 16
      ∧ asInt16 (leValue (leBytes 2 (i % 2 ^ 16).toNat)) = i)
    ∧ MarshalBinary (Value.int16 (-99)) = ([0x9d, 0xff], none) := by
  have hu : (i % 2 ^ 16).toNat < 256 ^ 2 := by omega
  refine ⟨⟨WriteUint16_onBuffer _ _ _, length_leBytes _ _, fun b hb => leBytes_lt _ _ b hb,
      leValue_leBytes 2 n16 (by norm_num at h16 ⊢; omega)⟩,
    ⟨WriteUint32_onBuffer _ _ _, length_leBytes _ _, fun b hb => leBytes_lt _ _ b hb,
      leValue_leBytes 4 n32 (by norm_num at h32 ⊢; omega)⟩,
    ⟨WriteUint64_onBuffer _ _ _, length_leBytes _ _, fun b hb => leBytes_lt _ _ b hb,
      leValue_leBytes 8 n64 (by norm_num at h64 ⊢; omega)⟩,
    ⟨WriteUint16_onBuffer _ _ _, ?_, ?_⟩, by decide⟩
  · rw [leValue_leBytes 2 _ hu]; omega
  · rw [leValue_leBytes 2 _ hu]
    unfold asInt16
    split <;> omega

theorem C4_fixed_width_little_endian_witness :
    (Encoder.onBuffer [] 0).WriteUint16 99 =
        (Encoder.onBuffer ([] ++ leBytes 2 99) (0 + 2), none)
    ∧ leValue (leBytes 2 99) = 99
    ∧ asInt16 (leValue (leBytes 2 ((-99 : Int) % 2 ^ 16).toNat)) = -99 :=
  have h := C4_fixed_width_little_endian [] 0 99 342 99 (-99) (by norm_num) (by norm_num)
    (by norm_num) (by norm_num)
  ⟨h.1.1, h.1.2.2.2, h.2.2.2.1.2.2⟩

/-! ## C5 -/

/-- C5 (as the code has it): for every `int16`, `uint16`, `uint32` and `uint64` value,
`Encode` succeeds and appends exactly 2, 2, 4 and 8 bytes, the little-endian form of the
value (two's complement for `int16`); `int32` and `int64` have no rule: `Encode` returns
the unsupported-type error and appends nothing. -/
theorem C5_encode_fixed_width_integers (data : List Nat) (count : Nat)
    (i16 : Int) (u16 u32 u64 : Nat) (i32 i64 : Int) :
    (Encoder.onBuffer data count).Encode (Value.int16 i16) =
        (Encoder.onBuffer (data ++ leBytes 2 (i16 % 2 ^ 16).toNat) (count + 2), none)
    ∧ (Encoder.onBuffer data count).Encode (Value.uint16 u16) =
        (Encoder.onBuffer (data ++ leBytes 2 u16) (count + 2), none)
    ∧ (Encoder.onBuffer data count).Encode (Value.uint32 u32) =
        (Encoder.onBuffer (data ++ leBytes 4 u32) (count + 4), none)
    ∧ (Encoder.onBuffer data count).Encode (Value.uint64 u64) =
        (Encoder.onBuffer (data ++ leBytes 8 u64) (count + 8), none)
    ∧ (leBytes 2 (i16 % 2 ^ 16).toNat).length = 2 ∧ (leBytes 2 u16).length = 2
    ∧ (leBytes 4 u32).length = 4 ∧ (leBytes 8 u64).length = 8
    ∧ (Encoder.onBuffer data count).Encode (Value.int32 i32) =
        (Encoder.onBuffer data count, some (Err.error "Encode: unsupported type int32"))
    ∧ (Encoder.onBuffer data count).Encode (Value.int64 i64) =
        (Encoder.onBuffer data count, some (Err.error "Encode: unsupported type int64")) := by
  refine ⟨?_, ?_, ?_, ?_, length_leBytes _ _, length_leBytes _ _, length_leBytes _ _,
    length_leBytes _ _, ?_, ?_⟩
  · simp only [Encoder.Encode]; exact WriteUint16_onBuffer _ _ _
  · simp only [Encoder.Encode]; exact WriteUint16_onBuffer _ _ _
  · simp only [Encoder.Encode]; exact WriteUint32_onBuffer _ _ _
  · simp only [Encoder.Encode]; exact WriteUint64_onBuffer _ _ _
  · simp only [Encoder.Encode]; rfl
  · simp only [Encoder.Encode]; rfl

/-- C5 as stated fails: `Encode` of the `int32` value 5 and of the `int64` value 5 append
no byte and return the unsupported-type error. -/
theorem C5_counterexample_int32_int64 :
    MarshalBinary (Value.int32 5) = ([], some (Err.error "Encode: unsupported type int32"))
    ∧ MarshalBinary (Value.int64 5) = ([], some (Err.error "Encode: unsupported type int64"))
    ∧ ¬ (∃ bs : List Nat, bs.length = 4 ∧ MarshalBinary (Value.int32 5) = (bs, none))
    ∧ ¬ (∃ bs : List Nat, bs.length = 8 ∧ MarshalBinary (Value.int64 5) = (bs, none)) := by
  refine ⟨by decide, by decide, ?_, ?_⟩
  · rintro ⟨bs, _, h⟩
    have h2 : MarshalBinary (Value.int32 5) =
      ([], some (Err.error "Encode: unsupported type int32")) := by decide
    rw [h2] at h
    simp at h
  · rintro ⟨bs, _, h⟩
    have h2 : MarshalBinary (Value.int64 5) =
      ([], some (Err.error "Encode: unsupported type int64")) := by decide
    rw [h2] at h
    simp at h

/-! ## C8, C9 -/

theorem length_copyBytes_make (k : Nat) (src : List Nat) :
    (copyBytes (makeBytes k) src).length = k := by
  simp [copyBytes, makeBytes]
  omega

theorem copyBytes_make_short (k : Nat) (src : List Nat) (h : src.length ≤ k) :
    copyBytes (makeBytes k) src = src ++ List.replicate (k - src.length) 0 := by
  simp [copyBytes, makeBytes, List.take_of_length_le h]

theorem writeAsset_onBuffer (data : List Nat) (count : Nat) (a : Asset) :
    (Encoder.onBuffer data count).writeAsset a =
      (Encoder.onBuffer (data ++ leBytes 8 (a.Amount % 2 ^ 64).toNat ++ [a.Symbol.Precision]
        ++ copyBytes (makeBytes 7) a.Symbol.Symbol) (count + 16), none) := by
  unfold Encoder.writeAsset
  simp only [WriteUint64_onBuffer, dropError, Encoder.WriteByte, toWriter_onBuffer,
    length_copyBytes_make, List.length_singleton]

/-- C8: for every `Asset` with amount `a`, precision `p` and a ticker `t` of at most 7
bytes, `Encode` appends the 8-byte little-endian two's-complement form of `a`, then the
byte `p`, then the bytes of `t` followed by zero bytes up to 7 in total;
`Asset{6000000, 4, "EOS"} -> 808d5b0000000000 04 454f5300000000`. -/
theorem C8_asset_layout (data : List Nat) (count : Nat) (a : Asset)
    (ht : a.Symbol.Symbol.length ≤ 7) :
    (Encoder.onBuffer data count).Encode (Value.Asset a) =
        (Encoder.onBuffer (data ++ leBytes 8 (a.Amount % 2 ^ 64).toNat ++ [a.Symbol.Precision]
          ++ (a.Symbol.Symbol ++ List.replicate (7 - a.Symbol.Symbol.length) 0))
          (count + 16), none)
    ∧ (a.Symbol.Symbol ++ List.replicate (7 - a.Symbol.Symbol.length) 0).length = 7
    ∧ MarshalBinary (Value.Asset ⟨6000000, ⟨4, ascii "EOS"⟩⟩) =
        ([0x80, 0x8d, 0x5b, 0, 0, 0, 0, 0, 0x04, 0x45, 0x4f, 0x53, 0, 0, 0, 0], none) := by
  refine ⟨?_, ?_, by decide⟩
  · simp only [Encoder.Encode, writeAsset_onBuffer, copyBytes_make_short 7 _ ht]
  · simp; omega

theorem C8_asset_layout_witness :
    (ascii "EOS").length ≤ 7
    ∧ (Encoder.onBuffer [] 0).Encode (Value.Asset ⟨-1, ⟨4, ascii "EOS"⟩⟩) =
        (Encoder.onBuffer [255, 255, 255, 255, 255, 255, 255, 255, 4, 0x45, 0x4f, 0x53, 0, 0, 0, 0]
          16, none) :=
  ⟨by decide, by
    have h := (C8_asset_layout [] 0 ⟨-1, ⟨4, ascii "EOS"⟩⟩ (by decide)).1
    rw [h]; decide⟩

/-- C9 (as the code has it): the wire encoding of every `Asset` is exactly 16 bytes long:
8 for the amount, 1 for the precision, 7 for the ticker. -/
theorem C9_asset_is_16_bytes (data : List Nat) (count : Nat) (a : Asset) :
    ∃ bs : List Nat, bs.length = 16
      ∧ (Encoder.onBuffer data count).Encode (Value.Asset a) =
          (Encoder.onBuffer (data ++ bs) (count + 16), none) := by
  refine ⟨leBytes 8 (a.Amount % 2 ^ 64).toNat ++ [a.Symbol.Precision]
        ++ copyBytes (makeBytes 7) a.Symbol.Symbol, ?_, ?_⟩
  · simp [length_leBytes, length_copyBytes_make]
  · simp only [Encoder.Encode, writeAsset_onBuffer, List.append_assoc]

/-- C9 as stated fails: the asset of the test, `6000000 / 4 / EOS`, encodes to 16 bytes,
not 18. -/
theorem C9_counterexample_asset_length :
    (MarshalBinary (Value.Asset ⟨6000000, ⟨4, ascii "EOS"⟩⟩)).1.length = 16
    ∧ (MarshalBinary (Value.Asset ⟨6000000, ⟨4, ascii "EOS"⟩⟩)).1.length ≠ 18 := by
  decide

/-! ## C10 -/

/-- C10: over a sink that accepts every write, `WritePublicKey` (resp. `WriteSignature`)
returns an error and appends no byte if and only if the content length differs from 33
(resp. 65); otherwise it succeeds and appends exactly the curve-tag byte followed by the
content unchanged, 34 (resp. 66) bytes in total. -/
theorem C10_key_and_signature_fixed_width (data : List Nat) (count : Nat) (pk sig : Key) :
    (((Encoder.onBuffer data count).WritePublicKey pk).2 ≠ none ↔ pk.Content.length ≠ 33)
    ∧ (pk.Content.length ≠ 33 →
        ((Encoder.onBuffer data count).WritePublicKey pk).1 = Encoder.onBuffer data count
        ∧ ∃ m, ((Encoder.onBuffer data count).WritePublicKey pk).2 = some (Err.error m))
    ∧ (pk.Content.length = 33 →
        (Encoder.onBuffer data count).WritePublicKey pk =
          (Encoder.onBuffer (data ++ (pk.Curve % 256 :: pk.Content)) (count + 34), none)
        ∧ (pk.Curve % 256 :: pk.Content).length = 34)
    ∧ (((Encoder.onBuffer data count).WriteSignature sig).2 ≠ none ↔ sig.Content.length ≠ 65)
    ∧ (sig.Content.length ≠ 65 →
        ((Encoder.onBuffer data count).WriteSignature sig).1 = Encoder.onBuffer data count
        ∧ ∃ m, ((Encoder.onBuffer data count).WriteSignature sig).2 = some (Err.error m))
    ∧ (sig.Content.length = 65 →
        (Encoder.onBuffer data count).WriteSignature sig =
          (Encoder.onBuffer (data ++ (sig.Curve % 256 :: sig.Content)) (count + 66), none)
        ∧ (sig.Curve % 256 :: sig.Content).length = 66) := by
  have hpk : pk.Content.length = 33 →
      (Encoder.onBuffer data count).WritePublicKey pk =
        (Encoder.onBuffer (data ++ (pk.Curve % 256 :: pk.Content)) (count + 34), none) := by
    intro h
    simp only [Encoder.WritePublicKey, h, ne_eq, not_true_eq_false, if_false, Encoder.WriteByte,
      toWriter_onBuffer, List.length_singleton, List.append_assoc, List.singleton_append,
      Nat.add_assoc]
  have hsig : sig.Content.length = 65 →
      (Encoder.onBuffer data count).WriteSignature sig =
        (Encoder.onBuffer (data ++ (sig.Curve % 256 :: sig.Content)) (count + 66), none) := by
    intro h
    simp only [Encoder.WriteSignature, h, ne_eq, not_true_eq_false, if_false, Encoder.WriteByte,
      toWriter_onBuffer, List.length_singleton, List.append_assoc, List.singleton_append,
      Nat.add_assoc]
  refine ⟨?_, ?_, ?_, ?_, ?_, ?_⟩
  · by_cases h : pk.Content.length = 33
    · simp [hpk h, h]
    · simp [Encoder.WritePublicKey, h]
  · intro h
    simp [Encoder.WritePublicKey, h]
  · intro h
    exact ⟨hpk h, by simp [h]⟩
  · by_cases h : sig.Content.length = 65
    · simp [hsig h, h]
    · simp [Encoder.WriteSignature, h]
  · intro h
    simp [Encoder.WriteSignature, h]
  · intro h
    exact ⟨hsig h, by simp [h]⟩

theorem C10_key_and_signature_fixed_width_witness :
    (Encoder.onBuffer [9] 1).WritePublicKey ⟨0, List.replicate 33 1⟩ =
        (Encoder.onBuffer ([9] ++ (0 % 256 :: List.replicate 33 1)) (1 + 34), none)
    ∧ ((Encoder.onBuffer [9] 1).WritePublicKey ⟨0, []⟩).1 = Encoder.onBuffer [9] 1
    ∧ ((Encoder.onBuffer [9] 1).WriteSignature ⟨0, []⟩).1 = Encoder.onBuffer [9] 1
    ∧ (Encoder.onBuffer [9] 1).WriteSignature ⟨0, List.replicate 65 1⟩ =
        (Encoder.onBuffer ([9] ++ (0 % 256 :: List.replicate 65 1)) (1 + 66), none) :=
  have h := C10_key_and_signature_fixed_width [9] 1 ⟨0, List.replicate 33 1⟩ ⟨0, []⟩
  have h2 := C10_key_and_signature_fixed_width [9] 1 ⟨0, []⟩ ⟨0, List.replicate 65 1⟩
  ⟨(h.2.2.1 (by decide)).1, (h2.2.1 (by decide)).1, (h.2.2.2.2.1 (by decide)).1,
    (h2.2.2.2.2.2 (by decide)).1⟩

/-! ## The name codec -/

theorem charToSymbol_lt (c k : Nat) (h : charToSymbol c = some k) : k < 32 := by
  unfold charToSymbol at h
  split at h
  · simp at h; omega
  · split at h
    · simp at h; omega
    · split at h
      · simp at h; omega
      · simp at h

theorem symbolToChar_charToSymbol (c k : Nat) (h : charToSymbol c = some k) :
    symbolToChar k = c := by
  unfold charToSymbol at h
  unfold symbolToChar
  split at h
  · simp at h; subst h; simp; omega
  · split at h
    · simp at h; subst h
      rw [if_neg (by omega), if_pos (by omega)]; omega
    · split at h
      · simp at h; subst h
        rw [if_neg (by omega), if_neg (by omega)]; omega
      · simp at h

/-- Past the thirteenth character nothing is packed. -/
theorem packName_beyond (i : Nat) (s : List Nat) (h : 12 < i) : packName i s = Except.ok 0 := by
  cases s with
  | nil => rfl
  | cons c cs => simp [packName, h]

/-- The packing loop fails exactly when one of the characters it looks at is outside
the alphabet. -/
theorem packName_error_iff (i : Nat) (s : List Nat) :
    (∃ m, packName i s = Except.error m) ↔ ∃ c ∈ s.take (13 - i), charToSymbol c = none := by
  induction s generalizing i with
  | nil => simp [packName]
  | cons c cs ih =>
    by_cases hi : 12 < i
    · have h0 : 13 - i = 0 := by omega
      simp [packName, hi, h0]
    · have h1 : 13 - i = (13 - (i + 1)) + 1 := by omega
      rw [h1, List.take_succ_cons]
      simp only [packName, hi, if_false, List.mem_cons, exists_eq_or_imp]
      cases hc : charToSymbol c with
      | none => simp
      | some code =>
        simp only [false_or, reduceCtorEq]
        rw [← ih (i + 1)]
        cases hp : packName (i + 1) cs with
        | error m => simp
        | ok rest =>
          by_cases h12 : i < 12 <;> simp [h12]

/-- The packed value fits below bit `64 - 5*i`. -/
theorem packName_lt (i : Nat) (s : List Nat) (n : Nat) (hi : i ≤ 12)
    (h : packName i s = Except.ok n) : n < 2 ^ (64 - 5 * i) := by
  induction s generalizing i n with
  | nil =>
    simp [packName] at h
    subst h
    positivity
  | cons c cs ih =>
    have hi2 : ¬ 12 < i := by omega
    simp only [packName, hi2, if_false] at h
    cases hc : charToSymbol c with
    | none => simp [hc] at h
    | some code =>
      have hcode := charToSymbol_lt c code hc
      simp only [hc] at h
      cases hp : packName (i + 1) cs with
      | error m => simp [hp] at h
      | ok rest =>
        simp only [hp] at h
        by_cases h12 : i < 12
        · simp only [h12, if_true, Except.ok.injEq] at h
          have hrest := ih (i + 1) rest (by omega) hp
          subst h
          interval_cases i <;> norm_num at hrest ⊢ <;> omega
        · simp only [h12, if_false, Except.ok.injEq] at h
          have h13 : packName (i + 1) cs = Except.ok 0 := packName_beyond _ _ (by omega)
          rw [h13] at hp
          simp at hp
          have : i = 12 := by omega
          subst this; subst h; subst hp
          norm_num
          omega

theorem StringToName_lt (s : List Nat) (n : Nat) (h : StringToName s = Except.ok n) :
    n < 2 ^ 64 := packName_lt 0 s n (by norm_num) h

theorem StringToName_ok_of_alphabet (s : List Nat)
    (h : ∀ c ∈ s, charToSymbol c ≠ none) : ∃ n, StringToName s = Except.ok n := by
  cases hs : StringToName s with
  | ok n => exact ⟨n, rfl⟩
  | error m =>
    have := (packName_error_iff 0 s).mp ⟨m, hs⟩
    obtain ⟨c, hc, hn⟩ := this
    exact absurd hn (h c (List.mem_of_mem_take hc))

/-! ## C6 -/

/-- C6: for each identifier type (`Name`, `AccountName`, `PermissionName`, `ActionName`,
`TableName`, `ScopeName`) and every string `s`: if `StringToName(s)` succeeds with the
64-bit value `n`, `Encode` appends exactly the 8 little-endian bytes of `n`
(`"eosio" -> 0000000000ea3055`, `"eosio.system" -> 2055c61e03ea3055`); if it fails,
which it does exactly when a character it reads is outside the alphabet, `Encode`
returns an error that starts with `WriteName: ` and appends no byte. -/
theorem C6_encode_identifier (data : List Nat) (count : Nat) (s : List Nat) :
    (∀ n, StringToName s = Except.ok n →
      n < 2 ^ 64 ∧ leValue (leBytes 8 n) = n
      ∧ ∀ v ∈ [Value.Name s, Value.AccountName s, Value.PermissionName s, Value.ActionName s,
          Value.TableName s, Value.ScopeName s],
        (Encoder.onBuffer data count).Encode v =
          (Encoder.onBuffer (data ++ leBytes 8 n) (count + 8), none))
    ∧ (∀ m, StringToName s = Except.error m →
      ∀ v ∈ [Value.Name s, Value.AccountName s, Value.PermissionName s, Value.ActionName s,
          Value.TableName s, Value.ScopeName s],
        (Encoder.onBuffer data count).Encode v =
          (Encoder.onBuffer data count, some (Err.error ("WriteName: " ++ m))))
    ∧ ((∃ m, StringToName s = Except.error m) ↔ ∃ c ∈ s.take 13, charToSymbol c = none)
    ∧ MarshalBinary (Value.AccountName (ascii "eosio")) =
        ([0x00, 0x00, 0x00, 0x00, 0x00, 0xea, 0x30, 0x55], none)
    ∧ MarshalBinary (Value.AccountName (ascii "eosio.system")) =
        ([0x20, 0x55, 0xc6, 0x1e, 0x03, 0xea, 0x30, 0x55], none) := by
  refine ⟨?_, ?_, packName_error_iff 0 s, by decide, by decide⟩
  · intro n hn
    have hlt := StringToName_lt s n hn
    refine ⟨hlt, leValue_leBytes 8 n (by norm_num at hlt ⊢; omega), ?_⟩
    intro v hv
    simp only [List.mem_cons, List.mem_singleton, List.not_mem_nil, or_false] at hv
    rcases hv with h | h | h | h | h | h <;> subst h <;>
      simp only [Encoder.Encode, Encoder.WriteName, hn, WriteUint64_onBuffer]
  · intro m hm v hv
    simp only [List.mem_cons, List.mem_singleton, List.not_mem_nil, or_false] at hv
    rcases hv with h | h | h | h | h | h <;> subst h <;>
      simp only [Encoder.Encode, Encoder.WriteName, hm]

theorem C6_encode_identifier_witness :
    StringToName (ascii "bob") = Except.ok 0x3d0e000000000000
    ∧ (Encoder.onBuffer [] 0).Encode (Value.AccountName (ascii "bob")) =
        (Encoder.onBuffer ([] ++ leBytes 8 0x3d0e000000000000) (0 + 8), none)
    ∧ StringToName (ascii "Bob") = Except.error "invalid character 66 at index 0"
    ∧ (Encoder.onBuffer [] 0).Encode (Value.AccountName (ascii "Bob")) =
        (Encoder.onBuffer [] 0,
          some (Err.error ("WriteName: " ++ "invalid character 66 at index 0"))) :=
  ⟨by decide,
    ((C6_encode_identifier [] 0 (ascii "bob")).1 0x3d0e000000000000 (by decide)).2.2
      (Value.AccountName (ascii "bob")) (by simp),
    by decide,
    (C6_encode_identifier [] 0 (ascii "Bob")).2.1 "invalid character 66 at index 0" (by decide)
      (Value.AccountName (ascii "Bob")) (by simp)⟩

theorem trimRight_replicate (x k : Nat) : trimRight x (List.replicate k x) = [] := by
  induction k with
  | zero => rfl
  | succ k ih => simp [List.replicate_succ, trimRight, ih]

theorem trimRight_append_replicate (x : Nat) (s : List Nat) (k : Nat)
    (h : s.getLast? ≠ some x) : trimRight x (s ++ List.replicate k x) = s := by
  induction s with
  | nil => simpa using trimRight_replicate x k
  | cons c cs ih =>
    cases cs with
    | nil =>
      simp at h
      simp [trimRight, trimRight_replicate, h]
    | cons d ds =>
      have h2 : (d :: ds).getLast? ≠ some x := by
        simpa [List.getLast?_cons_cons] using h
      have := ih h2
      simp only [List.cons_append] at this ⊢
      rw [trimRight, this]

theorem range_map_getD (s : List Nat) (N d : Nat) (h : s.length ≤ N) :
    (List.range N).map (fun j => s.getD j d) = s ++ List.replicate (N - s.length) d := by
  apply List.ext_getElem
  · simp; omega
  · intro j h1 h2
    simp only [List.getElem_map, List.getElem_range]
    by_cases hj : j < s.length
    · rw [List.getElem_append_left hj]
      simp [List.getD_eq_getElem?_getD, hj]
    · rw [List.getElem_append_right (by omega)]
      have hn : s[j]? = none := List.getElem?_eq_none (by omega)
      simp [List.getD_eq_getElem?_getD, hn]

/-- The symbols of a packed name, from position `i` on, are the codes of the characters
that were packed, and zero after the last one. -/
theorem symbolAt_packName (s : List Nat) :
    ∀ (i h n : Nat), i + s.length ≤ 13 →
      (∀ c k, s.get? (12 - i) = some c → charToSymbol c = some k → k < 16) →
      packName i s = Except.ok n →
      ∀ j, i ≤ j → j < 13 →
        symbolAt (2 ^ (64 - 5 * i) * h + n) j = ((s.get? (j - i)).bind charToSymbol).getD 0 := by
  induction s with
  | nil =>
    intro i h n _ _ hp j hij hj
    simp [packName] at hp
    subst hp
    simp only [List.get?_nil, Option.bind_none, Option.getD_none, Nat.add_zero]
    unfold symbolAt
    interval_cases j <;> interval_cases i <;> norm_num <;> omega
  | cons c cs ih =>
    intro i h n hlen h13 hp j hij hj
    simp only [List.length_cons] at hlen
    have hi2 : ¬ 12 < i := by omega
    simp only [packName, hi2, if_false] at hp
    cases hc : charToSymbol c with
    | none => simp [hc] at hp
    | some code =>
      have hcode := charToSymbol_lt c code hc
      simp only [hc] at hp
      cases hr : packName (i + 1) cs with
      | error m => simp [hr] at hp
      | ok rest =>
        simp only [hr] at hp
        rcases Nat.eq_or_lt_of_le hij with hji | hji
        · -- the symbol of this character
          subst hji
          simp only [Nat.sub_self, List.get?_cons_zero, Option.some_bind, hc, Option.getD_some]
          by_cases h12 : i < 12
          · simp only [h12, if_true, Except.ok.injEq] at hp
            have hrest := packName_lt (i + 1) cs rest (by omega) hr
            subst hp
            unfold symbolAt
            simp only [h12, if_true]
            interval_cases i <;> norm_num at hrest ⊢ <;> omega
          · simp only [h12, if_false, Except.ok.injEq] at hp
            have hi12 : i = 12 := by omega
            subst hi12
            have h0 : packName (12 + 1) cs = Except.ok 0 := packName_beyond _ _ (by omega)
            rw [h0] at hr
            simp at hr
            have hk := h13 c code (by simp) hc
            subst hp; subst hr
            unfold symbolAt
            norm_num
            omega
        · -- a later symbol
          have h12 : i < 12 := by omega
          simp only [h12, if_true, Except.ok.injEq] at hp
          have hget : (c :: cs).get? (j - i) = cs.get? (j - (i + 1)) := by
            have : j - i = (j - (i + 1)) + 1 := by omega
            rw [this, List.get?_cons_succ]
          have h13b : ∀ c2 k, cs.get? (12 - (i + 1)) = some c2 → charToSymbol c2 = some k →
              k < 16 := by
            intro c2 k hg hk
            apply h13 c2 k _ hk
            have : 12 - i = (12 - (i + 1)) + 1 := by omega
            rw [this, List.get?_cons_succ]
            exact hg
          have hih := ih (i + 1) (32 * h + code) rest (by omega) h13b hr j (by omega) hj
          rw [hget, ← hih]
          congr 1
          subst hp
          interval_cases i <;> norm_num <;> omega

theorem nameSymbols_StringToName (s : List Nat) (n : Nat) (hlen : s.length ≤ 13)
    (h13 : ∀ c k, s.get? 12 = some c → charToSymbol c = some k → k < 16)
    (hn : StringToName s = Except.ok n) :
    nameSymbols n = (List.range 13).map (fun j => ((s.get? j).bind charToSymbol).getD 0) := by
  unfold nameSymbols
  apply List.map_congr_left
  intro j hj
  have hj13 : j < 13 := List.mem_range.mp hj
  have := symbolAt_packName s 0 0 n (by omega) h13 hn j (Nat.zero_le _) hj13
  simpa using this

/-! ## C7 -/

/-- The name round trip of the canonical strings: packing succeeds and unpacking gives
the string back. -/
theorem NameToString_StringToName (s : List Nat) (hlen : s.length ≤ 13)
    (halpha : ∀ c ∈ s, charToSymbol c ≠ none)
    (hdot : s.getLast? ≠ some 46)
    (h13 : ∀ c k, s.get? 12 = some c → charToSymbol c = some k → k < 16) :
    ∃ n, StringToName s = Except.ok n ∧ n < 2 ^ 64 ∧ NameToString n = s := by
  obtain ⟨n, hn⟩ := StringToName_ok_of_alphabet s halpha
  refine ⟨n, hn, StringToName_lt s n hn, ?_⟩
  unfold NameToString
  rw [nameSymbols_StringToName s n hlen h13 hn, List.map_map]
  have hfun : (List.range 13).map
      (symbolToChar ∘ fun j => ((s.get? j).bind charToSymbol).getD 0) =
      (List.range 13).map (fun j => s.getD j 46) := by
    apply List.map_congr_left
    intro j _
    simp only [Function.comp_apply, List.getD_eq_getElem?_getD, List.get?_eq_getElem?]
    cases hg : s[j]? with
    | none => simp [symbolToChar]
    | some c =>
      have hmem : c ∈ s := List.getElem?_mem hg
      cases hc : charToSymbol c with
      | none => exact absurd hc (halpha c hmem)
      | some k =>
        simp only [Option.some_bind, hc, Option.getD_some]
        exact symbolToChar_charToSymbol c k hc
  rw [hfun, range_map_getD s 13 46 hlen]
  exact trimRight_append_replicate 46 s _ hdot

/-- C7 (as the codec has it): for every string `s` of length at most 13 over the alphabet
(`.`, `1`-`5`, `a`-`z`) that does not end in `.` and whose 13th character, if there is
one, has a symbol value below 16 (`1`-`5`, `a`-`j`), `StringToName(s)` succeeds and
`NameToString(StringToName(s)) = s`. -/
theorem C7_name_round_trip (s : List Nat) (hlen : s.length ≤ 13)
    (halpha : ∀ c ∈ s, charToSymbol c ≠ none)
    (hdot : s.getLast? ≠ some 46)
    (h13 : ∀ c k, s.get? 12 = some c → charToSymbol c = some k → k < 16) :
    ∃ n, StringToName s = Except.ok n ∧ n < 2 ^ 64 ∧ NameToString n = s :=
  NameToString_StringToName s hlen halpha hdot h13

theorem C7_name_round_trip_witness :
    ∃ n, StringToName (ascii "eosio.system1") = Except.ok n ∧ n < 2 ^ 64
      ∧ NameToString n = ascii "eosio.system1" :=
  C7_name_round_trip (ascii "eosio.system1") (by decide) (by decide) (by decide)
    (fun c k h hk => by
      have h12 : (ascii "eosio.system1").get? 12 = some 49 := by decide
      rw [h12] at h
      injection h with h
      subst h
      have h49 : charToSymbol 49 = some 1 := by decide
      rw [h49] at hk
      injection hk with hk
      omega)

/-- C7 as stated fails: `tbcox2.` and `aaaaaaaaaaaaz` are strings over the alphabet of
length at most 13, their packing succeeds, and unpacking gives `tbcox2` and
`aaaaaaaaaaaaj`. -/
theorem C7_counterexample_trailing_dot_and_13th :
    (ascii "tbcox2.").length ≤ 13
    ∧ (∀ c ∈ ascii "tbcox2.", charToSymbol c ≠ none)
    ∧ StringToName (ascii "tbcox2.") = Except.ok 0xc9d14e8800000000
    ∧ NameToString 0xc9d14e8800000000 = ascii "tbcox2"
    ∧ NameToString 0xc9d14e8800000000 ≠ ascii "tbcox2."
    ∧ (ascii "aaaaaaaaaaaaz").length ≤ 13
    ∧ (∀ c ∈ ascii "aaaaaaaaaaaaz", charToSymbol c ≠ none)
    ∧ StringToName (ascii "aaaaaaaaaaaaz") = Except.ok 0x318c6318c6318c6f
    ∧ NameToString 0x318c6318c6318c6f = ascii "aaaaaaaaaaaaj"
    ∧ NameToString 0x318c6318c6318c6f ≠ ascii "aaaaaaaaaaaaz" := by
  decide

/-! ## Reading back what the writers wrote -/

theorem readBytes_append (what : String) (k : Nat) (bs rest : List Nat) (h : bs.length = k) :
    readBytes what k (bs ++ rest) = Except.ok (bs, rest) := by
  unfold readBytes
  have h1 : ¬ (bs ++ rest).length < k := by simp; omega
  rw [if_neg h1]
  subst h
  simp

theorem readLE_append (what : String) (k : Nat) (bs rest : List Nat) (h : bs.length = k) :
    readLE what k (bs ++ rest) = Except.ok (leValue bs, rest) := by
  unfold readLE
  rw [readBytes_append what k bs rest h]

theorem readLE_leBytes (what : String) (k n : Nat) (rest : List Nat) (h : n < 256 ^ k) :
    readLE what k (leBytes k n ++ rest) = Except.ok (n, rest) := by
  rw [readLE_append what k _ rest (length_leBytes k n), leValue_leBytes k n h]

theorem uvarint_leb128 (fuel n : Nat) (rest : List Nat) (hf : 0 < fuel) (h : n < 128 ^ fuel) :
    uvarint fuel (leb128 n ++ rest) = some (n, rest) := by
  induction fuel generalizing n with
  | zero => omega
  | succ f ih =>
    by_cases hn : n < 128
    · rw [leb128_small n hn]
      simp [uvarint, hn]
    · rw [leb128_big n (by omega)]
      have hf1 : 0 < f := by
        rcases Nat.eq_zero_or_pos f with h0 | h0
        · subst h0; simp at h; omega
        · exact h0
      have h2 : n / 128 < 128 ^ f := by
        rw [pow_succ] at h; omega
      have h3 : ¬ (n % 128 + 128 < 128) := by omega
      have h4 : (n % 128 + 128) % 128 + 128 * (n / 128) = n := by omega
      simp only [List.cons_append, uvarint, h3, if_false, List.append_eq, ih (n / 128) hf1 h2, h4]

theorem ReadUvarint_leb128 (n : Nat) (rest : List Nat) (h : n < 2 ^ 56) :
    ReadUvarint (leb128 n ++ rest) = Except.ok (n, rest) := by
  unfold ReadUvarint
  rw [uvarint_leb128 10 n rest (by norm_num) (by norm_num at h ⊢; omega)]

theorem ReadByteArray_append (b rest : List Nat) (h : b.length < 2 ^ 56) :
    ReadByteArray (leb128 b.length ++ b ++ rest) = Except.ok (b, rest) := by
  unfold ReadByteArray
  rw [List.append_assoc, ReadUvarint_leb128 b.length (b ++ rest) h]
  simp

/-! ## The round trip of the plain values -/

theorem wire_eq_of_EncodesTo (v : Value) (bs : List Nat) (h : EncodesTo v bs) : wire v = bs := by
  have h1 := h [] 0
  unfold wire MarshalBinary
  have h2 : NewEncoder (bytesBuffer []) = Encoder.onBuffer [] 0 := rfl
  rw [h2, h1]
  simp [Encoder.onBuffer, bytesBuffer]

theorem roundTrip_intro (sh : Shape) (v w : Value) (bs : List Nat) (h1 : EncodesTo v bs)
    (h2 : DecodesFrom sh w bs) : EncodesTo v (wire v) ∧ DecodesFrom sh w (wire v) := by
  rw [wire_eq_of_EncodesTo v bs h1]
  exact ⟨h1, h2⟩

theorem canonicalName_spec (s : List Nat) (h : canonicalName s = true) :
    s.length ≤ 13 ∧ (∀ c ∈ s, charToSymbol c ≠ none) ∧ s.getLast? ≠ some 46
      ∧ ∀ c k, s.get? 12 = some c → charToSymbol c = some k → k < 16 := by
  unfold canonicalName at h
  simp only [Bool.and_eq_true, decide_eq_true_eq, List.all_eq_true] at h
  obtain ⟨⟨⟨h1, h2⟩, h3⟩, h4⟩ := h
  refine ⟨h1, ?_, h3, ?_⟩
  · intro c hc hn
    have := h2 c hc
    rw [hn] at this
    simp at this
  · intro c k hg hk
    rw [hg] at h4
    simp only [hk, decide_eq_true_eq] at h4
    exact h4

theorem ReadName_roundTrip (s : List Nat) (h : canonicalName s = true) :
    ∃ n, StringToName s = Except.ok n
      ∧ ∀ rest, ReadName (leBytes 8 n ++ rest) = Except.ok (s, rest) := by
  obtain ⟨h1, h2, h3, h4⟩ := canonicalName_spec s h
  obtain ⟨n, hn, hlt, hback⟩ := NameToString_StringToName s h1 h2 h3 h4
  refine ⟨n, hn, ?_⟩
  intro rest
  unfold ReadName
  simp only [readLE_leBytes "uint64" 8 n rest (by norm_num at hlt ⊢; omega), hback]

theorem Read_map_ok {α β : Type} (f : α → β) (x : α) (rest : List Nat) :
    Read.map f (Except.ok (x, rest)) = Except.ok (f x, rest) := rfl

theorem EncodesTo_byteArray (v : Value) (b : List Nat) (hb : b.length < 2 ^ 56)
    (hv : ∀ e : Encoder, e.Encode v = e.WriteByteArray b) :
    EncodesTo v (leb128 b.length ++ b) := by
  intro data count
  rw [hv, WriteByteArray_onBuffer data count b hb]
  simp [List.append_assoc, Nat.add_assoc]

theorem rt_string (v : Value) (h : conforms Shape.string v = true) :
    EncodesTo v (wire v) ∧ DecodesFrom Shape.string (normalize v) (wire v) := by
  cases v <;> simp only [conforms, Bool.false_eq_true, decide_eq_true_eq] at h
  case string s =>
    refine roundTrip_intro _ _ _ (leb128 s.length ++ s)
      (EncodesTo_byteArray _ s h (fun e => by simp only [Encoder.Encode, Encoder.WriteString])) ?_
    intro rest
    simp only [Decode, normalize, ReadByteArray_append s rest h, Read_map_ok]

theorem rt_HexBytes (v : Value) (h : conforms Shape.HexBytes v = true) :
    EncodesTo v (wire v) ∧ DecodesFrom Shape.HexBytes (normalize v) (wire v) := by
  cases v <;> simp only [conforms, Bool.false_eq_true, decide_eq_true_eq] at h
  case HexBytes s =>
    refine roundTrip_intro _ _ _ (leb128 s.length ++ s)
      (EncodesTo_byteArray _ s h (fun e => by simp only [Encoder.Encode])) ?_
    intro rest
    simp only [Decode, normalize, ReadByteArray_append s rest h, Read_map_ok]

theorem rt_bytes (v : Value) (h : conforms Shape.bytes v = true) :
    EncodesTo v (wire v) ∧ DecodesFrom Shape.bytes (normalize v) (wire v) := by
  cases v <;> simp only [conforms, Bool.false_eq_true, decide_eq_true_eq] at h
  case bytes s =>
    refine roundTrip_intro _ _ _ (leb128 s.length ++ s)
      (EncodesTo_byteArray _ s h (fun e => by simp only [Encoder.Encode])) ?_
    intro rest
    simp only [Decode, normalize, ReadByteArray_append s rest h, Read_map_ok]

theorem rt_name_core (v : Value) (sh : Shape) (s : List Nat) (h : canonicalName s = true)
    (hv : ∀ e : Encoder, e.Encode v = e.WriteName s)
    (hdec : ∀ n rest, ReadName (leBytes 8 n ++ rest) = Except.ok (s, rest) →
      Decode sh (leBytes 8 n ++ rest) = Except.ok (normalize v, rest)) :
    EncodesTo v (wire v) ∧ DecodesFrom sh (normalize v) (wire v) := by
  obtain ⟨n, hn, hread⟩ := ReadName_roundTrip s h
  refine roundTrip_intro _ _ _ (leBytes 8 n) ?_ ?_
  · intro data count
    rw [hv]
    simp only [Encoder.WriteName, hn, WriteUint64_onBuffer, length_leBytes]
  · intro rest
    exact hdec n rest (hread rest)

theorem rt_Name (v : Value) (h : conforms Shape.Name v = true) :
    EncodesTo v (wire v) ∧ DecodesFrom Shape.Name (normalize v) (wire v) := by
  cases v <;> simp only [conforms, Bool.false_eq_true] at h
  case Name s =>
    refine rt_name_core _ _ s h (fun e => by simp only [Encoder.Encode]) ?_
    intro n rest hr
    simp only [Decode, normalize, hr, Read_map_ok]

theorem rt_AccountName (v : Value) (h : conforms Shape.AccountName v = true) :
    EncodesTo v (wire v) ∧ DecodesFrom Shape.AccountName (normalize v) (wire v) := by
  cases v <;> simp only [conforms, Bool.false_eq_true] at h
  case AccountName s =>
    refine rt_name_core _ _ s h (fun e => by simp only [Encoder.Encode]) ?_
    intro n rest hr
    simp only [Decode, normalize, hr, Read_map_ok]

theorem rt_PermissionName (v : Value) (h : conforms Shape.PermissionName v = true) :
    EncodesTo v (wire v) ∧ DecodesFrom Shape.PermissionName (normalize v) (wire v) := by
  cases v <;> simp only [conforms, Bool.false_eq_true] at h
  case PermissionName s =>
    refine rt_name_core _ _ s h (fun e => by simp only [Encoder.Encode]) ?_
    intro n rest hr
    simp only [Decode, normalize, hr, Read_map_ok]

theorem rt_ActionName (v : Value) (h : conforms Shape.ActionName v = true) :
    EncodesTo v (wire v) ∧ DecodesFrom Shape.ActionName (normalize v) (wire v) := by
  cases v <;> simp only [conforms, Bool.false_eq_true] at h
  case ActionName s =>
    refine rt_name_core _ _ s h (fun e => by simp only [Encoder.Encode]) ?_
    intro n rest hr
    simp only [Decode, normalize, hr, Read_map_ok]

theorem rt_TableName (v : Value) (h : conforms Shape.TableName v = true) :
    EncodesTo v (wire v) ∧ DecodesFrom Shape.TableName (normalize v) (wire v) := by
  cases v <;> simp only [conforms, Bool.false_eq_true] at h
  case TableName s =>
    refine rt_name_core _ _ s h (fun e => by simp only [Encoder.Encode]) ?_
    intro n rest hr
    simp only [Decode, normalize, hr, Read_map_ok]

theorem rt_ScopeName (v : Value) (h : conforms Shape.ScopeName v = true) :
    EncodesTo v (wire v) ∧ DecodesFrom Shape.ScopeName (normalize v) (wire v) := by
  cases v <;> simp only [conforms, Bool.false_eq_true] at h
  case ScopeName s =>
    refine rt_name_core _ _ s h (fun e => by simp only [Encoder.Encode]) ?_
    intro n rest hr
    simp only [Decode, normalize, hr, Read_map_ok]

theorem rt_byte (v : Value) (h : conforms Shape.byte v = true) :
    EncodesTo v (wire v) ∧ DecodesFrom Shape.byte (normalize v) (wire v) := by
  cases v <;> simp only [conforms, Bool.false_eq_true] at h
  case byte b =>
    refine roundTrip_intro _ _ _ [b] ?_ ?_
    · intro data count
      simp only [Encoder.Encode, Encoder.WriteByte, toWriter_onBuffer]
    · intro rest
      simp only [Decode, normalize, readBytes_append "byte" 1 [b] rest rfl, Read_map_ok,
        List.headD_cons]

theorem rt_bool (v : Value) (h : conforms Shape.bool v = true) :
    EncodesTo v (wire v) ∧ DecodesFrom Shape.bool (normalize v) (wire v) := by
  cases v <;> simp only [conforms, Bool.false_eq_true] at h
  case bool b =>
    refine roundTrip_intro _ _ _ [if b then 1 else 0] ?_ ?_
    · intro data count
      simp only [Encoder.Encode, Encoder.WriteBool, Encoder.WriteByte, toWriter_onBuffer]
    · intro rest
      simp only [Decode, normalize,
        readBytes_append "bool" 1 [if b then 1 else 0] rest rfl, Read_map_ok, List.headD_cons]
      cases b <;> rfl

theorem rt_int16 (v : Value) (h : conforms Shape.int16 v = true) :
    EncodesTo v (wire v) ∧ DecodesFrom Shape.int16 (normalize v) (wire v) := by
  cases v <;> simp only [conforms, Bool.false_eq_true, decide_eq_true_eq] at h
  case int16 i =>
    have hu : (i % 2 ^ 16).toNat < 256 ^ 2 := by omega
    refine roundTrip_intro _ _ _ (leBytes 2 (i % 2 ^ 16).toNat) ?_ ?_
    · intro data count
      simp only [Encoder.Encode, Encoder.WriteInt16, WriteUint16_onBuffer, length_leBytes]
    · intro rest
      have hi : asInt16 (i % 2 ^ 16).toNat = i := by
        unfold asInt16
        split <;> omega
      simp only [Decode, normalize, readLE_leBytes "int16" 2 _ rest hu, Read_map_ok, hi]

theorem rt_uint16 (v : Value) (h : conforms Shape.uint16 v = true) :
    EncodesTo v (wire v) ∧ DecodesFrom Shape.uint16 (normalize v) (wire v) := by
  cases v <;> simp only [conforms, Bool.false_eq_true, decide_eq_true_eq] at h
  case uint16 n =>
    refine roundTrip_intro _ _ _ (leBytes 2 n) ?_ ?_
    · intro data count
      simp only [Encoder.Encode, WriteUint16_onBuffer, length_leBytes]
    · intro rest
      simp only [Decode, normalize,
        readLE_leBytes "uint16" 2 n rest (by norm_num at h ⊢; omega), Read_map_ok]

theorem rt_uint32 (v : Value) (h : conforms Shape.uint32 v = true) :
    EncodesTo v (wire v) ∧ DecodesFrom Shape.uint32 (normalize v) (wire v) := by
  cases v <;> simp only [conforms, Bool.false_eq_true, decide_eq_true_eq] at h
  case uint32 n =>
    refine roundTrip_intro _ _ _ (leBytes 4 n) ?_ ?_
    · intro data count
      simp only [Encoder.Encode, WriteUint32_onBuffer, length_leBytes]
    · intro rest
      simp only [Decode, normalize,
        readLE_leBytes "uint32" 4 n rest (by norm_num at h ⊢; omega), Read_map_ok]

theorem rt_uint64 (v : Value) (h : conforms Shape.uint64 v = true) :
    EncodesTo v (wire v) ∧ DecodesFrom Shape.uint64 (normalize v) (wire v) := by
  cases v <;> simp only [conforms, Bool.false_eq_true, decide_eq_true_eq] at h
  case uint64 n =>
    refine roundTrip_intro _ _ _ (leBytes 8 n) ?_ ?_
    · intro data count
      simp only [Encoder.Encode, WriteUint64_onBuffer, length_leBytes]
    · intro rest
      simp only [Decode, normalize,
        readLE_leBytes "uint64" 8 n rest (by norm_num at h ⊢; omega), Read_map_ok]

theorem rt_Varuint32 (v : Value) (h : conforms Shape.Varuint32 v = true) :
    EncodesTo v (wire v) ∧ DecodesFrom Shape.Varuint32 (normalize v) (wire v) := by
  cases v <;> simp only [conforms, Bool.false_eq_true, decide_eq_true_eq] at h
  case Varuint32 n =>
    have h56 : n < 2 ^ 56 := by
      have : (2 : Nat) ^ 32 ≤ 2 ^ 56 := by norm_num
      omega
    refine roundTrip_intro _ _ _ (leb128 n) ?_ ?_
    · intro data count
      simp only [Encoder.Encode]
      exact WriteUVarInt_onBuffer data count n h56
    · intro rest
      simp only [Decode, normalize, ReadUvarint_leb128 n rest h56, Read_map_ok,
        Nat.mod_eq_of_lt h]

theorem rt_SHA256Bytes (v : Value) (h : conforms Shape.SHA256Bytes v = true) :
    EncodesTo v (wire v) ∧ DecodesFrom Shape.SHA256Bytes (normalize v) (wire v) := by
  cases v <;> simp only [conforms, Bool.false_eq_true, decide_eq_true_eq] at h
  case SHA256Bytes b =>
    rcases h with h | h
    · have h0 : ¬ b.length = 0 := by omega
      refine roundTrip_intro _ _ _ b ?_ ?_
      · intro data count
        simp only [Encoder.Encode, Encoder.WriteSHA256Bytes, h0, if_false, toWriter_onBuffer]
      · intro rest
        simp only [Decode, normalize, h0, if_false, readBytes_append "sha256" 32 b rest h,
          Read_map_ok]
    · refine roundTrip_intro _ _ _ (List.replicate 32 0) ?_ ?_
      · intro data count
        simp only [Encoder.Encode, Encoder.WriteSHA256Bytes, h, if_true, toWriter_onBuffer,
          TypeSize.SHA256Bytes]
      · intro rest
        simp only [Decode, normalize, h, if_true,
          readBytes_append "sha256" 32 (List.replicate 32 0) rest (by simp), Read_map_ok]

theorem readKey_append (what : String) (width : Nat) (k : Key) (rest : List Nat)
    (h : k.Content.length = width) (hc : k.Curve < 256) :
    readKey what width ((k.Curve % 256 :: k.Content) ++ rest) = Except.ok (k, rest) := by
  unfold readKey
  rw [readBytes_append what (width + 1) _ rest (by simp [h])]
  simp [Nat.mod_eq_of_lt hc]

theorem rt_PublicKey (v : Value) (h : conforms Shape.PublicKey v = true) :
    EncodesTo v (wire v) ∧ DecodesFrom Shape.PublicKey (normalize v) (wire v) := by
  cases v <;> simp only [conforms, Bool.false_eq_true, decide_eq_true_eq] at h
  case PublicKey pk =>
    refine roundTrip_intro _ _ _ (pk.Curve % 256 :: pk.Content) ?_ ?_
    · intro data count
      simp only [Encoder.Encode, Encoder.WritePublicKey, h.1, ne_eq, not_true_eq_false, if_false,
        Encoder.WriteByte, toWriter_onBuffer, List.length_singleton, List.append_assoc,
        List.singleton_append, Nat.add_assoc, List.length_cons]
      simp
    · intro rest
      simp only [Decode, normalize, readKey_append "publicKey" 33 pk rest h.1 h.2, Read_map_ok]

theorem rt_Signature (v : Value) (h : conforms Shape.Signature v = true) :
    EncodesTo v (wire v) ∧ DecodesFrom Shape.Signature (normalize v) (wire v) := by
  cases v <;> simp only [conforms, Bool.false_eq_true, decide_eq_true_eq] at h
  case Signature sig =>
    refine roundTrip_intro _ _ _ (sig.Curve % 256 :: sig.Content) ?_ ?_
    · intro data count
      simp only [Encoder.Encode, Encoder.WriteSignature, h.1, ne_eq, not_true_eq_false, if_false,
        Encoder.WriteByte, toWriter_onBuffer, List.length_singleton, List.append_assoc,
        List.singleton_append, Nat.add_assoc, List.length_cons]
      simp
    · intro rest
      simp only [Decode, normalize, readKey_append "signature" 65 sig rest h.1 h.2, Read_map_ok]

theorem rt_Tstamp (v : Value) (h : conforms Shape.Tstamp v = true) :
    EncodesTo v (wire v) ∧ DecodesFrom Shape.Tstamp (normalize v) (wire v) := by
  cases v <;> simp only [conforms, Bool.false_eq_true, decide_eq_true_eq] at h
  case Tstamp t =>
    obtain ⟨sec, nsec⟩ := t
    simp only [Time.UnixNano] at h
    have hu : ((sec * 1000000000 + (nsec : Int)) % 2 ^ 64).toNat < 256 ^ 8 := by omega
    refine roundTrip_intro _ _ _
      (leBytes 8 ((sec * 1000000000 + (nsec : Int)) % 2 ^ 64).toNat) ?_ ?_
    · intro data count
      simp only [Encoder.Encode, Encoder.WriteTstamp, Time.UnixNano, WriteUint64_onBuffer,
        length_leBytes]
    · intro rest
      have hx : (sec * 1000000000 + (nsec : Int)) % 2 ^ 64 = sec * 1000000000 + nsec :=
        Int.emod_eq_of_lt (by omega) (by omega)
      have e1 : ((((sec * 1000000000 + (nsec : Int)) % 2 ^ 64).toNat / 1000000000 : Nat) : Int)
          = sec := by rw [hx]; omega
      have e2 : ((sec * 1000000000 + (nsec : Int)) % 2 ^ 64).toNat % 1000000000 = nsec := by
        rw [hx]; omega
      simp only [Decode, normalize, readLE_leBytes "tstamp" 8 _ rest hu, Read_map_ok, e1, e2]

theorem rt_BlockTimestamp (v : Value) (h : conforms Shape.BlockTimestamp v = true) :
    EncodesTo v (wire v) ∧ DecodesFrom Shape.BlockTimestamp (normalize v) (wire v) := by
  cases v <;> simp only [conforms, Bool.false_eq_true, decide_eq_true_eq] at h
  case BlockTimestamp t =>
    obtain ⟨sec, nsec⟩ := t
    simp only at h
    have hu : ((sec - 946684800) % 2 ^ 32).toNat < 256 ^ 4 := by omega
    refine roundTrip_intro _ _ _ (leBytes 4 ((sec - 946684800) % 2 ^ 32).toNat) ?_ ?_
    · intro data count
      simp only [Encoder.Encode, Encoder.WriteBlockTimestamp, Time.Unix, WriteUint32_onBuffer,
        length_leBytes]
    · intro rest
      have e1 : ((((sec - 946684800) % 2 ^ 32).toNat : Nat) : Int) + 946684800 = sec := by
        omega
      simp only [Decode, normalize, readLE_leBytes "blockTimestamp" 4 _ rest hu, Read_map_ok,
        e1, h.1]

theorem ReadAsset_append (a : Asset) (rest : List Nat)
    (h : -2 ^ 63 ≤ a.Amount ∧ a.Amount < 2 ^ 63 ∧ a.Symbol.Symbol.length ≤ 7
      ∧ a.Symbol.Symbol.getLast? ≠ some 0) :
    ReadAsset (leBytes 8 (a.Amount % 2 ^ 64).toNat ++ [a.Symbol.Precision]
      ++ (a.Symbol.Symbol ++ List.replicate (7 - a.Symbol.Symbol.length) 0) ++ rest) =
      Except.ok (a, rest) := by
  obtain ⟨amount, ⟨p, sym⟩⟩ := a
  simp only at h
  have hu : (amount % 2 ^ 64).toNat < 256 ^ 8 := by omega
  have hi : asInt64 (amount % 2 ^ 64).toNat = amount := by
    unfold asInt64
    split <;> omega
  unfold ReadAsset
  simp only [List.append_assoc]
  rw [readLE_leBytes "asset" 8 _ _ hu]
  simp only
  rw [readBytes_append "asset" 1 [p] _ rfl]
  simp only
  rw [← List.append_assoc, readBytes_append "asset" 7 _ rest (by simp; omega)]
  simp only [hi, List.headD_cons, trimRight_append_replicate 0 sym _ h.2.2.2]

theorem rt_Asset (v : Value) (h : conforms Shape.Asset v = true) :
    EncodesTo v (wire v) ∧ DecodesFrom Shape.Asset (normalize v) (wire v) := by
  cases v <;> simp only [conforms, Bool.false_eq_true, decide_eq_true_eq] at h
  case Asset a =>
    refine roundTrip_intro _ _ _ (leBytes 8 (a.Amount % 2 ^ 64).toNat ++ [a.Symbol.Precision]
      ++ (a.Symbol.Symbol ++ List.replicate (7 - a.Symbol.Symbol.length) 0)) ?_ ?_
    · intro data count
      simp only [Encoder.Encode, writeAsset_onBuffer, copyBytes_make_short 7 _ h.2.2.1]
      have hl : (leBytes 8 (a.Amount % 2 ^ 64).toNat ++ [a.Symbol.Precision] ++
          (a.Symbol.Symbol ++ List.replicate (7 - a.Symbol.Symbol.length) 0)).length = 16 := by
        simp only [List.length_append, length_leBytes, List.length_singleton,
          List.length_replicate]
        omega
      rw [hl]
      simp only [List.append_assoc]
    · intro rest
      simp only [Decode, normalize, ReadAsset_append a rest h, Read_map_ok]

/-! ## The round trip of sequences, maps and aggregates -/

theorem decodeN_roundTrip {α β : Type} (d : List Nat → Read β) (enc : α → List Nat)
    (norm : α → β) (xs : List α)
    (h : ∀ x ∈ xs, ∀ rest, d (enc x ++ rest) = Except.ok (norm x, rest)) :
    ∀ rest, decodeN d xs.length ((xs.map enc).flatten ++ rest) =
      Except.ok (xs.map norm, rest) := by
  induction xs with
  | nil => intro rest; simp [decodeN]
  | cons x xs ih =>
    intro rest
    simp only [List.length_cons, decodeN, List.map_cons, List.flatten_cons, List.append_assoc]
    rw [h x (List.mem_cons_self _ _)]
    simp only
    rw [ih (fun y hy => h y (List.mem_cons_of_mem _ hy))]

/-! ## Every method acts on a buffer by appending -/

theorem ActsAs_toWriter (bs : List Nat) : ActsAs (fun e => e.toWriter bs) bs none :=
  fun data count => toWriter_onBuffer data count bs

theorem ActsAs_return (err : Option Err) : ActsAs (fun e => (e, err)) [] err := by
  intro data count
  simp

/-- Two steps in a row, the second run only when the first returns no error. -/
theorem ActsAs_seq (F f g : Encoder → Res)
    (hF : ∀ e, F e = match f e with
      | (e1, some err) => (e1, some err)
      | (e1, none) => g e1)
    (bs1 bs2 : List Nat) (err1 err2 : Option Err)
    (hf : ActsAs f bs1 err1) (hg : ActsAs g bs2 err2) :
    ActsAs F (runAll [(bs1, err1), (bs2, err2)]).1 (runAll [(bs1, err1), (bs2, err2)]).2 := by
  intro data count
  rw [hF, hf data count]
  cases err1 with
  | some er => simp [runAll]
  | none =>
    cases err2 with
    | some er => simp [runAll, hg _ _, Nat.add_assoc]
    | none => simp [runAll, hg _ _, Nat.add_assoc]

theorem Framed_of_eq (F G : Encoder → Res) (h : ∀ e, F e = G e) (hG : Framed G) : Framed F := by
  obtain ⟨bs, err, hg⟩ := hG
  exact ⟨bs, err, fun data count => by rw [h, hg data count]⟩

theorem Framed_seq (F f g : Encoder → Res)
    (hF : ∀ e, F e = match f e with
      | (e1, some err) => (e1, some err)
      | (e1, none) => g e1)
    (hf : Framed f) (hg : Framed g) : Framed F := by
  obtain ⟨bs1, err1, h1⟩ := hf
  obtain ⟨bs2, err2, h2⟩ := hg
  exact ⟨_, _, ActsAs_seq F f g hF bs1 bs2 err1 err2 h1 h2⟩

/-- A step whose returned error is dropped before the next step. -/
theorem Framed_dropSeq (F f g : Encoder → Res)
    (hF : ∀ e, F e = match dropError (f e) with
      | (e1, some err) => (e1, some err)
      | (e1, none) => g e1)
    (hf : Framed f) (hg : Framed g) : Framed F := by
  obtain ⟨bs1, err1, h1⟩ := hf
  have hd : Framed (fun e => dropError (f e)) := by
    cases err1 with
    | none => exact ⟨bs1, none, fun data count => by simp only [h1 data count, dropError]⟩
    | some er =>
      cases er with
      | error m => exact ⟨bs1, none, fun data count => by simp only [h1 data count, dropError]⟩
      | panic m =>
        exact ⟨bs1, some (Err.panic m), fun data count => by
          simp only [h1 data count, dropError]⟩
  exact Framed_seq F _ g hF hd hg

theorem Framed_return (err : Option Err) : Framed (fun e => (e, err)) :=
  ⟨[], err, ActsAs_return err⟩

theorem Framed_toWriter (bs : List Nat) : Framed (fun e => e.toWriter bs) :=
  ⟨bs, none, ActsAs_toWriter bs⟩

theorem Framed_WriteByte (b : Nat) : Framed (fun e => e.WriteByte b) := Framed_toWriter [b]

theorem Framed_WriteBool (b : Bool) : Framed (fun e => e.WriteBool b) := Framed_toWriter _

theorem Framed_WriteUint16 (n : Nat) : Framed (fun e => e.WriteUint16 n) :=
  ⟨leBytes 2 n, none, fun data count => by
    show (Encoder.onBuffer data count).WriteUint16 n = _
    rw [WriteUint16_onBuffer, length_leBytes]⟩

theorem Framed_WriteUint32 (n : Nat) : Framed (fun e => e.WriteUint32 n) :=
  ⟨leBytes 4 n, none, fun data count => by
    show (Encoder.onBuffer data count).WriteUint32 n = _
    rw [WriteUint32_onBuffer, length_leBytes]⟩

theorem Framed_WriteUint64 (n : Nat) : Framed (fun e => e.WriteUint64 n) :=
  ⟨leBytes 8 n, none, fun data count => by
    show (Encoder.onBuffer data count).WriteUint64 n = _
    rw [WriteUint64_onBuffer, length_leBytes]⟩

theorem Framed_WriteInt16 (i : Int) : Framed (fun e => e.WriteInt16 i) := Framed_WriteUint16 _

theorem Framed_WriteUVarInt (v : Int) : Framed (fun e => e.WriteUVarInt v) := by
  cases h : PutUvarint 8 (v % 2 ^ 64).toNat with
  | none =>
    exact ⟨[], some (Err.panic "index out of range"), fun data count => by
      show (Encoder.onBuffer data count).WriteUVarInt v = _
      unfold Encoder.WriteUVarInt
      rw [h]
      simp⟩
  | some bs =>
    exact ⟨bs, none, fun data count => by
      simp only [Encoder.WriteUVarInt, h, toWriter_onBuffer]⟩

theorem Framed_WriteByteArray (b : List Nat) : Framed (fun e => e.WriteByteArray b) :=
  Framed_seq _ (fun e => e.WriteUVarInt (Int.ofNat b.length)) (fun e => e.toWriter b)
    (fun _ => rfl) (Framed_WriteUVarInt _) (Framed_toWriter b)

theorem Framed_WriteString (s : List Nat) : Framed (fun e => e.WriteString s) :=
  Framed_WriteByteArray s

theorem Framed_WriteName (s : List Nat) : Framed (fun e => e.WriteName s) := by
  cases h : StringToName s with
  | error m =>
    exact Framed_of_eq _ (fun e => (e, some (Err.error ("WriteName: " ++ m))))
      (fun e => by simp only [Encoder.WriteName, h]) (Framed_return _)
  | ok n =>
    exact Framed_of_eq _ (fun e => e.WriteUint64 n)
      (fun e => by simp only [Encoder.WriteName, h]) (Framed_WriteUint64 n)

theorem Framed_WriteSHA256Bytes (s : List Nat) : Framed (fun e => e.WriteSHA256Bytes s) := by
  by_cases h : s.length = 0
  · exact Framed_of_eq _ (fun e => e.toWriter (List.replicate TypeSize.SHA256Bytes 0))
      (fun e => by simp only [Encoder.WriteSHA256Bytes, h, if_true]) (Framed_toWriter _)
  · exact Framed_of_eq _ (fun e => e.toWriter s)
      (fun e => by simp only [Encoder.WriteSHA256Bytes, h, if_false]) (Framed_toWriter _)

theorem Framed_WritePublicKey (pk : Key) : Framed (fun e => e.WritePublicKey pk) := by
  by_cases h : pk.Content.length ≠ 33
  · exact Framed_of_eq _ (fun e => (e, some (Err.error ("public key \"" ++
        hexEncodeToString pk.Content ++ "\" should be 33 bytes, was " ++
        toString pk.Content.length))))
      (fun e => by rw [Encoder.WritePublicKey, if_pos h]) (Framed_return _)
  · exact Framed_seq _ (fun e => e.WriteByte (pk.Curve % 256)) (fun e => e.toWriter pk.Content)
      (fun e => by rw [Encoder.WritePublicKey, if_neg h])
      (Framed_WriteByte _) (Framed_toWriter _)

theorem Framed_WriteSignature (s : Key) : Framed (fun e => e.WriteSignature s) := by
  by_cases h : s.Content.length ≠ 65
  · exact Framed_of_eq _ (fun e => (e, some (Err.error ("signature should be 65 bytes, was " ++
        toString s.Content.length))))
      (fun e => by rw [Encoder.WriteSignature, if_pos h]) (Framed_return _)
  · exact Framed_seq _ (fun e => e.WriteByte (s.Curve % 256)) (fun e => e.toWriter s.Content)
      (fun e => by rw [Encoder.WriteSignature, if_neg h])
      (Framed_WriteByte _) (Framed_toWriter _)

theorem Framed_WriteTstamp (t : Time) : Framed (fun e => e.WriteTstamp t) :=
  Framed_WriteUint64 _

theorem Framed_WriteBlockTimestamp (t : Time) : Framed (fun e => e.WriteBlockTimestamp t) :=
  Framed_WriteUint32 _

theorem Framed_writeJSONTime (t : Time) : Framed (fun e => e.writeJSONTime t) :=
  Framed_WriteUint32 _

theorem Framed_writeCurrencyName (s : List Nat) : Framed (fun e => e.writeCurrencyName s) :=
  Framed_toWriter _

theorem Framed_writeAsset (a : Asset) : Framed (fun e => e.writeAsset a) :=
  ⟨leBytes 8 (a.Amount % 2 ^ 64).toNat ++ [a.Symbol.Precision]
      ++ copyBytes (makeBytes 7) a.Symbol.Symbol, none, fun data count => by
    show (Encoder.onBuffer data count).writeAsset a = _
    rw [writeAsset_onBuffer]
    simp [length_leBytes, length_copyBytes_make]⟩

theorem Framed_encodeByteElems (bs : List Nat) : Framed (fun e => e.encodeByteElems bs) := by
  induction bs with
  | nil => exact Framed_return none
  | cons b bs ih =>
    exact Framed_seq _ (fun e => e.WriteByte b) (fun e => e.encodeByteElems bs)
      (fun _ => rfl) (Framed_WriteByte b) ih

theorem Framed_byteSlice (bs : List Nat) :
    Framed (fun e => match e.WriteUVarInt (Int.ofNat bs.length) with
      | (e1, some err) => (e1, some err)
      | (e1, none) => e1.encodeByteElems bs) :=
  Framed_seq _ _ _ (fun _ => rfl) (Framed_WriteUVarInt _) (Framed_encodeByteElems bs)

theorem Framed_hexPath (s : List Nat) :
    Framed (fun e => match hexDecodeString s with
      | Except.error err => (e, some (Err.error ("ack, " ++ err)))
      | Except.ok data => dropError (e.WriteByteArray data)) := by
  cases h : hexDecodeString s with
  | error m => exact Framed_return _
  | ok data =>
    exact Framed_dropSeq _ (fun e => e.WriteByteArray data) (fun e => (e, none))
      (fun e => by
        show dropError (e.WriteByteArray data) = _
        generalize dropError (e.WriteByteArray data) = r
        obtain ⟨e1, r⟩ := r
        cases r <;> rfl)
      (Framed_WriteByteArray data) (Framed_return none)

theorem Framed_marshalPath (d : Value) :
    Framed (fun e =>
      if stringKind d then (e, some (Err.panic "interface conversion: interface is not string"))
      else
        match Encoder.Encode (NewEncoder (bytesBuffer [])) d with
        | (_, some err) => (e, some err)
        | (sub, none) => e.WriteByteArray sub.output.data) := by
  by_cases hk : stringKind d = true
  · simp only [hk, if_true]
    exact Framed_return _
  · simp only [hk, Bool.false_eq_true, if_false]
    cases hs : Encoder.Encode (NewEncoder (bytesBuffer [])) d with
    | mk sub r =>
      cases r with
      | none => exact Framed_WriteByteArray _
      | some er => exact Framed_return _

theorem Framed_writeActionData (hexData : List Nat) (data : Option Value) :
    Framed (fun e => Encoder.writeActionData e hexData data) := by
  cases data with
  | none =>
    exact Framed_of_eq _ (fun e => e.WriteByteArray hexData)
      (fun e => by simp only [Encoder.writeActionData]) (Framed_WriteByteArray _)
  | some d =>
    cases d with
    | nil t =>
      exact Framed_of_eq _
        (fun e => (e, some (Err.panic "reflect: call of reflect.Value.Interface on zero Value")))
        (fun e => by simp only [Encoder.writeActionData]) (Framed_return _)
    | string s =>
      exact Framed_of_eq _ _ (fun e => by simp only [Encoder.writeActionData])
        (Framed_hexPath s)
    | ptr p =>
      cases p with
      | string s =>
        exact Framed_of_eq _ _ (fun e => by simp only [Encoder.writeActionData])
          (Framed_hexPath s)
      | _ =>
        exact Framed_of_eq _ _ (fun e => by simp only [Encoder.writeActionData]; rfl)
          (Framed_marshalPath _)
    | _ =>
      exact Framed_of_eq _ _ (fun e => by simp only [Encoder.writeActionData]; rfl)
        (Framed_marshalPath _)

theorem Framed_envelopeBody (typ : Nat) (payload : List Nat) :
    Framed (fun e => match e.WriteUint32 ((payload.length + 1) % 2 ^ 32) with
      | (e1, some err) => (e1, some err)
      | (e1, none) =>
        match e1.WriteByte (typ % 256) with
        | (e2, some err) => (e2, some err)
        | (e2, none) => e2.toWriter payload) :=
  Framed_seq _ _ _ (fun _ => rfl) (Framed_WriteUint32 _)
    (Framed_seq _ _ _ (fun _ => rfl) (Framed_WriteByte _) (Framed_toWriter payload))

theorem Framed_WriteBlockP2PMessageEnvelope (typ : Nat) (payload : List Nat)
    (msg : Option Value) :
    Framed (fun e => Encoder.WriteBlockP2PMessageEnvelope e typ payload msg) := by
  cases msg with
  | none =>
    exact Framed_of_eq _ _ (fun e => by simp only [Encoder.WriteBlockP2PMessageEnvelope])
      (Framed_envelopeBody typ payload)
  | some m =>
    cases hs : Encoder.Encode (NewEncoder (bytesBuffer [])) m with
    | mk sub r =>
      cases r with
      | none =>
        exact Framed_of_eq _ _
          (fun e => by simp only [Encoder.WriteBlockP2PMessageEnvelope, hs])
          (Framed_envelopeBody typ sub.output.data)
      | some er =>
        cases er with
        | error m1 =>
          exact Framed_of_eq _ (fun e => (e, some (Err.error ("p2p message, " ++ m1))))
            (fun e => by simp only [Encoder.WriteBlockP2PMessageEnvelope, hs])
            (Framed_return _)
        | panic m1 =>
          exact Framed_of_eq _ (fun e => (e, some (Err.panic m1)))
            (fun e => by simp only [Encoder.WriteBlockP2PMessageEnvelope, hs])
            (Framed_return _)

mutual

/-- On a `bytes.Buffer`, what `Encode` appends and returns for a value does not depend on
what the buffer holds. -/
theorem Framed_Encode (v : Value) : Framed (fun e => e.Encode v) := by
  cases v with
  | Name s =>
    exact Framed_of_eq _ (fun e => e.WriteName s)
      (fun e => by simp only [Encoder.Encode]) (Framed_WriteName s)
  | AccountName s =>
    exact Framed_of_eq _ (fun e => e.WriteName s)
      (fun e => by simp only [Encoder.Encode]) (Framed_WriteName s)
  | PermissionName s =>
    exact Framed_of_eq _ (fun e => e.WriteName s)
      (fun e => by simp only [Encoder.Encode]) (Framed_WriteName s)
  | ActionName s =>
    exact Framed_of_eq _ (fun e => e.WriteName s)
      (fun e => by simp only [Encoder.Encode]) (Framed_WriteName s)
  | TableName s =>
    exact Framed_of_eq _ (fun e => e.WriteName s)
      (fun e => by simp only [Encoder.Encode]) (Framed_WriteName s)
  | ScopeName s =>
    exact Framed_of_eq _ (fun e => e.WriteName s)
      (fun e => by simp only [Encoder.Encode]) (Framed_WriteName s)
  | string s =>
    exact Framed_of_eq _ (fun e => e.WriteString s)
      (fun e => by simp only [Encoder.Encode]) (Framed_WriteString s)
  | TransactionStatus b =>
    exact Framed_of_eq _ (fun e => e.WriteByte (b % 256))
      (fun e => by simp only [Encoder.Encode]) (Framed_WriteByte _)
  | IDListMode b =>
    exact Framed_of_eq _ (fun e => e.WriteByte (b % 256))
      (fun e => by simp only [Encoder.Encode]) (Framed_WriteByte _)
  | byte b =>
    exact Framed_of_eq _ (fun e => e.WriteByte b)
      (fun e => by simp only [Encoder.Encode]) (Framed_WriteByte _)
  | int8 i =>
    exact Framed_of_eq _ (fun e => e.WriteByte (i % 256).toNat)
      (fun e => by simp only [Encoder.Encode]) (Framed_WriteByte _)
  | int16 i =>
    exact Framed_of_eq _ (fun e => e.WriteInt16 i)
      (fun e => by simp only [Encoder.Encode]) (Framed_WriteInt16 i)
  | uint16 n =>
    exact Framed_of_eq _ (fun e => e.WriteUint16 n)
      (fun e => by simp only [Encoder.Encode]) (Framed_WriteUint16 n)
  | uint32 n =>
    exact Framed_of_eq _ (fun e => e.WriteUint32 n)
      (fun e => by simp only [Encoder.Encode]) (Framed_WriteUint32 n)
  | uint64 n =>
    exact Framed_of_eq _ (fun e => e.WriteUint64 n)
      (fun e => by simp only [Encoder.Encode]) (Framed_WriteUint64 n)
  | Varuint32 n =>
    exact Framed_of_eq _ (fun e => e.WriteUVarInt (Int.ofNat n))
      (fun e => by simp only [Encoder.Encode]) (Framed_WriteUVarInt _)
  | bool b =>
    exact Framed_of_eq _ (fun e => e.WriteBool b)
      (fun e => by simp only [Encoder.Encode]) (Framed_WriteBool b)
  | Bool b =>
    exact Framed_of_eq _ (fun e => e.WriteBool b)
      (fun e => by simp only [Encoder.Encode]) (Framed_WriteBool b)
  | JSONTime t =>
    exact Framed_of_eq _ (fun e => e.writeJSONTime t)
      (fun e => by simp only [Encoder.Encode]) (Framed_writeJSONTime t)
  | HexBytes b =>
    exact Framed_of_eq _ (fun e => e.WriteByteArray b)
      (fun e => by simp only [Encoder.Encode]) (Framed_WriteByteArray b)
  | bytes b =>
    exact Framed_of_eq _ (fun e => e.WriteByteArray b)
      (fun e => by simp only [Encoder.Encode]) (Framed_WriteByteArray b)
  | SHA256Bytes b =>
    exact Framed_of_eq _ (fun e => e.WriteSHA256Bytes b)
      (fun e => by simp only [Encoder.Encode]) (Framed_WriteSHA256Bytes b)
  | PublicKey pk =>
    exact Framed_of_eq _ (fun e => e.WritePublicKey pk)
      (fun e => by simp only [Encoder.Encode]) (Framed_WritePublicKey pk)
  | Signature sig =>
    exact Framed_of_eq _ (fun e => e.WriteSignature sig)
      (fun e => by simp only [Encoder.Encode]) (Framed_WriteSignature sig)
  | Tstamp t =>
    exact Framed_of_eq _ (fun e => e.WriteTstamp t)
      (fun e => by simp only [Encoder.Encode]) (Framed_WriteTstamp t)
  | BlockTimestamp t =>
    exact Framed_of_eq _ (fun e => e.WriteBlockTimestamp t)
      (fun e => by simp only [Encoder.Encode]) (Framed_WriteBlockTimestamp t)
  | CurrencyName s =>
    exact Framed_of_eq _ (fun e => e.writeCurrencyName s)
      (fun e => by simp only [Encoder.Encode]) (Framed_writeCurrencyName s)
  | Asset a =>
    exact Framed_of_eq _ (fun e => e.writeAsset a)
      (fun e => by simp only [Encoder.Encode]) (Framed_writeAsset a)
  | ActionData h d =>
    exact Framed_of_eq _ (fun e => Encoder.writeActionData e h d)
      (fun e => by simp only [Encoder.Encode]) (Framed_writeActionData h d)
  | P2PMessageEnvelopePtr typ payload msg =>
    exact Framed_of_eq _ (fun e => Encoder.WriteBlockP2PMessageEnvelope e typ payload msg)
      (fun e => by simp only [Encoder.Encode]) (Framed_WriteBlockP2PMessageEnvelope typ payload msg)
  | int32 i =>
    exact Framed_of_eq _ (fun e => (e, some (unsupported (typeString (Value.int32 i)))))
      (fun e => by simp only [Encoder.Encode]) (Framed_return _)
  | int64 i =>
    exact Framed_of_eq _ (fun e => (e, some (unsupported (typeString (Value.int64 i)))))
      (fun e => by simp only [Encoder.Encode]) (Framed_return _)
  | other t k =>
    exact Framed_of_eq _ (fun e => (e, some (unsupported (typeString (Value.other t k)))))
      (fun e => by simp only [Encoder.Encode]) (Framed_return _)
  | nil t =>
    exact Framed_of_eq _ (fun e => (e, some (Err.panic "reflect: call of reflect.Value.Type on zero Value")))
      (fun e => by simp only [Encoder.Encode]) (Framed_return _)
  | array t elems =>
    exact Framed_of_eq _ (fun e => Encoder.encodeElems e elems)
      (fun e => by simp only [Encoder.Encode]) (Framed_encodeElems elems)
  | slice t elems =>
    exact Framed_seq _ (fun e => e.WriteUVarInt (Int.ofNat elems.length))
      (fun e => Encoder.encodeElems e elems) (fun e => by simp only [Encoder.Encode])
      (Framed_WriteUVarInt _) (Framed_encodeElems elems)
  | struct t fields =>
    exact Framed_of_eq _ (fun e => Encoder.encodeFields e fields)
      (fun e => by simp only [Encoder.Encode]) (Framed_encodeFields fields)
  | map t entries =>
    exact Framed_seq _ (fun e => e.WriteUVarInt (Int.ofNat entries.length))
      (fun e => Encoder.encodeEntries e entries) (fun e => by simp only [Encoder.Encode])
      (Framed_WriteUVarInt _) (Framed_encodeEntries entries)
  | ptr p =>
    cases p with
    | Name s =>
      exact Framed_of_eq _ (fun e => (e, some (unsupported (typeString (Value.Name s)))))
        (fun e => by simp only [Encoder.Encode]) (Framed_return _)
    | AccountName s =>
      exact Framed_of_eq _ (fun e => (e, some (unsupported (typeString (Value.AccountName s)))))
        (fun e => by simp only [Encoder.Encode]) (Framed_return _)
    | PermissionName s =>
      exact Framed_of_eq _ (fun e => (e, some (unsupported (typeString (Value.PermissionName s)))))
        (fun e => by simp only [Encoder.Encode]) (Framed_return _)
    | ActionName s =>
      exact Framed_of_eq _ (fun e => (e, some (unsupported (typeString (Value.ActionName s)))))
        (fun e => by simp only [Encoder.Encode]) (Framed_return _)
    | TableName s =>
      exact Framed_of_eq _ (fun e => (e, some (unsupported (typeString (Value.TableName s)))))
        (fun e => by simp only [Encoder.Encode]) (Framed_return _)
    | ScopeName s =>
      exact Framed_of_eq _ (fun e => (e, some (unsupported (typeString (Value.ScopeName s)))))
        (fun e => by simp only [Encoder.Encode]) (Framed_return _)
    | string s =>
      exact Framed_of_eq _ (fun e => (e, some (unsupported (typeString (Value.string s)))))
        (fun e => by simp only [Encoder.Encode]) (Framed_return _)
    | TransactionStatus b =>
      exact Framed_of_eq _ (fun e => (e, some (unsupported (typeString (Value.TransactionStatus b)))))
        (fun e => by simp only [Encoder.Encode]) (Framed_return _)
    | IDListMode b =>
      exact Framed_of_eq _ (fun e => (e, some (unsupported (typeString (Value.IDListMode b)))))
        (fun e => by simp only [Encoder.Encode]) (Framed_return _)
    | byte b =>
      exact Framed_of_eq _ (fun e => (e, some (unsupported (typeString (Value.byte b)))))
        (fun e => by simp only [Encoder.Encode]) (Framed_return _)
    | int8 i =>
      exact Framed_of_eq _ (fun e => (e, some (unsupported (typeString (Value.int8 i)))))
        (fun e => by simp only [Encoder.Encode]) (Framed_return _)
    | int16 i =>
      exact Framed_of_eq _ (fun e => (e, some (unsupported (typeString (Value.int16 i)))))
        (fun e => by simp only [Encoder.Encode]) (Framed_return _)
    | uint16 n =>
      exact Framed_of_eq _ (fun e => (e, some (unsupported (typeString (Value.uint16 n)))))
        (fun e => by simp only [Encoder.Encode]) (Framed_return _)
    | uint32 n =>
      exact Framed_of_eq _ (fun e => (e, some (unsupported (typeString (Value.uint32 n)))))
        (fun e => by simp only [Encoder.Encode]) (Framed_return _)
    | uint64 n =>
      exact Framed_of_eq _ (fun e => (e, some (unsupported (typeString (Value.uint64 n)))))
        (fun e => by simp only [Encoder.Encode]) (Framed_return _)
    | Varuint32 n =>
      exact Framed_of_eq _ (fun e => (e, some (unsupported (typeString (Value.Varuint32 n)))))
        (fun e => by simp only [Encoder.Encode]) (Framed_return _)
    | bool b =>
      exact Framed_of_eq _ (fun e => (e, some (unsupported (typeString (Value.bool b)))))
        (fun e => by simp only [Encoder.Encode]) (Framed_return _)
    | Bool b =>
      exact Framed_of_eq _ (fun e => (e, some (unsupported (typeString (Value.Bool b)))))
        (fun e => by simp only [Encoder.Encode]) (Framed_return _)
    | JSONTime t =>
      exact Framed_of_eq _ (fun e => (e, none))
        (fun e => by simp only [Encoder.Encode]) (Framed_return _)
    | HexBytes b =>
      exact Framed_of_eq _ (fun e => (match e.WriteUVarInt (Int.ofNat b.length) with
          | (e1, some err) => (e1, some err)
          | (e1, none) => e1.encodeByteElems b))
        (fun e => by simp only [Encoder.Encode]) (Framed_byteSlice b)
    | bytes b =>
      exact Framed_of_eq _ (fun e => (match e.WriteUVarInt (Int.ofNat b.length) with
          | (e1, some err) => (e1, some err)
          | (e1, none) => e1.encodeByteElems b))
        (fun e => by simp only [Encoder.Encode]) (Framed_byteSlice b)
    | SHA256Bytes b =>
      exact Framed_of_eq _ (fun e => (match e.WriteUVarInt (Int.ofNat b.length) with
          | (e1, some err) => (e1, some err)
          | (e1, none) => e1.encodeByteElems b))
        (fun e => by simp only [Encoder.Encode]) (Framed_byteSlice b)
    | PublicKey pk =>
      exact Framed_of_eq _ (fun e => (e, some (unsupported "ecc.CurveID")))
        (fun e => by simp only [Encoder.Encode]) (Framed_return _)
    | Signature sig =>
      exact Framed_of_eq _ (fun e => (e, some (unsupported "ecc.CurveID")))
        (fun e => by simp only [Encoder.Encode]) (Framed_return _)
    | Tstamp t =>
      exact Framed_of_eq _ (fun e => (e, none))
        (fun e => by simp only [Encoder.Encode]) (Framed_return _)
    | BlockTimestamp t =>
      exact Framed_of_eq _ (fun e => (e, none))
        (fun e => by simp only [Encoder.Encode]) (Framed_return _)
    | CurrencyName s =>
      exact Framed_of_eq _ (fun e => (e, some (unsupported (typeString (Value.CurrencyName s)))))
        (fun e => by simp only [Encoder.Encode]) (Framed_return _)
    | Asset a =>
      exact Framed_of_eq _ (fun e => (e, some (unsupported "int64")))
        (fun e => by simp only [Encoder.Encode]) (Framed_return _)
    | ActionData h d =>
      exact Framed_of_eq _ (fun e => Encoder.writeActionData e h d)
        (fun e => by simp only [Encoder.Encode]) (Framed_writeActionData h d)
    | P2PMessageEnvelopePtr typ payload msg =>
      exact Framed_of_eq _ (fun e => (e, some (unsupported (typeString (Value.P2PMessageEnvelopePtr typ payload msg)))))
        (fun e => by simp only [Encoder.Encode]) (Framed_return _)
    | int32 i =>
      exact Framed_of_eq _ (fun e => (e, some (unsupported (typeString (Value.int32 i)))))
        (fun e => by simp only [Encoder.Encode]) (Framed_return _)
    | int64 i =>
      exact Framed_of_eq _ (fun e => (e, some (unsupported (typeString (Value.int64 i)))))
        (fun e => by simp only [Encoder.Encode]) (Framed_return _)
    | other t k =>
      exact Framed_of_eq _ (fun e => (e, some (unsupported (typeString (Value.other t k)))))
        (fun e => by simp only [Encoder.Encode]) (Framed_return _)
    | nil t =>
      exact Framed_of_eq _ (fun e => (e, some (unsupported (typeString (Value.nil t)))))
        (fun e => by simp only [Encoder.Encode]) (Framed_return _)
    | array t elems =>
      exact Framed_of_eq _ (fun e => Encoder.encodeElems e elems)
        (fun e => by simp only [Encoder.Encode]) (Framed_encodeElems elems)
    | slice t elems =>
      exact Framed_seq _ (fun e => e.WriteUVarInt (Int.ofNat elems.length))
        (fun e => Encoder.encodeElems e elems) (fun e => by simp only [Encoder.Encode])
        (Framed_WriteUVarInt _) (Framed_encodeElems elems)
    | struct t fields =>
      exact Framed_of_eq _ (fun e => Encoder.encodeFields e fields)
        (fun e => by simp only [Encoder.Encode]) (Framed_encodeFields fields)
    | map t entries =>
      exact Framed_seq _ (fun e => e.WriteUVarInt (Int.ofNat entries.length))
        (fun e => Encoder.encodeEntries e entries) (fun e => by simp only [Encoder.Encode])
        (Framed_WriteUVarInt _) (Framed_encodeEntries entries)
    | ptr q =>
      exact Framed_of_eq _ (fun e => (e, some (unsupported (typeString (Value.ptr q)))))
        (fun e => by simp only [Encoder.Encode]) (Framed_return _)
termination_by structural v

theorem Framed_encodeElems (vs : List Value) : Framed (fun e => Encoder.encodeElems e vs) := by
  cases vs with
  | nil =>
    exact Framed_of_eq _ (fun e => (e, none)) (fun e => by simp only [Encoder.encodeElems])
      (Framed_return _)
  | cons v rest =>
    exact Framed_seq _ (fun e => e.Encode v) (fun e => Encoder.encodeElems e rest)
      (fun e => by simp only [Encoder.encodeElems]) (Framed_Encode v) (Framed_encodeElems rest)
termination_by structural vs

theorem Framed_encodeFields (fields : List (StructField × Value)) :
    Framed (fun e => Encoder.encodeFields e fields) := by
  match fields with
  | [] =>
    exact Framed_of_eq _ (fun e => (e, none)) (fun e => by simp only [Encoder.encodeFields])
      (Framed_return _)
  | (field, v) :: rest =>
    have hrest := Framed_encodeFields rest
    have hv := Framed_Encode v
    by_cases h1 : field.tag = "-"
    · exact Framed_of_eq _ _ (fun e => by rw [Encoder.encodeFields, if_pos h1]) hrest
    · by_cases h2 : field.Name ≠ "_" ∧ field.exported = true
      · by_cases h3 : field.tag = "optional"
        · cases h4 : field.IsNil with
          | none =>
            exact Framed_of_eq _ (fun e => (e, some (Err.panic
                "reflect: call of reflect.Value.IsNil on a value without nil")))
              (fun e => by
                rw [Encoder.encodeFields, if_neg h1, if_pos h2, if_pos h3]
                simp only [h4])
              (Framed_return _)
          | some isNil =>
            cases isNil with
            | true =>
              exact Framed_dropSeq _ (fun e => e.WriteBool false)
                (fun e => Encoder.encodeFields e rest)
                (fun e => by
                  rw [Encoder.encodeFields, if_neg h1, if_pos h2, if_pos h3]
                  simp only [h4, Bool.not_true, Bool.false_eq_true, if_false])
                (Framed_WriteBool _) hrest
            | false =>
              exact Framed_dropSeq _ (fun e => e.WriteBool true)
                (fun e => match Encoder.Encode e v with
                  | (e2, some err) => (e2, some err)
                  | (e2, none) => Encoder.encodeFields e2 rest)
                (fun e => by
                  rw [Encoder.encodeFields, if_neg h1, if_pos h2, if_pos h3]
                  simp only [h4, Bool.not_false, if_true])
                (Framed_WriteBool _) (Framed_seq _ _ _ (fun _ => rfl) hv hrest)
        · exact Framed_seq _ (fun e => e.Encode v) (fun e => Encoder.encodeFields e rest)
            (fun e => by rw [Encoder.encodeFields, if_neg h1, if_pos h2, if_neg h3])
            hv hrest
      · exact Framed_of_eq _ _
          (fun e => by rw [Encoder.encodeFields, if_neg h1, if_neg h2]) hrest
termination_by structural fields

theorem Framed_encodeEntries (entries : List (Value × Value)) :
    Framed (fun e => Encoder.encodeEntries e entries) := by
  match entries with
  | [] =>
    exact Framed_of_eq _ (fun e => (e, none)) (fun e => by simp only [Encoder.encodeEntries])
      (Framed_return _)
  | (key, value) :: rest =>
    exact Framed_seq _ (fun e => e.Encode key)
      (fun e => match Encoder.Encode e value with
        | (e2, some err) => (e2, some err)
        | (e2, none) => Encoder.encodeEntries e2 rest)
      (fun e => by simp only [Encoder.encodeEntries]) (Framed_Encode key)
      (Framed_seq _ _ _ (fun _ => rfl) (Framed_Encode value) (Framed_encodeEntries rest))
termination_by structural entries

end

/-- On a `bytes.Buffer`, `Encode` appends the bytes of `MarshalBinary` and returns its
error. -/
theorem Encode_onBuffer (v : Value) (data : List Nat) (count : Nat) :
    (Encoder.onBuffer data count).Encode v =
      (Encoder.onBuffer (data ++ (MarshalBinary v).1) (count + (MarshalBinary v).1.length),
        (MarshalBinary v).2) := by
  obtain ⟨bs, err, h⟩ := Framed_Encode v
  have h0 : (Encoder.onBuffer [] 0).Encode v = (Encoder.onBuffer ([] ++ bs) (0 + bs.length), err) :=
    h [] 0
  have hm : MarshalBinary v = (bs, err) := by
    unfold MarshalBinary
    have h2 : NewEncoder (bytesBuffer []) = Encoder.onBuffer [] 0 := rfl
    rw [h2, h0]
    simp [Encoder.onBuffer, bytesBuffer]
  rw [hm]
  exact h data count

theorem runAll_single (r : List Nat × Option Err) : runAll [r] = r := by
  obtain ⟨bs, err⟩ := r
  cases err <;> simp [runAll]

theorem runAll_cons_run (r : List Nat × Option Err) (rest : List (List Nat × Option Err)) :
    runAll [r, runAll rest] = runAll (r :: rest) := by
  obtain ⟨bs, err⟩ := r
  cases err with
  | some er => simp [runAll]
  | none =>
    have h1 : runAll [(bs, none), runAll rest] =
        (bs ++ (runAll [runAll rest]).1, (runAll [runAll rest]).2) := by
      generalize runAll rest = q
      obtain ⟨q1, q2⟩ := q
      simp [runAll]
    rw [h1, runAll_single]
    simp [runAll]

/-- The outcome when every step succeeds: the bytes of all steps. -/
theorem runAll_ok (steps : List (List Nat × Option Err)) (h : ∀ r ∈ steps, r.2 = none) :
    runAll steps = ((steps.map Prod.fst).flatten, none) := by
  induction steps with
  | nil => simp [runAll]
  | cons r rest ih =>
    obtain ⟨bs, err⟩ := r
    have h1 : err = none := h (bs, err) (List.mem_cons_self _ _)
    subst h1
    have := ih (fun r hr => h r (List.mem_cons_of_mem _ hr))
    simp [runAll, this]

/-- The outcome when a step fails after steps that succeed: the bytes up to it and its
error, whatever follows. -/
theorem runAll_fail (pre post : List (List Nat × Option Err)) (bs : List Nat) (err : Err)
    (h : ∀ r ∈ pre, r.2 = none) :
    runAll (pre ++ (bs, some err) :: post) = ((pre.map Prod.fst).flatten ++ bs, some err) := by
  induction pre with
  | nil => simp [runAll]
  | cons r rest ih =>
    obtain ⟨b1, e1⟩ := r
    have h1 : e1 = none := h (b1, e1) (List.mem_cons_self _ _)
    subst h1
    have := ih (fun r hr => h r (List.mem_cons_of_mem _ hr))
    simp [runAll, this]

theorem ActsAs_runAll_cons (F f g : Encoder → Res)
    (hF : ∀ e, F e = match f e with
      | (e1, some err) => (e1, some err)
      | (e1, none) => g e1)
    (r : List Nat × Option Err) (rest : List (List Nat × Option Err))
    (hf : ActsAs f r.1 r.2) (hg : ActsAs g (runAll rest).1 (runAll rest).2) :
    ActsAs F (runAll (r :: rest)).1 (runAll (r :: rest)).2 := by
  have := ActsAs_seq F f g hF r.1 (runAll rest).1 r.2 (runAll rest).2 hf hg
  rw [← runAll_cons_run]
  exact this

theorem ActsAs_Encode (v : Value) :
    ActsAs (fun e => e.Encode v) (MarshalBinary v).1 (MarshalBinary v).2 :=
  fun data count => Encode_onBuffer v data count

theorem ActsAs_encodeElems (vs : List Value) :
    ActsAs (fun e => Encoder.encodeElems e vs) (runAll (vs.map MarshalBinary)).1
      (runAll (vs.map MarshalBinary)).2 := by
  induction vs with
  | nil => exact fun data count => by simp [Encoder.encodeElems, runAll]
  | cons v rest ih =>
    exact ActsAs_runAll_cons _ (fun e => e.Encode v) (fun e => Encoder.encodeElems e rest)
      (fun e => by simp only [Encoder.encodeElems]) (MarshalBinary v) _ (ActsAs_Encode v) ih

theorem ActsAs_encodeEntries (es : List (Value × Value)) :
    ActsAs (fun e => Encoder.encodeEntries e es)
      (runAll (es.flatMap (fun kv => [MarshalBinary kv.1, MarshalBinary kv.2]))).1
      (runAll (es.flatMap (fun kv => [MarshalBinary kv.1, MarshalBinary kv.2]))).2 := by
  induction es with
  | nil => exact fun data count => by simp [Encoder.encodeEntries, runAll]
  | cons kv rest ih =>
    obtain ⟨k, v⟩ := kv
    simp only [List.flatMap_cons, List.cons_append, List.nil_append]
    exact ActsAs_runAll_cons _ (fun e => e.Encode k)
      (fun e => match Encoder.Encode e v with
        | (e2, some err) => (e2, some err)
        | (e2, none) => Encoder.encodeEntries e2 rest)
      (fun e => by simp only [Encoder.encodeEntries]) (MarshalBinary k) _ (ActsAs_Encode k)
      (ActsAs_runAll_cons _ (fun e => e.Encode v) (fun e => Encoder.encodeEntries e rest)
        (fun _ => rfl) (MarshalBinary v) _ (ActsAs_Encode v) ih)

/-- The bytes and the error of an encoder method that acts on buffers, read off a new
buffer. -/
theorem MarshalBinary_of_ActsAs (v : Value) (bs : List Nat) (err : Option Err)
    (h : ActsAs (fun e => e.Encode v) bs err) : MarshalBinary v = (bs, err) := by
  have h0 : (Encoder.onBuffer [] 0).Encode v = (Encoder.onBuffer ([] ++ bs) (0 + bs.length), err) :=
    h [] 0
  unfold MarshalBinary
  have h2 : NewEncoder (bytesBuffer []) = Encoder.onBuffer [] 0 := rfl
  rw [h2, h0]
  simp [Encoder.onBuffer, bytesBuffer]

/-- An array is its elements one after the other, up to the first that fails. -/
theorem MarshalBinary_array (t : String) (elems : List Value) :
    MarshalBinary (Value.array t elems) = runAll (elems.map MarshalBinary) :=
  MarshalBinary_of_ActsAs _ _ _ (fun data count => by
    show (Encoder.onBuffer data count).Encode (Value.array t elems) = _
    simp only [Encoder.Encode]
    exact ActsAs_encodeElems elems data count)

/-- A slice is the varint of its length and then its elements, up to the first that
fails. -/
theorem MarshalBinary_slice (t : String) (elems : List Value) (h : elems.length < 2 ^ 56) :
    MarshalBinary (Value.slice t elems) =
      runAll ((leb128 elems.length, none) :: elems.map MarshalBinary) :=
  MarshalBinary_of_ActsAs _ _ _
    (ActsAs_runAll_cons _ (fun e => e.WriteUVarInt (Int.ofNat elems.length))
      (fun e => Encoder.encodeElems e elems) (fun e => by simp only [Encoder.Encode])
      (leb128 elems.length, none) _
      (fun data count => WriteUVarInt_onBuffer data count elems.length h)
      (ActsAs_encodeElems elems))

/-- A map is the varint of its length and then key and value of each entry, up to the
first that fails. -/
theorem MarshalBinary_map (t : String) (es : List (Value × Value)) (h : es.length < 2 ^ 56) :
    MarshalBinary (Value.map t es) =
      runAll ((leb128 es.length, none) ::
        es.flatMap (fun kv => [MarshalBinary kv.1, MarshalBinary kv.2])) :=
  MarshalBinary_of_ActsAs _ _ _
    (ActsAs_runAll_cons _ (fun e => e.WriteUVarInt (Int.ofNat es.length))
      (fun e => Encoder.encodeEntries e es) (fun e => by simp only [Encoder.Encode])
      (leb128 es.length, none) _
      (fun data count => WriteUVarInt_onBuffer data count es.length h)
      (ActsAs_encodeEntries es))

theorem ActsAs_of_eq (F G : Encoder → Res) (bs : List Nat) (err : Option Err)
    (h : ∀ e, F e = G e) (hG : ActsAs G bs err) : ActsAs F bs err :=
  fun data count => by rw [h, hG data count]

theorem ActsAs_dropWriteBool (b : Bool) :
    ActsAs (fun e => dropError (e.WriteBool b)) [if b then 1 else 0] none :=
  fun data count => by
    show dropError ((Encoder.onBuffer data count).WriteBool b) = _
    simp only [Encoder.WriteBool, Encoder.WriteByte, toWriter_onBuffer, dropError]

theorem runAll_merge (b : Nat) (r : List Nat × Option Err)
    (rest : List (List Nat × Option Err)) :
    runAll (([b], none) :: r :: rest) = runAll ((b :: r.1, r.2) :: rest) := by
  obtain ⟨bs, err⟩ := r
  cases err <;> simp [runAll]

theorem runAll_skip (rest : List (List Nat × Option Err)) :
    runAll (([], none) :: rest) = runAll rest := by
  simp [runAll]

/-- The field loop: the steps of the fields one after the other, up to the first that
fails. -/
theorem ActsAs_encodeFields (fields : List (StructField × Value)) :
    ActsAs (fun e => Encoder.encodeFields e fields) (runAll (fields.map fieldStep)).1
      (runAll (fields.map fieldStep)).2 := by
  induction fields with
  | nil => exact fun data count => by simp [Encoder.encodeFields, runAll]
  | cons fv rest ih =>
    obtain ⟨field, v⟩ := fv
    rw [List.map_cons]
    by_cases h1 : field.tag = "-"
    · have hs : fieldStep (field, v) = ([], none) := by simp [fieldStep, h1]
      rw [hs, runAll_skip]
      exact ActsAs_of_eq _ _ _ _ (fun e => by rw [Encoder.encodeFields, if_pos h1]) ih
    · by_cases h2 : field.Name ≠ "_" ∧ field.exported = true
      · by_cases h3 : field.tag = "optional"
        · cases h4 : field.IsNil with
          | none =>
            have hs : fieldStep (field, v) = ([], some (Err.panic
                "reflect: call of reflect.Value.IsNil on a value without nil")) := by
              simp only [fieldStep, if_neg h1, if_pos h2, if_pos h3, h4]
            rw [hs]
            exact ActsAs_of_eq _ (fun e => (e, some (Err.panic
                "reflect: call of reflect.Value.IsNil on a value without nil"))) _ _
              (fun e => by
                rw [Encoder.encodeFields, if_neg h1, if_pos h2, if_pos h3]
                simp only [h4])
              (ActsAs_return _)
          | some isNil =>
            cases isNil with
            | true =>
              have hs : fieldStep (field, v) = ([0], none) := by
                simp only [fieldStep, if_neg h1, if_pos h2, if_pos h3, h4]
              rw [hs]
              exact ActsAs_runAll_cons _ (fun e => dropError (e.WriteBool false))
                (fun e => Encoder.encodeFields e rest)
                (fun e => by
                  rw [Encoder.encodeFields, if_neg h1, if_pos h2, if_pos h3]
                  simp only [h4, Bool.not_true, Bool.false_eq_true, if_false])
                ([0], none) _ (ActsAs_dropWriteBool false) ih
            | false =>
              have hs : fieldStep (field, v) =
                  (1 :: (MarshalBinary v).1, (MarshalBinary v).2) := by
                simp only [fieldStep, if_neg h1, if_pos h2, if_pos h3, h4]
              rw [hs, ← runAll_merge 1 (MarshalBinary v)]
              exact ActsAs_runAll_cons _ (fun e => dropError (e.WriteBool true))
                (fun e => match Encoder.Encode e v with
                  | (e2, some err) => (e2, some err)
                  | (e2, none) => Encoder.encodeFields e2 rest)
                (fun e => by
                  rw [Encoder.encodeFields, if_neg h1, if_pos h2, if_pos h3]
                  simp only [h4, Bool.not_false, if_true])
                ([1], none) _ (ActsAs_dropWriteBool true)
                (ActsAs_runAll_cons _ (fun e => e.Encode v)
                  (fun e => Encoder.encodeFields e rest) (fun _ => rfl) (MarshalBinary v) _
                  (ActsAs_Encode v) ih)
        · have hs : fieldStep (field, v) = MarshalBinary v := by
            simp only [fieldStep, if_neg h1, if_pos h2, if_neg h3]
          rw [hs]
          exact ActsAs_runAll_cons _ (fun e => e.Encode v)
            (fun e => Encoder.encodeFields e rest)
            (fun e => by rw [Encoder.encodeFields, if_neg h1, if_pos h2, if_neg h3])
            (MarshalBinary v) _ (ActsAs_Encode v) ih
      · have hs : fieldStep (field, v) = ([], none) := by
          simp only [fieldStep, if_neg h1, if_neg h2]
        rw [hs, runAll_skip]
        exact ActsAs_of_eq _ _ _ _
          (fun e => by rw [Encoder.encodeFields, if_neg h1, if_neg h2]) ih

/-- An aggregate is the steps of its fields, up to the first that fails. -/
theorem MarshalBinary_struct (t : String) (fields : List (StructField × Value)) :
    MarshalBinary (Value.struct t fields) = runAll (fields.map fieldStep) :=
  MarshalBinary_of_ActsAs _ _ _ (fun data count => by
    show (Encoder.onBuffer data count).Encode (Value.struct t fields) = _
    simp only [Encoder.Encode]
    exact ActsAs_encodeFields fields data count)

/-! ## Hash blocks -/

theorem WriteSHA256Bytes_empty_onBuffer (data : List Nat) (count : Nat) :
    (Encoder.onBuffer data count).WriteSHA256Bytes [] =
      (Encoder.onBuffer (data ++ List.replicate 32 0) (count + 32), none) := by
  simp [Encoder.WriteSHA256Bytes, TypeSize.SHA256Bytes, toWriter_onBuffer]

theorem WriteSHA256Bytes_cons_onBuffer (data : List Nat) (count b : Nat) (s : List Nat) :
    (Encoder.onBuffer data count).WriteSHA256Bytes (b :: s) =
      (Encoder.onBuffer (data ++ b :: s) (count + (s.length + 1)), none) := by
  simp [Encoder.WriteSHA256Bytes, toWriter_onBuffer]

/-- C11: over a `bytes.Buffer`, `WriteSHA256Bytes` and `Encode` of an empty `SHA256Bytes`
value succeed and append exactly 32 zero bytes, and of a 32-byte value they succeed and
append those 32 bytes unchanged. -/
theorem C11_SHA256Bytes_empty_and_full (data : List Nat) (count : Nat) (s : List Nat)
    (h : s.length = 32) :
    (Encoder.onBuffer data count).WriteSHA256Bytes [] =
        (Encoder.onBuffer (data ++ List.replicate 32 0) (count + 32), none)
    ∧ (Encoder.onBuffer data count).Encode (Value.SHA256Bytes []) =
        (Encoder.onBuffer (data ++ List.replicate 32 0) (count + 32), none)
    ∧ MarshalBinary (Value.SHA256Bytes []) = (List.replicate 32 0, none)
    ∧ (List.replicate 32 0).length = 32
    ∧ (Encoder.onBuffer data count).WriteSHA256Bytes s =
        (Encoder.onBuffer (data ++ s) (count + 32), none)
    ∧ (Encoder.onBuffer data count).Encode (Value.SHA256Bytes s) =
        (Encoder.onBuffer (data ++ s) (count + 32), none)
    ∧ MarshalBinary (Value.SHA256Bytes s) = (s, none) := by
  have hs : ∀ (data : List Nat) (count : Nat), (Encoder.onBuffer data count).WriteSHA256Bytes s =
      (Encoder.onBuffer (data ++ s) (count + 32), none) := by
    intro data count
    cases s with
    | nil => simp at h
    | cons b s =>
      rw [WriteSHA256Bytes_cons_onBuffer]
      simp only [List.length_cons] at h
      rw [h]
  refine ⟨WriteSHA256Bytes_empty_onBuffer data count, ?_, ?_, by simp, hs data count, ?_, ?_⟩
  · simp only [Encoder.Encode]
    exact WriteSHA256Bytes_empty_onBuffer data count
  · exact MarshalBinary_of_ActsAs _ _ _ (fun data count => by
      show (Encoder.onBuffer data count).Encode (Value.SHA256Bytes []) = _
      simp only [Encoder.Encode]
      exact WriteSHA256Bytes_empty_onBuffer data count)
  · simp only [Encoder.Encode]
    exact hs data count
  · exact MarshalBinary_of_ActsAs _ _ _ (fun data count => by
      show (Encoder.onBuffer data count).Encode (Value.SHA256Bytes s) = _
      simp only [Encoder.Encode]
      rw [hs data count, h])

theorem C11_SHA256Bytes_empty_and_full_witness :
    MarshalBinary (Value.SHA256Bytes []) = (List.replicate 32 0, none)
    ∧ MarshalBinary (Value.SHA256Bytes (List.replicate 32 1)) = (List.replicate 32 1, none) :=
  have h := C11_SHA256Bytes_empty_and_full [] 0 (List.replicate 32 1) (by decide)
  ⟨h.2.2.1, h.2.2.2.2.2.2⟩

/-- C12 (what the code does): a `SHA256Bytes` value that is not empty is written as it
is, whatever its length: `WriteSHA256Bytes` and `Encode` append `len(s)` bytes, so the
block on the wire is 32 bytes long only when the value itself is; a value of 5 bytes
gives 5 bytes. -/
theorem C12_SHA256Bytes_written_as_is (data : List Nat) (count b : Nat) (s : List Nat) :
    (Encoder.onBuffer data count).WriteSHA256Bytes (b :: s) =
        (Encoder.onBuffer (data ++ b :: s) (count + (s.length + 1)), none)
    ∧ (Encoder.onBuffer data count).Encode (Value.SHA256Bytes (b :: s)) =
        (Encoder.onBuffer (data ++ b :: s) (count + (s.length + 1)), none)
    ∧ MarshalBinary (Value.SHA256Bytes (b :: s)) = (b :: s, none)
    ∧ ((MarshalBinary (Value.SHA256Bytes (b :: s))).1.length = 32 ↔ (b :: s).length = 32)
    ∧ MarshalBinary (Value.SHA256Bytes [1, 2, 3, 4, 5]) = ([1, 2, 3, 4, 5], none)
    ∧ (MarshalBinary (Value.SHA256Bytes [1, 2, 3, 4, 5])).1.length = 5 := by
  have hm : ∀ (b : Nat) (s : List Nat),
      MarshalBinary (Value.SHA256Bytes (b :: s)) = (b :: s, none) := by
    intro b s
    exact MarshalBinary_of_ActsAs _ _ _ (fun data count => by
      show (Encoder.onBuffer data count).Encode (Value.SHA256Bytes (b :: s)) = _
      simp only [Encoder.Encode]
      rw [WriteSHA256Bytes_cons_onBuffer]
      rfl)
  refine ⟨WriteSHA256Bytes_cons_onBuffer data count b s, ?_, hm b s, ?_, hm _ _, ?_⟩
  · simp only [Encoder.Encode]
    exact WriteSHA256Bytes_cons_onBuffer data count b s
  · rw [hm]
  · rw [hm]
    rfl

/-! ## Block timestamps -/

/-- C13: for a `BlockTimestamp` at a whole second `s` with
`946684800 ≤ s < 946684800 + 2^32`, `WriteBlockTimestamp` (and `Encode`) over a
`bytes.Buffer` appends exactly 4 bytes, the little-endian form of `s - 946684800`, and
the value of those bytes plus 946684800 is `s` again. -/
theorem C13_block_timestamp_round_trip (data : List Nat) (count : Nat) (s : Int)
    (h1 : 946684800 ≤ s) (h2 : s < 946684800 + 2 ^ 32) :
    (Encoder.onBuffer data count).WriteBlockTimestamp ⟨s, 0⟩ =
        (Encoder.onBuffer (data ++ leBytes 4 (s - 946684800).toNat) (count + 4), none)
    ∧ (Encoder.onBuffer data count).Encode (Value.BlockTimestamp ⟨s, 0⟩) =
        (Encoder.onBuffer (data ++ leBytes 4 (s - 946684800).toNat) (count + 4), none)
    ∧ (leBytes 4 (s - 946684800).toNat).length = 4
    ∧ (leValue (leBytes 4 (s - 946684800).toNat) : Int) + 946684800 = s
    ∧ (⟨(leValue (leBytes 4 (s - 946684800).toNat) : Int) + 946684800, 0⟩ : Time) = ⟨s, 0⟩ := by
  have hmod : (s - 946684800) % 2 ^ 32 = s - 946684800 :=
    Int.emod_eq_of_lt (by omega) (by omega)
  have hw : (Encoder.onBuffer data count).WriteBlockTimestamp ⟨s, 0⟩ =
      (Encoder.onBuffer (data ++ leBytes 4 (s - 946684800).toNat) (count + 4), none) := by
    simp only [Encoder.WriteBlockTimestamp, Time.Unix]
    rw [hmod, WriteUint32_onBuffer]
  have hv : (leValue (leBytes 4 (s - 946684800).toNat) : Int) + 946684800 = s := by
    rw [leValue_leBytes 4 _ (by norm_num; omega)]
    omega
  refine ⟨hw, ?_, length_leBytes _ _, hv, by rw [hv]⟩
  simp only [Encoder.Encode]
  exact hw

theorem C13_block_timestamp_round_trip_witness :
    (Encoder.onBuffer [] 0).WriteBlockTimestamp ⟨1530000000, 0⟩ =
        (Encoder.onBuffer ([] ++ leBytes 4 ((1530000000 : Int) - 946684800).toNat) (0 + 4), none)
    ∧ (leValue (leBytes 4 ((1530000000 : Int) - 946684800).toNat) : Int) + 946684800
        = 1530000000 :=
  have h := C13_block_timestamp_round_trip [] 0 1530000000 (by decide) (by decide)
  ⟨h.1, h.2.2.2.1⟩

/-! ## Arrays, slices and maps -/

theorem runAll_map_ok (elems : List Value) (h : ∀ v ∈ elems, (MarshalBinary v).2 = none) :
    runAll (elems.map MarshalBinary) = ((elems.map wire).flatten, none) := by
  rw [runAll_ok _ (fun r hr => by
    obtain ⟨v, hv, rfl⟩ := List.mem_map.1 hr
    exact h v hv), List.map_map]
  rfl

theorem runAll_entries_ok (es : List (Value × Value))
    (h : ∀ kv ∈ es, (MarshalBinary kv.1).2 = none ∧ (MarshalBinary kv.2).2 = none) :
    runAll (es.flatMap (fun kv => [MarshalBinary kv.1, MarshalBinary kv.2])) =
      ((es.map (fun kv => wire kv.1 ++ wire kv.2)).flatten, none) := by
  rw [runAll_ok _ (fun r hr => by
    obtain ⟨kv, hkv, hr⟩ := List.mem_flatMap.1 hr
    simp only [List.mem_cons, List.mem_singleton, List.not_mem_nil, or_false] at hr
    rcases hr with rfl | rfl
    · exact (h kv hkv).1
    · exact (h kv hkv).2)]
  congr 1
  clear h
  induction es with
  | nil => rfl
  | cons kv rest ih =>
    simp only [List.flatMap_cons, List.map_append, List.flatten_append, List.map_cons,
      List.flatten_cons, List.map_nil, List.flatten_nil, List.append_nil, ih, wire,
      List.append_assoc]

theorem runAll_prefixed (bs : List Nat) (rest : List (List Nat × Option Err)) :
    runAll ((bs, none) :: rest) = (bs ++ (runAll rest).1, (runAll rest).2) := by
  simp [runAll]

theorem wire_byte_elems (bs : List Nat) : ((bs.map Value.byte).map wire).flatten = bs := by
  induction bs with
  | nil => rfl
  | cons b rest ih =>
    simp only [List.map_cons, List.flatten_cons, ih]
    rfl

/-- C14: for every fixed-size array whose elements are all encoded successfully, `Encode`
appends exactly the concatenation of the encodings of the elements in index order, with
no length prefix; an array of bytes encodes to exactly those bytes, as
`[3]byte{1,2,4}` to `01 02 04`. -/
theorem C14_array_is_concatenation (t : String) (elems : List Value) (data : List Nat)
    (count : Nat) (h : ∀ v ∈ elems, (MarshalBinary v).2 = none) :
    (Encoder.onBuffer data count).Encode (Value.array t elems) =
        (Encoder.onBuffer (data ++ (elems.map wire).flatten)
          (count + ((elems.map wire).flatten).length), none)
    ∧ MarshalBinary (Value.array t elems) = ((elems.map wire).flatten, none)
    ∧ (∀ bs : List Nat, MarshalBinary (Value.array t (bs.map Value.byte)) = (bs, none))
    ∧ MarshalBinary (Value.array "[3]uint8" [Value.byte 1, Value.byte 2, Value.byte 4]) =
        ([1, 2, 4], none) := by
  have hm : ∀ elems : List Value, (∀ v ∈ elems, (MarshalBinary v).2 = none) →
      MarshalBinary (Value.array t elems) = ((elems.map wire).flatten, none) := by
    intro elems h
    rw [MarshalBinary_array, runAll_map_ok elems h]
  have hb : ∀ bs : List Nat, MarshalBinary (Value.array t (bs.map Value.byte)) = (bs, none) := by
    intro bs
    rw [hm _ (fun v hv => by
      obtain ⟨b, _, rfl⟩ := List.mem_map.1 hv
      rfl), wire_byte_elems]
  refine ⟨?_, hm elems h, hb, ?_⟩
  · rw [Encode_onBuffer, hm elems h]
  · rw [MarshalBinary_array]
    rfl

theorem C14_array_is_concatenation_witness :
    MarshalBinary (Value.array "[2]string"
        [Value.string (ascii "foo"), Value.string (ascii "bar")]) =
      (([Value.string (ascii "foo"), Value.string (ascii "bar")].map wire).flatten, none) :=
  (C14_array_is_concatenation "[2]string"
    [Value.string (ascii "foo"), Value.string (ascii "bar")] [] 0 (by decide)).2.1

/-- C15: for every slice of `n` elements (`n < 2^56`) whose elements are all encoded
successfully, `Encode` appends the varint of `n` followed by the concatenation of the
encodings of the elements in index order; the value of `TestSimplePacking` encodes to
`0000000000000e3d 02 0568656c6c6f 05776f726c64`. -/
theorem C15_slice_is_count_then_elements (t : String) (elems : List Value) (data : List Nat)
    (count : Nat) (hn : elems.length < 2 ^ 56)
    (h : ∀ v ∈ elems, (MarshalBinary v).2 = none) :
    (Encoder.onBuffer data count).Encode (Value.slice t elems) =
        (Encoder.onBuffer (data ++ (leb128 elems.length ++ (elems.map wire).flatten))
          (count + (leb128 elems.length ++ (elems.map wire).flatten).length), none)
    ∧ MarshalBinary (Value.slice t elems) =
        (leb128 elems.length ++ (elems.map wire).flatten, none)
    ∧ MarshalBinary (Value.ptr (Value.struct "types_test.M" [
          (⟨"Acct", "", true, none⟩, Value.AccountName (ascii "bob")),
          (⟨"A", "", true, some false⟩, Value.slice "[]*types_test.S" [
            Value.ptr (Value.struct "types_test.S"
              [(⟨"P", "", true, none⟩, Value.string (ascii "hello"))]),
            Value.ptr (Value.struct "types_test.S"
              [(⟨"P", "", true, none⟩, Value.string (ascii "world"))])])])) =
        ([0x00, 0x00, 0x00, 0x00, 0x00, 0x00, 0x0e, 0x3d, 0x02,
          0x05, 0x68, 0x65, 0x6c, 0x6c, 0x6f, 0x05, 0x77, 0x6f, 0x72, 0x6c, 0x64], none) := by
  have hm : MarshalBinary (Value.slice t elems) =
      (leb128 elems.length ++ (elems.map wire).flatten, none) := by
    rw [MarshalBinary_slice t elems hn, runAll_prefixed, runAll_map_ok elems h]
  refine ⟨?_, hm, ?_⟩
  · rw [Encode_onBuffer, hm]
  · decide

theorem C15_slice_is_count_then_elements_witness :
    MarshalBinary (Value.slice "[]string"
        [Value.string (ascii "def"), Value.string (ascii "789")]) =
      (leb128 [Value.string (ascii "def"), Value.string (ascii "789")].length ++
        ([Value.string (ascii "def"), Value.string (ascii "789")].map wire).flatten, none) :=
  (C15_slice_is_count_then_elements "[]string"
    [Value.string (ascii "def"), Value.string (ascii "789")] [] 0 (by decide) (by decide)).2.1

theorem length_flatten_perm (l1 l2 : List (List Nat)) (h : l1.Perm l2) :
    l1.flatten.length = l2.flatten.length := by
  induction h with
  | nil => rfl
  | cons x _ ih => simp only [List.flatten_cons, List.length_append, ih]
  | swap x y l => simp only [List.flatten_cons, List.length_append]; omega
  | trans _ _ ih1 ih2 => exact ih1.trans ih2

/-- C16: for every map with `n` entries (`n < 2^56`) whose keys and values are all encoded
successfully, `Encode` appends the varint of `n` followed by, for each entry in the order
the map yields them, the encoding of the key immediately followed by that of the value.
Whatever order lists the same entries, the output has the same length, and with at most
one entry it is the same output. -/
theorem C16_map_is_count_then_entries (t : String) (es : List (Value × Value))
    (data : List Nat) (count : Nat) (hn : es.length < 2 ^ 56)
    (h : ∀ kv ∈ es, (MarshalBinary kv.1).2 = none ∧ (MarshalBinary kv.2).2 = none) :
    (Encoder.onBuffer data count).Encode (Value.map t es) =
        (Encoder.onBuffer
          (data ++ (leb128 es.length ++ (es.map (fun kv => wire kv.1 ++ wire kv.2)).flatten))
          (count + (leb128 es.length ++
            (es.map (fun kv => wire kv.1 ++ wire kv.2)).flatten).length), none)
    ∧ MarshalBinary (Value.map t es) =
        (leb128 es.length ++ (es.map (fun kv => wire kv.1 ++ wire kv.2)).flatten, none)
    ∧ (∀ es2 : List (Value × Value), es2.Perm es →
        MarshalBinary (Value.map t es2) =
          (leb128 es.length ++ (es2.map (fun kv => wire kv.1 ++ wire kv.2)).flatten, none)
        ∧ (MarshalBinary (Value.map t es2)).1.length = (MarshalBinary (Value.map t es)).1.length)
    ∧ (es.length ≤ 1 → ∀ es2 : List (Value × Value), es2.Perm es →
        MarshalBinary (Value.map t es2) = MarshalBinary (Value.map t es)) := by
  have hm : ∀ es : List (Value × Value), es.length < 2 ^ 56 →
      (∀ kv ∈ es, (MarshalBinary kv.1).2 = none ∧ (MarshalBinary kv.2).2 = none) →
      MarshalBinary (Value.map t es) =
        (leb128 es.length ++ (es.map (fun kv => wire kv.1 ++ wire kv.2)).flatten, none) := by
    intro es hn h
    rw [MarshalBinary_map t es hn, runAll_prefixed, runAll_entries_ok es h]
  refine ⟨?_, hm es hn h, ?_, ?_⟩
  · rw [Encode_onBuffer, hm es hn h]
  · intro es2 hp
    have h2 : MarshalBinary (Value.map t es2) =
        (leb128 es2.length ++ (es2.map (fun kv => wire kv.1 ++ wire kv.2)).flatten, none) :=
      hm es2 (by rw [hp.length_eq]; exact hn) (fun kv hkv => h kv (hp.mem_iff.1 hkv))
    rw [hp.length_eq] at h2
    refine ⟨h2, ?_⟩
    rw [h2, hm es hn h]
    simp only [List.length_append]
    rw [length_flatten_perm _ _ (hp.map _)]
  · intro h1 es2 hp
    match es, h1, hp with
    | [], _, hp => rw [List.perm_nil.1 hp]
    | [kv], _, hp => rw [List.perm_singleton.1 hp]

theorem C16_map_is_count_then_entries_witness :
    MarshalBinary (Value.map "map[string]string"
        [(Value.string (ascii "foo"), Value.string (ascii "bar")),
         (Value.string (ascii "hello"), Value.string (ascii "you"))]) =
      (leb128 [(Value.string (ascii "foo"), Value.string (ascii "bar")),
          (Value.string (ascii "hello"), Value.string (ascii "you"))].length ++
        ([(Value.string (ascii "foo"), Value.string (ascii "bar")),
          (Value.string (ascii "hello"), Value.string (ascii "you"))].map
            (fun kv => wire kv.1 ++ wire kv.2)).flatten, none)
    ∧ MarshalBinary (Value.map "map[string]string"
        [(Value.string (ascii "foo"), Value.string (ascii "bar"))]) =
      MarshalBinary (Value.map "map[string]string"
        [(Value.string (ascii "foo"), Value.string (ascii "bar"))]) :=
  ⟨(C16_map_is_count_then_entries "map[string]string"
      [(Value.string (ascii "foo"), Value.string (ascii "bar")),
       (Value.string (ascii "hello"), Value.string (ascii "you"))] [] 0
      (by decide) (by decide)).2.1,
   (C16_map_is_count_then_entries "map[string]string"
      [(Value.string (ascii "foo"), Value.string (ascii "bar"))] [] 0
      (by decide) (by decide)).2.2.2 (by decide) _ (List.Perm.refl _)⟩

/-! ## Aggregates -/

theorem fieldStep_not_encoded (fv : StructField × Value) (h : fv.1.isEncoded = false) :
    fieldStep fv = ([], none) := by
  unfold fieldStep
  by_cases h1 : fv.1.tag = "-"
  · rw [if_pos h1]
  · rw [if_neg h1]
    by_cases h2 : fv.1.Name ≠ "_" ∧ fv.1.exported = true
    · exfalso
      simp [StructField.isEncoded, h1, h2.1, h2.2] at h
    · rw [if_neg h2]

theorem fieldStep_plain (fv : StructField × Value) (h : fv.1.isEncoded = true)
    (ho : fv.1.tag ≠ "optional") : fieldStep fv = MarshalBinary fv.2 := by
  simp only [StructField.isEncoded, Bool.and_eq_true, decide_eq_true_eq] at h
  unfold fieldStep
  rw [if_neg h.1, if_pos h.2, if_neg ho]

theorem runAll_append_skip (pre post : List (List Nat × Option Err)) :
    runAll (pre ++ ([], none) :: post) = runAll (pre ++ post) := by
  induction pre with
  | nil => simp [runAll]
  | cons r rest ih =>
    obtain ⟨bs, err⟩ := r
    cases err <;> simp [runAll, ih]

theorem fields_steps_flatten (fields : List (StructField × Value))
    (hopt : ∀ fv ∈ fields, fv.1.isEncoded = true → fv.1.tag ≠ "optional") :
    ((fields.map fieldStep).map Prod.fst).flatten =
      ((fields.filter (fun fv => fv.1.isEncoded)).map (fun fv => wire fv.2)).flatten := by
  induction fields with
  | nil => rfl
  | cons fv rest ih =>
    have ih2 := ih (fun x hx => hopt x (List.mem_cons_of_mem _ hx))
    cases h : fv.1.isEncoded with
    | false =>
      simp only [List.map_cons, List.flatten_cons, fieldStep_not_encoded fv h, List.nil_append,
        List.filter_cons, h, Bool.false_eq_true, if_false, ih2]
    | true =>
      simp only [List.map_cons, List.flatten_cons,
        fieldStep_plain fv h (hopt fv (List.mem_cons_self _ _) h), List.filter_cons, h, if_true,
        ih2, wire]

/-- C17 (with the fields that the loop skips made explicit): for every aggregate whose
fields handed to `Encode` carry no `optional` tag and are all encoded successfully,
`Encode` appends the concatenation, in declaration order, of the encodings of exactly the
fields that are not tagged `eos:"-"`, are exported and are not named `_`. A field that is
excluded, unexported or named `_` contributes no byte whatever its value: the output
equals that of the same aggregate with that field removed.
`TagTestStruct{S1:"123" excluded, S2:"abc"}` gives `03 61 62 63`. -/
theorem C17_struct_is_concatenation_of_encoded_fields (t : String)
    (fields : List (StructField × Value)) (data : List Nat) (count : Nat)
    (hopt : ∀ fv ∈ fields, fv.1.isEncoded = true → fv.1.tag ≠ "optional")
    (hok : ∀ fv ∈ fields, fv.1.isEncoded = true → (MarshalBinary fv.2).2 = none) :
    (Encoder.onBuffer data count).Encode (Value.struct t fields) =
        (Encoder.onBuffer
          (data ++ ((fields.filter (fun fv => fv.1.isEncoded)).map (fun fv => wire fv.2)).flatten)
          (count +
            ((fields.filter (fun fv => fv.1.isEncoded)).map (fun fv => wire fv.2)).flatten.length),
          none)
    ∧ MarshalBinary (Value.struct t fields) =
        (((fields.filter (fun fv => fv.1.isEncoded)).map (fun fv => wire fv.2)).flatten, none)
    ∧ (∀ (pre post : List (StructField × Value)) (f : StructField) (v : Value),
        f.isEncoded = false →
        MarshalBinary (Value.struct t (pre ++ (f, v) :: post)) =
          MarshalBinary (Value.struct t (pre ++ post)))
    ∧ (∀ (pre post : List (StructField × Value)) (f : StructField) (v : Value)
        (data : List Nat) (count : Nat), f.tag = "-" →
        (Encoder.onBuffer data count).Encode (Value.struct t (pre ++ (f, v) :: post)) =
          (Encoder.onBuffer data count).Encode (Value.struct t (pre ++ post)))
    ∧ MarshalBinary (Value.ptr (Value.struct "types_test.TagTestStruct" [
          (⟨"S1", "-", true, none⟩, Value.string (ascii "123")),
          (⟨"S2", "", true, none⟩, Value.string (ascii "abc"))])) =
        ([0x3, 0x61, 0x62, 0x63], none) := by
  have hm : MarshalBinary (Value.struct t fields) =
      (((fields.filter (fun fv => fv.1.isEncoded)).map (fun fv => wire fv.2)).flatten, none) := by
    rw [MarshalBinary_struct, runAll_ok _ (fun r hr => by
      obtain ⟨fv, hfv, rfl⟩ := List.mem_map.1 hr
      cases h : fv.1.isEncoded with
      | false => rw [fieldStep_not_encoded fv h]
      | true =>
        rw [fieldStep_plain fv h (hopt fv hfv h)]
        exact hok fv hfv h), fields_steps_flatten fields hopt]
  have hrem : ∀ (pre post : List (StructField × Value)) (f : StructField) (v : Value),
      f.isEncoded = false →
      MarshalBinary (Value.struct t (pre ++ (f, v) :: post)) =
        MarshalBinary (Value.struct t (pre ++ post)) := by
    intro pre post f v hf
    rw [MarshalBinary_struct, MarshalBinary_struct, List.map_append, List.map_append,
      List.map_cons, fieldStep_not_encoded (f, v) hf, runAll_append_skip]
  refine ⟨?_, hm, hrem, ?_, ?_⟩
  · rw [Encode_onBuffer, hm]
  · intro pre post f v data count hf
    rw [Encode_onBuffer, Encode_onBuffer, hrem pre post f v (by simp [StructField.isEncoded, hf])]
  · decide

theorem C17_struct_is_concatenation_of_encoded_fields_witness :
    MarshalBinary (Value.struct "types_test.TagTestStruct" [
        (⟨"S1", "-", true, none⟩, Value.string (ascii "123")),
        (⟨"S2", "", true, none⟩, Value.string (ascii "abc"))]) =
      ((([(⟨"S1", "-", true, none⟩, Value.string (ascii "123")),
          ((⟨"S2", "", true, none⟩ : StructField), Value.string (ascii "abc"))].filter
            (fun fv => fv.1.isEncoded)).map (fun fv => wire fv.2)).flatten, none) :=
  (C17_struct_is_concatenation_of_encoded_fields "types_test.TagTestStruct" [
      (⟨"S1", "-", true, none⟩, Value.string (ascii "123")),
      (⟨"S2", "", true, none⟩, Value.string (ascii "abc"))] [] 0
    (by decide) (by decide)).2.1

/-- C17 as stated does not hold: a field that is not tagged `eos:"-"` but is unexported
(or named `_`) is skipped as well. In `struct { hidden uint16; Shown uint16 }` only
`Shown` is written, and `Encode(&t)` of a `time.Time`, whose fields are all unexported,
as in `TestDecoder_Time`, writes nothing. -/
theorem C17_counterexample_unexported_field :
    MarshalBinary (Value.struct "main.T" [
        (⟨"hidden", "", false, none⟩, Value.uint16 1),
        (⟨"Shown", "", true, none⟩, Value.uint16 2)]) = ([2, 0], none)
    ∧ wire (Value.uint16 1) ++ wire (Value.uint16 2) = [1, 0, 2, 0]
    ∧ MarshalBinary (Value.ptr (Value.struct "time.Time" [
        (⟨"wall", "", false, none⟩, Value.uint64 5),
        (⟨"ext", "", false, none⟩, Value.int64 7),
        (⟨"loc", "", false, some true⟩, Value.nil "*time.Location")])) = ([], none)
    ∧ ¬ (∀ (t : String) (fields : List (StructField × Value)),
        (∀ fv ∈ fields, (MarshalBinary fv.2).2 = none) →
        MarshalBinary (Value.struct t fields) =
          (((fields.filter (fun fv => decide (fv.1.tag ≠ "-"))).map
            (fun fv => wire fv.2)).flatten, none)) := by
  refine ⟨by decide, by decide, by decide, ?_⟩
  intro h
  have h1 := h "main.T" [
        (⟨"hidden", "", false, none⟩, Value.uint16 1),
        (⟨"Shown", "", true, none⟩, Value.uint16 2)] (by decide)
  revert h1
  decide

theorem MarshalBinary_ptr_of_isStructural (w : Value) (h : isStructural w = true) :
    MarshalBinary (Value.ptr w) = MarshalBinary w := by
  cases w <;> simp only [isStructural, Bool.false_eq_true] at h <;>
    simp only [MarshalBinary, Encoder.Encode]

theorem fieldStep_optional_nil (f : StructField) (v : Value) (htag : f.tag = "optional")
    (hname : f.Name ≠ "_") (hexp : f.exported = true) (hnil : f.IsNil = some true) :
    fieldStep (f, v) = ([0], none) := by
  have h1 : ¬ f.tag = "-" := by rw [htag]; decide
  simp only [fieldStep, if_neg h1, if_pos (And.intro hname hexp), if_pos htag, hnil]

theorem fieldStep_optional_present (f : StructField) (v : Value) (htag : f.tag = "optional")
    (hname : f.Name ≠ "_") (hexp : f.exported = true) (hnil : f.IsNil = some false) :
    fieldStep (f, v) = (1 :: (MarshalBinary v).1, (MarshalBinary v).2) := by
  have h1 : ¬ f.tag = "-" := by rw [htag]; decide
  simp only [fieldStep, if_neg h1, if_pos (And.intro hname hexp), if_pos htag, hnil]

/-- C18 (for the fields the loop hands on, and with the value that `Encode` is given):
for every aggregate field tagged `optional` that is exported and not named `_`: if its
reference is null, the field loop appends the single byte `00` and goes on with the next
field; if it is non-null, the loop appends the byte `01` followed by what `Encode`
appends for the value of the field, and goes on if that succeeded or returns its error.
For a pointer to an aggregate, array, slice or map that is the encoding of the referenced
value. The presence byte is `01` exactly when the reference is non-null. -/
theorem C18_optional_field_presence_byte (t : String) (f : StructField) (v : Value)
    (rest : List (StructField × Value)) (data : List Nat) (count : Nat)
    (htag : f.tag = "optional") (hname : f.Name ≠ "_") (hexp : f.exported = true) :
    (f.IsNil = some true →
        Encoder.encodeFields (Encoder.onBuffer data count) ((f, v) :: rest) =
          Encoder.encodeFields (Encoder.onBuffer (data ++ [0]) (count + 1)) rest)
    ∧ (f.IsNil = some false → (MarshalBinary v).2 = none →
        Encoder.encodeFields (Encoder.onBuffer data count) ((f, v) :: rest) =
          Encoder.encodeFields
            (Encoder.onBuffer (data ++ 1 :: wire v) (count + (1 + (wire v).length))) rest)
    ∧ (f.IsNil = some false → ∀ err : Err, (MarshalBinary v).2 = some err →
        Encoder.encodeFields (Encoder.onBuffer data count) ((f, v) :: rest) =
          (Encoder.onBuffer (data ++ 1 :: wire v) (count + (1 + (wire v).length)), some err))
    ∧ (f.IsNil = some true → MarshalBinary (Value.struct t [(f, v)]) = ([0], none))
    ∧ (f.IsNil = some false →
        MarshalBinary (Value.struct t [(f, v)]) = (1 :: wire v, (MarshalBinary v).2))
    ∧ (∀ w : Value, isStructural w = true → f.IsNil = some false →
        MarshalBinary (Value.struct t [(f, Value.ptr w)]) = (1 :: wire w, (MarshalBinary w).2))
    ∧ (∀ isNil : Bool, f.IsNil = some isNil →
        ((MarshalBinary (Value.struct t [(f, v)])).1.head? = some 1 ↔ isNil = false)) := by
  have h1 : ¬ f.tag = "-" := by rw [htag]; decide
  have h2 : f.Name ≠ "_" ∧ f.exported = true := ⟨hname, hexp⟩
  have hnilcase : f.IsNil = some true → MarshalBinary (Value.struct t [(f, v)]) = ([0], none) := by
    intro hnil
    rw [MarshalBinary_struct]
    simp only [List.map_cons, List.map_nil, fieldStep_optional_nil f v htag hname hexp hnil]
    rfl
  have hpres : ∀ v : Value, f.IsNil = some false →
      MarshalBinary (Value.struct t [(f, v)]) = (1 :: wire v, (MarshalBinary v).2) := by
    intro v hnil
    rw [MarshalBinary_struct]
    simp only [List.map_cons, List.map_nil, fieldStep_optional_present f v htag hname hexp hnil]
    unfold wire
    generalize MarshalBinary v = r
    obtain ⟨bs, err⟩ := r
    cases err <;> simp [runAll]
  have hstep : f.IsNil = some false →
      Encoder.encodeFields (Encoder.onBuffer data count) ((f, v) :: rest) =
        match (Encoder.onBuffer (data ++ 1 :: wire v) (count + (1 + (wire v).length)),
            (MarshalBinary v).2) with
        | (e2, some err) => (e2, some err)
        | (e2, none) => Encoder.encodeFields e2 rest := by
    intro hnil
    rw [Encoder.encodeFields, if_neg h1, if_pos h2, if_pos htag]
    simp only [hnil, Bool.not_false, if_true, Encoder.WriteBool, Encoder.WriteByte,
      toWriter_onBuffer, dropError, Encode_onBuffer, List.length_singleton, List.append_assoc,
      List.singleton_append, wire, Nat.add_assoc]
    generalize (MarshalBinary v).2 = r
    cases r <;> rfl
  refine ⟨?_, ?_, ?_, hnilcase, hpres v, ?_, ?_⟩
  · intro hnil
    rw [Encoder.encodeFields, if_neg h1, if_pos h2, if_pos htag]
    simp only [hnil, Bool.not_true, Bool.false_eq_true, if_false, Encoder.WriteBool,
      Encoder.WriteByte, toWriter_onBuffer, dropError, List.length_singleton]
  · intro hnil hv
    rw [hstep hnil, hv]
  · intro hnil err hv
    rw [hstep hnil, hv]
  · intro w hw hnil
    rw [hpres _ hnil, MarshalBinary_ptr_of_isStructural w hw, wire,
      MarshalBinary_ptr_of_isStructural w hw, wire]
  · intro isNil hnil
    cases isNil with
    | true => rw [hnilcase hnil]; decide
    | false => rw [hpres v hnil]; simp

theorem C18_optional_field_presence_byte_witness :
    MarshalBinary (Value.struct "main.T"
        [(⟨"Ext", "optional", true, some true⟩, Value.nil "*main.S")]) = ([0], none)
    ∧ MarshalBinary (Value.struct "main.T"
        [(⟨"Ext", "optional", true, some false⟩, Value.ptr (Value.struct "main.S"
          [(⟨"P", "", true, none⟩, Value.string (ascii "abc"))]))]) =
      (1 :: wire (Value.struct "main.S" [(⟨"P", "", true, none⟩, Value.string (ascii "abc"))]),
        (MarshalBinary (Value.struct "main.S"
          [(⟨"P", "", true, none⟩, Value.string (ascii "abc"))])).2) :=
  ⟨(C18_optional_field_presence_byte "main.T" ⟨"Ext", "optional", true, some true⟩
      (Value.nil "*main.S") [] [] 0 rfl (by decide) rfl).2.2.2.1 rfl,
   (C18_optional_field_presence_byte "main.T" ⟨"Ext", "optional", true, some false⟩
      (Value.nil "*main.S") [] [] 0 rfl (by decide) rfl).2.2.2.2.2.1
      (Value.struct "main.S" [(⟨"P", "", true, none⟩, Value.string (ascii "abc"))]) rfl rfl⟩

/-- C18 as stated does not hold for every optional field: behind the byte `01`, `Encode`
is given the pointer itself, and a pointer to a value of a non-structural type has no
rule. For an optional `*string` field that points to `"abc"` the output is the byte `01`
and the unsupported-type error, not `01 03 61 62 63`; an unexported optional field
writes no presence byte at all. -/
theorem C18_counterexample_optional_pointer_to_string :
    MarshalBinary (Value.struct "main.T"
        [(⟨"Memo", "optional", true, some false⟩, Value.ptr (Value.string (ascii "abc")))]) =
      ([1], some (Err.error "Encode: unsupported type string"))
    ∧ MarshalBinary (Value.string (ascii "abc")) = ([0x03, 0x61, 0x62, 0x63], none)
    ∧ MarshalBinary (Value.struct "main.T"
        [(⟨"memo", "optional", false, some true⟩, Value.nil "*string")]) = ([], none) := by
  refine ⟨by decide, by decide, by decide⟩

/-! ## Errors at nested positions -/

theorem runAll_fail_at (pre post : List (List Nat × Option Err)) (r : List Nat × Option Err)
    (err : Err) (hr : r.2 = some err) (h : ∀ x ∈ pre, x.2 = none) :
    runAll (pre ++ r :: post) = ((pre.map Prod.fst).flatten ++ r.1, some err) := by
  obtain ⟨bs, e⟩ := r
  simp only at hr
  subst hr
  exact runAll_fail pre post bs err h

theorem MarshalBinary_array_fail (t : String) (pre post : List Value) (u : Value) (err : Err)
    (hu : (MarshalBinary u).2 = some err) (hpre : ∀ v ∈ pre, (MarshalBinary v).2 = none) :
    MarshalBinary (Value.array t (pre ++ u :: post)) =
      ((pre.map wire).flatten ++ wire u, some err) := by
  rw [MarshalBinary_array, List.map_append, List.map_cons,
    runAll_fail_at _ _ _ err hu (fun x hx => by
      obtain ⟨v, hv, rfl⟩ := List.mem_map.1 hx
      exact hpre v hv), List.map_map]
  rfl

theorem MarshalBinary_slice_fail (t : String) (pre post : List Value) (u : Value) (err : Err)
    (hn : (pre ++ u :: post).length < 2 ^ 56)
    (hu : (MarshalBinary u).2 = some err) (hpre : ∀ v ∈ pre, (MarshalBinary v).2 = none) :
    MarshalBinary (Value.slice t (pre ++ u :: post)) =
      (leb128 (pre ++ u :: post).length ++ ((pre.map wire).flatten ++ wire u), some err) := by
  rw [MarshalBinary_slice t _ hn, runAll_prefixed, List.map_append, List.map_cons,
    runAll_fail_at _ _ _ err hu (fun x hx => by
      obtain ⟨v, hv, rfl⟩ := List.mem_map.1 hx
      exact hpre v hv), List.map_map]
  rfl

theorem entries_steps_ok (es : List (Value × Value))
    (h : ∀ kv ∈ es, (MarshalBinary kv.1).2 = none ∧ (MarshalBinary kv.2).2 = none) :
    ∀ x ∈ es.flatMap (fun kv => [MarshalBinary kv.1, MarshalBinary kv.2]), x.2 = none := by
  intro x hx
  obtain ⟨kv, hkv, hx⟩ := List.mem_flatMap.1 hx
  simp only [List.mem_cons, List.mem_singleton, List.not_mem_nil, or_false] at hx
  rcases hx with rfl | rfl
  · exact (h kv hkv).1
  · exact (h kv hkv).2

theorem MarshalBinary_map_key_fail (t : String) (pre post : List (Value × Value))
    (u w : Value) (err : Err) (hn : (pre ++ (u, w) :: post).length < 2 ^ 56)
    (hu : (MarshalBinary u).2 = some err)
    (hpre : ∀ kv ∈ pre, (MarshalBinary kv.1).2 = none ∧ (MarshalBinary kv.2).2 = none) :
    (MarshalBinary (Value.map t (pre ++ (u, w) :: post))).2 = some err := by
  rw [MarshalBinary_map t _ hn, runAll_prefixed, List.flatMap_append, List.flatMap_cons]
  show (runAll (_ ++ MarshalBinary u :: (MarshalBinary w :: _))).2 = some err
  rw [runAll_fail_at _ _ _ err hu (entries_steps_ok pre hpre)]

theorem MarshalBinary_map_value_fail (t : String) (pre post : List (Value × Value))
    (k u : Value) (err : Err) (hn : (pre ++ (k, u) :: post).length < 2 ^ 56)
    (hk : (MarshalBinary k).2 = none) (hu : (MarshalBinary u).2 = some err)
    (hpre : ∀ kv ∈ pre, (MarshalBinary kv.1).2 = none ∧ (MarshalBinary kv.2).2 = none) :
    (MarshalBinary (Value.map t (pre ++ (k, u) :: post))).2 = some err := by
  rw [MarshalBinary_map t _ hn, runAll_prefixed, List.flatMap_append, List.flatMap_cons]
  have hsplit : pre.flatMap (fun kv => [MarshalBinary kv.1, MarshalBinary kv.2]) ++
      ([MarshalBinary k, MarshalBinary u] ++
        post.flatMap (fun kv => [MarshalBinary kv.1, MarshalBinary kv.2])) =
      (pre.flatMap (fun kv => [MarshalBinary kv.1, MarshalBinary kv.2]) ++ [MarshalBinary k]) ++
        MarshalBinary u :: post.flatMap (fun kv => [MarshalBinary kv.1, MarshalBinary kv.2]) := by
    simp
  rw [hsplit, runAll_fail_at _ _ _ err hu (fun x hx => by
    rcases List.mem_append.1 hx with hx | hx
    · exact entries_steps_ok pre hpre x hx
    · rw [List.mem_singleton.1 hx]
      exact hk)]

theorem MarshalBinary_struct_fail (t : String) (pre post : List (StructField × Value))
    (f : StructField) (u : Value) (err : Err) (hu : (MarshalBinary u).2 = some err)
    (hpre : ∀ fv ∈ pre, (fieldStep fv).2 = none) (hf : f.isEncoded = true)
    (hopt : f.tag = "optional" → f.IsNil = some false) :
    (MarshalBinary (Value.struct t (pre ++ (f, u) :: post))).2 = some err := by
  have hstep : (fieldStep (f, u)).2 = some err := by
    by_cases ho : f.tag = "optional"
    · simp only [StructField.isEncoded, Bool.and_eq_true, decide_eq_true_eq] at hf
      rw [fieldStep_optional_present f u ho hf.2.1 hf.2.2 (hopt ho)]
      exact hu
    · rw [fieldStep_plain (f, u) hf ho]
      exact hu
  rw [MarshalBinary_struct, List.map_append, List.map_cons,
    runAll_fail_at _ _ _ err hstep (fun x hx => by
      obtain ⟨fv, hfv, rfl⟩ := List.mem_map.1 hx
      exact hpre fv hfv)]

/-- C19 (with the order of evaluation made explicit): a value of a type without a
dispatch rule makes `Encode` return the error `Encode: unsupported type <T>` and append
nothing. An error that `Encode` returns for a value `u` -- this one in particular -- is
returned unchanged by the `Encode` of an array or slice that holds `u` as an element, of a
map that holds `u` as a key or as a value, and of an aggregate that holds `u` in an encoded
field (of a pointer to one of these as well), provided that everything encoded before that
position succeeds and that a slice or map has fewer than `2^56` elements. -/
theorem C19_unsupported_type_error_is_returned (u : Value) (err : Err) (t : String)
    (pre post : List Value) (epre epost : List (Value × Value)) (k w : Value)
    (fpre fpost : List (StructField × Value)) (f : StructField) (data : List Nat) (count : Nat)
    (hu : (MarshalBinary u).2 = some err)
    (hpre : ∀ v ∈ pre, (MarshalBinary v).2 = none)
    (hn : (pre ++ u :: post).length < 2 ^ 56)
    (hepre : ∀ kv ∈ epre, (MarshalBinary kv.1).2 = none ∧ (MarshalBinary kv.2).2 = none)
    (hen : epre.length + 1 + epost.length < 2 ^ 56)
    (hk : (MarshalBinary k).2 = none)
    (hfpre : ∀ fv ∈ fpre, (fieldStep fv).2 = none)
    (hf : f.isEncoded = true) (hopt : f.tag = "optional" → f.IsNil = some false) :
    (∀ (T : String) (sk : Bool),
        (Encoder.onBuffer data count).Encode (Value.other T sk) =
          (Encoder.onBuffer data count, some (Err.error ("Encode: unsupported type " ++ T))))
    ∧ ((Encoder.onBuffer data count).Encode u).2 = some err
    ∧ ((Encoder.onBuffer data count).Encode (Value.array t (pre ++ u :: post))).2 = some err
    ∧ ((Encoder.onBuffer data count).Encode (Value.slice t (pre ++ u :: post))).2 = some err
    ∧ ((Encoder.onBuffer data count).Encode (Value.map t (epre ++ (u, w) :: epost))).2 = some err
    ∧ ((Encoder.onBuffer data count).Encode (Value.map t (epre ++ (k, u) :: epost))).2 = some err
    ∧ ((Encoder.onBuffer data count).Encode
        (Value.struct t (fpre ++ (f, u) :: fpost))).2 = some err
    ∧ ((Encoder.onBuffer data count).Encode
        (Value.ptr (Value.array t (pre ++ u :: post)))).2 = some err
    ∧ ((Encoder.onBuffer data count).Encode
        (Value.ptr (Value.slice t (pre ++ u :: post)))).2 = some err
    ∧ ((Encoder.onBuffer data count).Encode
        (Value.ptr (Value.map t (epre ++ (u, w) :: epost)))).2 = some err
    ∧ ((Encoder.onBuffer data count).Encode
        (Value.ptr (Value.map t (epre ++ (k, u) :: epost)))).2 = some err
    ∧ ((Encoder.onBuffer data count).Encode
        (Value.ptr (Value.struct t (fpre ++ (f, u) :: fpost)))).2 = some err := by
  have hlen : ∀ x : Value × Value, (epre ++ x :: epost).length < 2 ^ 56 := by
    intro x
    simp only [List.length_append, List.length_cons]
    omega
  have ha := MarshalBinary_array_fail t pre post u err hu hpre
  have hs := MarshalBinary_slice_fail t pre post u err hn hu hpre
  have hmk := MarshalBinary_map_key_fail t epre epost u w err (hlen _) hu hepre
  have hmv := MarshalBinary_map_value_fail t epre epost k u err (hlen _) hk hu hepre
  have hst := MarshalBinary_struct_fail t fpre fpost f u err hu hfpre hf hopt
  refine ⟨?_, ?_, ?_, ?_, ?_, ?_, ?_, ?_, ?_, ?_, ?_, ?_⟩
  · intro T sk
    simp only [Encoder.Encode, unsupported, typeString]
  · rw [Encode_onBuffer]; exact hu
  · rw [Encode_onBuffer, ha]
  · rw [Encode_onBuffer, hs]
  · rw [Encode_onBuffer]; exact hmk
  · rw [Encode_onBuffer]; exact hmv
  · rw [Encode_onBuffer]; exact hst
  · rw [Encode_onBuffer, MarshalBinary_ptr_of_isStructural (Value.array t _) rfl, ha]
  · rw [Encode_onBuffer, MarshalBinary_ptr_of_isStructural (Value.slice t _) rfl, hs]
  · rw [Encode_onBuffer, MarshalBinary_ptr_of_isStructural (Value.map t _) rfl]; exact hmk
  · rw [Encode_onBuffer, MarshalBinary_ptr_of_isStructural (Value.map t _) rfl]; exact hmv
  · rw [Encode_onBuffer, MarshalBinary_ptr_of_isStructural (Value.struct t _) rfl]; exact hst

theorem C19_unsupported_type_error_is_returned_witness :
    ((Encoder.onBuffer [] 0).Encode (Value.array "[1]time.Duration"
        ([] ++ Value.other "time.Duration" false :: []))).2 =
      some (Err.error "Encode: unsupported type time.Duration")
    ∧ ((Encoder.onBuffer [] 0).Encode (Value.slice "[]time.Duration"
        ([] ++ Value.other "time.Duration" false :: []))).2 =
      some (Err.error "Encode: unsupported type time.Duration")
    ∧ ((Encoder.onBuffer [] 0).Encode (Value.map "map[time.Duration]string"
        ([] ++ (Value.other "time.Duration" false, Value.string (ascii "key")) :: []))).2 =
      some (Err.error "Encode: unsupported type time.Duration")
    ∧ ((Encoder.onBuffer [] 0).Encode (Value.map "map[string]time.Duration"
        ([] ++ (Value.string (ascii "key"), Value.other "time.Duration" false) :: []))).2 =
      some (Err.error "Encode: unsupported type time.Duration")
    ∧ ((Encoder.onBuffer [] 0).Encode (Value.ptr (Value.struct "struct"
        ([] ++ (plainField "F", Value.other "time.Duration" false) :: [])))).2 =
      some (Err.error "Encode: unsupported type time.Duration") :=
  have ha := C19_unsupported_type_error_is_returned (Value.other "time.Duration" false)
    (Err.error "Encode: unsupported type time.Duration") "[1]time.Duration" [] [] [] []
    (Value.string (ascii "key")) (Value.string (ascii "key")) [] [] (plainField "F") [] 0
    rfl (by decide) (by decide) (by decide) (by decide) (by decide) (by decide) (by decide)
    (by decide)
  have hs := C19_unsupported_type_error_is_returned (Value.other "time.Duration" false)
    (Err.error "Encode: unsupported type time.Duration") "[]time.Duration" [] [] [] []
    (Value.string (ascii "key")) (Value.string (ascii "key")) [] [] (plainField "F") [] 0
    rfl (by decide) (by decide) (by decide) (by decide) (by decide) (by decide) (by decide)
    (by decide)
  have hk := C19_unsupported_type_error_is_returned (Value.other "time.Duration" false)
    (Err.error "Encode: unsupported type time.Duration") "map[time.Duration]string" [] [] [] []
    (Value.string (ascii "key")) (Value.string (ascii "key")) [] [] (plainField "F") [] 0
    rfl (by decide) (by decide) (by decide) (by decide) (by decide) (by decide) (by decide)
    (by decide)
  have hv := C19_unsupported_type_error_is_returned (Value.other "time.Duration" false)
    (Err.error "Encode: unsupported type time.Duration") "map[string]time.Duration" [] [] [] []
    (Value.string (ascii "key")) (Value.string (ascii "key")) [] [] (plainField "F") [] 0
    rfl (by decide) (by decide) (by decide) (by decide) (by decide) (by decide) (by decide)
    (by decide)
  have hp := C19_unsupported_type_error_is_returned (Value.other "time.Duration" false)
    (Err.error "Encode: unsupported type time.Duration") "struct" [] [] [] []
    (Value.string (ascii "key")) (Value.string (ascii "key")) [] [] (plainField "F") [] 0
    rfl (by decide) (by decide) (by decide) (by decide) (by decide) (by decide) (by decide)
    (by decide)
  ⟨ha.2.2.1, hs.2.2.2.1, hk.2.2.2.2.1, hv.2.2.2.2.2.1, hp.2.2.2.2.2.2.2.2.2.2.2⟩

/-- C19 as stated does not hold whenever a nested value has a type without a rule: the
loops stop at the first error, so a failure before that position is the one returned. In
an aggregate whose first field is a public key without content and whose second field is
a `time.Duration`, `Encode` returns the error of `WritePublicKey`, not the
unsupported-type error; the same in a slice of interface values. -/
theorem C19_counterexample_earlier_error_wins :
    (MarshalBinary (Value.struct "main.T" [
        (plainField "Key", Value.PublicKey ⟨0, []⟩),
        (plainField "D", Value.other "time.Duration" false)])).2 =
      some (Err.error "public key \"\" should be 33 bytes, was 0")
    ∧ (MarshalBinary (Value.struct "main.T" [
        (plainField "Key", Value.PublicKey ⟨0, []⟩),
        (plainField "D", Value.other "time.Duration" false)])).2 ≠
      some (Err.error "Encode: unsupported type time.Duration")
    ∧ (MarshalBinary (Value.slice "[]interface \x7b\x7d" [Value.PublicKey ⟨0, []⟩,
        Value.other "time.Duration" false])).2 ≠
      some (Err.error "Encode: unsupported type time.Duration")
    ∧ MarshalBinary (Value.other "time.Duration" false) =
      ([], some (Err.error "Encode: unsupported type time.Duration")) := by
  refine ⟨by decide, by decide, by decide, by decide⟩

/-! ## The reference block -/

theorem SetRefBlock_slices (b : List Nat) (h : b.length = 32) :
    (b.drop 2).take 2 = [b[2], b[3]] ∧ (b.drop 8).take 4 = [b[8], b[9], b[10], b[11]] := by
  constructor
  · rw [List.drop_eq_getElem_cons (by omega), List.drop_eq_getElem_cons (by omega)]
    rfl
  · rw [List.drop_eq_getElem_cons (by omega), List.drop_eq_getElem_cons (by omega),
      List.drop_eq_getElem_cons (by omega), List.drop_eq_getElem_cons (by omega)]
    rfl

/-- C20: for every 32-byte block id `b`, `SetRefBlock(b)` sets `RefBlockNum` to the
big-endian 16-bit value of `b[2:4]`, `256*b[2] + b[3]`, and `RefBlockPrefix` to the
little-endian 32-bit value of `b[8:12]`,
`b[8] + 256*b[9] + 65536*b[10] + 16777216*b[11]`; both fit their fields, and on the wire
`WriteUint16` and `WriteUint32` write them as `b[3] b[2]` and `b[8] b[9] b[10] b[11]`.
The block id `0012cf6247be7e2050090bd8...` gives `0xcf62` and `0xd80b0950`, and the one of
`TestPackTransaction` gives the bytes `3864` and `b54cf89c` of its expected encoding. -/
theorem C20_SetRefBlock (tx : TransactionHeader) (b : List Nat) (data : List Nat) (count : Nat)
    (h : b.length = 32) (hb : ∀ x ∈ b, x < 256) :
    (tx.SetRefBlock b).RefBlockNum = 256 * b[2] + b[3]
    ∧ (tx.SetRefBlock b).RefBlockPrefix =
        b[8] + 256 * b[9] + 65536 * b[10] + 16777216 * b[11]
    ∧ (tx.SetRefBlock b).RefBlockNum < 2 ^ 16
    ∧ (tx.SetRefBlock b).RefBlockPrefix < 2 ^ 32
    ∧ (Encoder.onBuffer data count).WriteUint16 (tx.SetRefBlock b).RefBlockNum =
        (Encoder.onBuffer (data ++ [b[3], b[2]]) (count + 2), none)
    ∧ (Encoder.onBuffer data count).WriteUint32 (tx.SetRefBlock b).RefBlockPrefix =
        (Encoder.onBuffer (data ++ [b[8], b[9], b[10], b[11]]) (count + 4), none)
    ∧ (tx.SetRefBlock TestSetRefBlock.blockID).RefBlockNum = 0xcf62
    ∧ (tx.SetRefBlock TestSetRefBlock.blockID).RefBlockPrefix = 0xd80b0950
    ∧ leBytes 2 (tx.SetRefBlock TestPackTransaction.blockID).RefBlockNum = [0x38, 0x64]
    ∧ leBytes 4 (tx.SetRefBlock TestPackTransaction.blockID).RefBlockPrefix =
        [0xb5, 0x4c, 0xf8, 0x9c] := by
  have h2 := hb b[2] (List.getElem_mem _)
  have h3 := hb b[3] (List.getElem_mem _)
  have h8 := hb b[8] (List.getElem_mem _)
  have h9 := hb b[9] (List.getElem_mem _)
  have h10 := hb b[10] (List.getElem_mem _)
  have h11 := hb b[11] (List.getElem_mem _)
  have hnum : (tx.SetRefBlock b).RefBlockNum = 256 * b[2] + b[3] := by
    simp only [TransactionHeader.SetRefBlock, (SetRefBlock_slices b h).1, beValue,
      List.foldl_cons, List.foldl_nil]
    omega
  have hpre : (tx.SetRefBlock b).RefBlockPrefix =
      b[8] + 256 * b[9] + 65536 * b[10] + 16777216 * b[11] := by
    simp only [TransactionHeader.SetRefBlock, (SetRefBlock_slices b h).2, leValue]
    omega
  have f1 : leBytes 2 (tx.SetRefBlock TestPackTransaction.blockID).RefBlockNum = [0x38, 0x64] := by
    show leBytes 2 (beValue ((TestPackTransaction.blockID.drop 2).take 2)) = _
    decide
  have f2 : leBytes 4 (tx.SetRefBlock TestPackTransaction.blockID).RefBlockPrefix =
      [0xb5, 0x4c, 0xf8, 0x9c] := by
    show leBytes 4 (leValue ((TestPackTransaction.blockID.drop 8).take 4)) = _
    decide
  refine ⟨hnum, hpre, ?_, ?_, ?_, ?_, rfl, rfl, f1, f2⟩
  · rw [hnum]; omega
  · rw [hpre]; omega
  · rw [WriteUint16_onBuffer, hnum]
    have e : leBytes 2 (256 * b[2] + b[3]) = [b[3], b[2]] := by
      simp only [leBytes]
      congr 1
      · omega
      · congr 1
        omega
    rw [e]
  · rw [WriteUint32_onBuffer, hpre]
    have e : leBytes 4 (b[8] + 256 * b[9] + 65536 * b[10] + 16777216 * b[11]) =
        [b[8], b[9], b[10], b[11]] := by
      simp only [leBytes]
      congr 1
      · omega
      · congr 1
        · omega
        · congr 1
          · omega
          · congr 1
            omega
    rw [e]

theorem C20_SetRefBlock_witness :
    (TransactionHeader.SetRefBlock ⟨0, 0⟩ TestSetRefBlock.blockID).RefBlockNum = 53090
    ∧ (TransactionHeader.SetRefBlock ⟨0, 0⟩ TestSetRefBlock.blockID).RefBlockPrefix = 3624601936 :=
  have h := C20_SetRefBlock ⟨0, 0⟩ TestSetRefBlock.blockID [] 0 (by decide) (by decide)
  ⟨h.2.2.2.2.2.2.1, h.2.2.2.2.2.2.2.1⟩

/-! ## The scratch buffer of `WriteUVarInt` -/

theorem length_leb128_le_iff (k n : Nat) : (leb128 n).length ≤ k + 1 ↔ n < 128 ^ (k + 1) := by
  induction k generalizing n with
  | zero =>
    by_cases h : n < 128
    · rw [leb128_small n h]
      simp [h]
    · rw [leb128_big n (by omega)]
      have := leb128_ne_nil (n / 128)
      cases hl : leb128 (n / 128) with
      | nil => exact absurd hl this
      | cons c rest => simp; omega
  | succ k ih =>
    have hpow : 128 ^ (k + 1 + 1) = 128 * 128 ^ (k + 1) := by rw [pow_succ]; omega
    have hpos : 0 < 128 ^ (k + 1) := Nat.pow_pos (by norm_num)
    by_cases h : n < 128
    · rw [leb128_small n h]
      simp only [List.length_singleton]
      constructor
      · intro _
        rw [hpow]
        omega
      · intro _
        omega
    · rw [leb128_big n (by omega), List.length_cons, hpow]
      have := ih (n / 128)
      constructor
      · intro hl
        have h2 := this.1 (by omega)
        omega
      · intro hl
        have h2 := this.2 (by omega)
        omega

theorem PutUvarint_none (room x : Nat) (h : 128 ^ room ≤ x) : PutUvarint room x = none := by
  induction room generalizing x with
  | zero => rfl
  | succ r ih =>
    have hpow : 128 ^ (r + 1) = 128 * 128 ^ r := by rw [pow_succ]; omega
    have hpos : 0 < 128 ^ r := Nat.pow_pos (by norm_num)
    have hx : x ≥ 0x80 := by omega
    have h2 : 128 ^ r ≤ x >>> 7 := by
      rw [Nat.shiftRight_eq_div_pow]
      omega
    unfold PutUvarint
    simp only [hx, if_true, ih _ h2]

/-- C26: `WriteUVarInt` builds the varint of `uint64(v)` in a scratch buffer of 8 bytes.
For an `int` `v` the varint needs at most 8 bytes, and `PutUvarint` stays within the
buffer, if and only if `0 ≤ v < 2^56`; then the varint is handed to the sink. Otherwise
the varint needs 10 bytes (a negative `v`) or 9 bytes (`v ≥ 2^56`), and the call panics
with an index out of range and writes nothing. Every `Varuint32` value needs at most
5 bytes. -/
theorem C26_varint_scratch_buffer (e : Encoder) (v : Int) (h1 : -2 ^ 63 ≤ v)
    (h2 : v < 2 ^ 63) :
    ((leb128 (v % 2 ^ 64).toNat).length ≤ 8 ↔ 0 ≤ v ∧ v < 2 ^ 56)
    ∧ ((PutUvarint 8 (v % 2 ^ 64).toNat).isSome = true ↔ 0 ≤ v ∧ v < 2 ^ 56)
    ∧ (0 ≤ v → v < 2 ^ 56 → e.WriteUVarInt v = e.toWriter (leb128 v.toNat))
    ∧ (¬ (0 ≤ v ∧ v < 2 ^ 56) →
        e.WriteUVarInt v = (e, some (Err.panic "index out of range")))
    ∧ (v < 0 → (leb128 (v % 2 ^ 64).toNat).length = 10)
    ∧ (2 ^ 56 ≤ v → (leb128 (v % 2 ^ 64).toNat).length = 9)
    ∧ (∀ n : Nat, n < 2 ^ 32 →
        (leb128 n).length ≤ 5 ∧ e.Encode (Value.Varuint32 n) = e.toWriter (leb128 n)) := by
  have hneg : v < 0 → (v % 2 ^ 64).toNat = (v + 2 ^ 64).toNat := by
    intro hv
    have : v % 2 ^ 64 = v + 2 ^ 64 := by
      rw [← Int.add_mul_emod_self (a := v) (b := 1) (c := 2 ^ 64), Int.one_mul]
      exact Int.emod_eq_of_lt (by omega) (by omega)
    rw [this]
  have hpos : 0 ≤ v → (v % 2 ^ 64).toNat = v.toNat := by
    intro hv
    rw [Int.emod_eq_of_lt hv (by omega)]
  have hfit : 0 ≤ v → v < 2 ^ 56 → (v % 2 ^ 64).toNat < 128 ^ 8 := by
    intro ha hb
    rw [hpos ha]
    norm_num
    omega
  have hnofit : ¬ (0 ≤ v ∧ v < 2 ^ 56) → 128 ^ 8 ≤ (v % 2 ^ 64).toNat := by
    intro hn
    by_cases hv : v < 0
    · rw [hneg hv]
      norm_num
      omega
    · rw [hpos (by omega)]
      norm_num
      omega
  refine ⟨?_, ?_, ?_, ?_, ?_, ?_, ?_⟩
  · rw [length_leb128_le_iff 7]
    constructor
    · intro hl
      by_contra hn
      have := hnofit hn
      omega
    · intro hv
      exact hfit hv.1 hv.2
  · constructor
    · intro hs
      by_contra hn
      rw [PutUvarint_none 8 _ (hnofit hn)] at hs
      simp at hs
    · intro hv
      rw [PutUvarint_eq 8 _ (by norm_num) (hfit hv.1 hv.2)]
      rfl
  · intro ha hb
    unfold Encoder.WriteUVarInt
    rw [PutUvarint_eq 8 _ (by norm_num) (hfit ha hb), hpos ha]
  · intro hn
    unfold Encoder.WriteUVarInt
    rw [PutUvarint_none 8 _ (hnofit hn)]
  · intro hv
    have hle : (leb128 (v % 2 ^ 64).toNat).length ≤ 10 := by
      rw [length_leb128_le_iff 9, hneg hv]
      norm_num
      omega
    have hgt : ¬ (leb128 (v % 2 ^ 64).toNat).length ≤ 9 := by
      rw [length_leb128_le_iff 8, hneg hv]
      norm_num
      omega
    omega
  · intro hv
    have hle : (leb128 (v % 2 ^ 64).toNat).length ≤ 9 := by
      rw [length_leb128_le_iff 8, hpos (by omega)]
      norm_num
      omega
    have hgt : ¬ (leb128 (v % 2 ^ 64).toNat).length ≤ 8 := by
      rw [length_leb128_le_iff 7, hpos (by omega)]
      norm_num
      omega
    omega
  · intro n hn
    refine ⟨?_, ?_⟩
    · rw [length_leb128_le_iff 4]
      norm_num at hn ⊢
      omega
    · have h56 : (Int.ofNat n % 2 ^ 64).toNat = n := by
        simp only [Int.ofNat_eq_coe]
        omega
      simp only [Encoder.Encode]
      unfold Encoder.WriteUVarInt
      rw [h56, PutUvarint_eq 8 n (by norm_num) (by norm_num at hn ⊢; omega)]

theorem C26_varint_scratch_buffer_witness :
    (Encoder.onBuffer [] 0).WriteUVarInt (-1) =
        (Encoder.onBuffer [] 0, some (Err.panic "index out of range"))
    ∧ (leb128 (((-1 : Int)) % 2 ^ 64).toNat).length = 10
    ∧ (Encoder.onBuffer [] 0).WriteUVarInt (2 ^ 56) =
        (Encoder.onBuffer [] 0, some (Err.panic "index out of range"))
    ∧ (leb128 (((2 : Int) ^ 56) % 2 ^ 64).toNat).length = 9
    ∧ (Encoder.onBuffer [] 0).WriteUVarInt 300 =
        (Encoder.onBuffer [] 0).toWriter (leb128 (300 : Int).toNat) :=
  have hm := C26_varint_scratch_buffer (Encoder.onBuffer [] 0) (-1) (by decide) (by decide)
  have hb := C26_varint_scratch_buffer (Encoder.onBuffer [] 0) (2 ^ 56) (by decide) (by decide)
  have hs := C26_varint_scratch_buffer (Encoder.onBuffer [] 0) 300 (by decide) (by decide)
  ⟨hm.2.2.2.1 (by decide), hm.2.2.2.2.1 (by decide), hb.2.2.2.1 (by decide),
    hb.2.2.2.2.2.1 (by decide), hs.2.2.1 (by decide) (by decide)⟩

/-! ## A failure in the middle of a slice -/

/-- C27: encoding is not atomic on failure. When the element at index `i` of a slice of
`n` elements (`n < 2^56`) is the first of a type without a rule and the elements before
it are encoded successfully, `Encode` has handed the sink exactly the varint of `n`
followed by the encodings of the elements `0..i-1` when it returns the error, and
`MarshalBinary` returns exactly those bytes together with the error, never an empty
result. -/
theorem C27_slice_failure_is_not_atomic (t T : String) (sk : Bool) (pre post : List Value)
    (data : List Nat) (count : Nat)
    (hn : (pre ++ Value.other T sk :: post).length < 2 ^ 56)
    (hpre : ∀ v ∈ pre, (MarshalBinary v).2 = none) :
    (Encoder.onBuffer data count).Encode (Value.slice t (pre ++ Value.other T sk :: post)) =
        (Encoder.onBuffer
          (data ++ (leb128 (pre ++ Value.other T sk :: post).length ++ (pre.map wire).flatten))
          (count +
            (leb128 (pre ++ Value.other T sk :: post).length ++ (pre.map wire).flatten).length),
          some (Err.error ("Encode: unsupported type " ++ T)))
    ∧ MarshalBinary (Value.slice t (pre ++ Value.other T sk :: post)) =
        (leb128 (pre ++ Value.other T sk :: post).length ++ (pre.map wire).flatten,
          some (Err.error ("Encode: unsupported type " ++ T)))
    ∧ (MarshalBinary (Value.slice t (pre ++ Value.other T sk :: post))).1 ≠ []
    ∧ MarshalBinary (Value.slice "[]interface \x7b\x7d"
          [Value.string (ascii "a"), Value.other "time.Duration" false]) =
        ([2, 1, 97], some (Err.error "Encode: unsupported type time.Duration")) := by
  have hu : MarshalBinary (Value.other T sk) =
      ([], some (Err.error ("Encode: unsupported type " ++ T))) := rfl
  have hm : MarshalBinary (Value.slice t (pre ++ Value.other T sk :: post)) =
      (leb128 (pre ++ Value.other T sk :: post).length ++ (pre.map wire).flatten,
        some (Err.error ("Encode: unsupported type " ++ T))) := by
    rw [MarshalBinary_slice_fail t pre post (Value.other T sk) _ hn (by rw [hu]) hpre]
    simp only [wire, hu, List.append_nil]
  refine ⟨?_, hm, ?_, by decide⟩
  · rw [Encode_onBuffer, hm]
  · rw [hm]
    intro h
    exact leb128_ne_nil _ (List.append_eq_nil.1 h).1

theorem C27_slice_failure_is_not_atomic_witness :
    MarshalBinary (Value.slice "[]interface \x7b\x7d"
        ([Value.string (ascii "a")] ++ Value.other "time.Duration" false ::
          [Value.string (ascii "b")])) =
      (leb128 ([Value.string (ascii "a")] ++ Value.other "time.Duration" false ::
          [Value.string (ascii "b")]).length ++ ([Value.string (ascii "a")].map wire).flatten,
        some (Err.error ("Encode: unsupported type " ++ "time.Duration"))) :=
  (C27_slice_failure_is_not_atomic "[]interface \x7b\x7d" "time.Duration" false
    [Value.string (ascii "a")] [Value.string (ascii "b")] [] 0 (by decide) (by decide)).2.1

/-! ## Pointers -/

/-- C28: `Encode` follows a pointer only in its structural fallback. For every aggregate,
array, slice or map `v` of a type without a rule of its own, `Encode` of a pointer to `v`
does exactly what `Encode` of `v` does, on every sink. For every value `v` of a
non-structural kind whose type has a rule (string, bool, uint16, uint32, uint64, the
identifiers, ...), `Encode` of a pointer to `v` returns the unsupported-type error naming
the type of `v` and writes nothing, although `Encode` of a string (shorter than `2^56`),
a bool or an unsigned integer itself succeeds. -/
theorem C28_pointer_is_followed_in_the_fallback_only (e : Encoder) (v : Value) :
    (isStructural v = true → e.Encode (Value.ptr v) = e.Encode v)
    ∧ (isStructural v = true → MarshalBinary (Value.ptr v) = MarshalBinary v)
    ∧ (exactRuleLeaf v = true →
        e.Encode (Value.ptr v) =
          (e, some (Err.error ("Encode: unsupported type " ++ typeString v))))
    ∧ (∀ s : List Nat, s.length < 2 ^ 56 → (MarshalBinary (Value.string s)).2 = none)
    ∧ (∀ b : Bool, (MarshalBinary (Value.bool b)).2 = none)
    ∧ (∀ n : Nat, (MarshalBinary (Value.uint16 n)).2 = none
        ∧ (MarshalBinary (Value.uint32 n)).2 = none ∧ (MarshalBinary (Value.uint64 n)).2 = none)
    ∧ MarshalBinary (Value.ptr (Value.string (ascii "abc"))) =
        ([], some (Err.error "Encode: unsupported type string"))
    ∧ MarshalBinary (Value.string (ascii "abc")) = ([3, 0x61, 0x62, 0x63], none) := by
  refine ⟨?_, MarshalBinary_ptr_of_isStructural v, ?_, ?_, ?_, ?_, by decide, by decide⟩
  · intro h
    cases v <;> simp only [isStructural, Bool.false_eq_true] at h <;>
      simp only [Encoder.Encode]
  · intro h
    cases v <;> simp only [exactRuleLeaf, Bool.false_eq_true] at h <;>
      simp only [Encoder.Encode, unsupported]
  · intro s hs
    rw [MarshalBinary_of_ActsAs (Value.string s) (leb128 s.length ++ s) none (fun data count => by
      show (Encoder.onBuffer data count).Encode (Value.string s) = _
      simp only [Encoder.Encode, Encoder.WriteString]
      rw [WriteByteArray_onBuffer data count s hs]
      simp only [List.append_assoc, List.length_append, Nat.add_assoc])]
  · intro b
    cases b <;> rfl
  · intro n
    refine ⟨?_, ?_, ?_⟩
    · rw [MarshalBinary_of_ActsAs (Value.uint16 n) (leBytes 2 n) none (fun data count => by
        show (Encoder.onBuffer data count).Encode (Value.uint16 n) = _
        simp only [Encoder.Encode]
        rw [WriteUint16_onBuffer, length_leBytes])]
    · rw [MarshalBinary_of_ActsAs (Value.uint32 n) (leBytes 4 n) none (fun data count => by
        show (Encoder.onBuffer data count).Encode (Value.uint32 n) = _
        simp only [Encoder.Encode]
        rw [WriteUint32_onBuffer, length_leBytes])]
    · rw [MarshalBinary_of_ActsAs (Value.uint64 n) (leBytes 8 n) none (fun data count => by
        show (Encoder.onBuffer data count).Encode (Value.uint64 n) = _
        simp only [Encoder.Encode]
        rw [WriteUint64_onBuffer, length_leBytes])]

theorem C28_pointer_is_followed_in_the_fallback_only_witness :
    MarshalBinary (Value.ptr (Value.struct "types_test.S"
        [(plainField "P", Value.string (ascii "hello"))])) =
      MarshalBinary (Value.struct "types_test.S" [(plainField "P", Value.string (ascii "hello"))])
    ∧ (Encoder.onBuffer [] 0).Encode (Value.ptr (Value.uint32 7)) =
      (Encoder.onBuffer [] 0, some (Err.error ("Encode: unsupported type " ++
        typeString (Value.uint32 7)))) :=
  ⟨(C28_pointer_is_followed_in_the_fallback_only (Encoder.onBuffer [] 0)
      (Value.struct "types_test.S" [(plainField "P", Value.string (ascii "hello"))])).2.1 rfl,
   (C28_pointer_is_followed_in_the_fallback_only (Encoder.onBuffer [] 0)
      (Value.uint32 7)).2.2.1 rfl⟩

/-! ## The envelope of a P2P message -/

/-- C23: for every P2P message envelope with type tag `t` whose effective payload `p` --
the encoding of its structured message when there is one, its stored payload otherwise --
has `len(p) + 1 < 2^32`, `WriteBlockP2PMessageEnvelope` (and `Encode` of the envelope)
over a `bytes.Buffer` appends the 4 little-endian bytes of `len(p) + 1`, then the byte
`t`, then `p`: `len(p) + 5` bytes, of which the first four give the number of bytes that
follow them. -/
theorem C23_envelope_is_length_tag_payload (typ : Nat) (payload p : List Nat)
    (msg : Option Value) (data : List Nat) (count : Nat) (ht : typ < 256)
    (hp : (msg = none ∧ p = payload) ∨ (∃ m, msg = some m ∧ MarshalBinary m = (p, none)))
    (hlen : p.length + 1 < 2 ^ 32) :
    Encoder.WriteBlockP2PMessageEnvelope (Encoder.onBuffer data count) typ payload msg =
        (Encoder.onBuffer (data ++ (leBytes 4 (p.length + 1) ++ typ :: p))
          (count + (p.length + 5)), none)
    ∧ (Encoder.onBuffer data count).Encode (Value.P2PMessageEnvelopePtr typ payload msg) =
        (Encoder.onBuffer (data ++ (leBytes 4 (p.length + 1) ++ typ :: p))
          (count + (p.length + 5)), none)
    ∧ (leBytes 4 (p.length + 1) ++ typ :: p).length = p.length + 5
    ∧ leValue (leBytes 4 (p.length + 1)) = (typ :: p).length := by
  have hbody : (match (Encoder.onBuffer data count).WriteUint32 ((p.length + 1) % 2 ^ 32) with
      | (e1, some err) => (e1, some err)
      | (e1, none) =>
        match e1.WriteByte (typ % 256) with
        | (e2, some err) => (e2, some err)
        | (e2, none) => e2.toWriter p) =
      (Encoder.onBuffer (data ++ (leBytes 4 (p.length + 1) ++ typ :: p))
        (count + (p.length + 5)), none) := by
    rw [Nat.mod_eq_of_lt hlen, Nat.mod_eq_of_lt ht]
    simp only [WriteUint32_onBuffer, Encoder.WriteByte, toWriter_onBuffer,
      List.length_singleton, List.append_assoc, List.singleton_append]
    congr 2
    omega
  have hw : Encoder.WriteBlockP2PMessageEnvelope (Encoder.onBuffer data count) typ payload msg =
      (Encoder.onBuffer (data ++ (leBytes 4 (p.length + 1) ++ typ :: p))
        (count + (p.length + 5)), none) := by
    rcases hp with ⟨rfl, rfl⟩ | ⟨m, rfl, hm⟩
    · simp only [Encoder.WriteBlockP2PMessageEnvelope]
      exact hbody
    · have hsub : Encoder.Encode (NewEncoder (bytesBuffer [])) m =
          (Encoder.onBuffer ([] ++ p) (0 + p.length), none) := by
        have := Encode_onBuffer m [] 0
        rw [hm] at this
        exact this
      simp only [Encoder.WriteBlockP2PMessageEnvelope, hsub]
      exact hbody
  refine ⟨hw, ?_, ?_, ?_⟩
  · simp only [Encoder.Encode]
    exact hw
  · simp only [List.length_append, length_leBytes, List.length_cons]
    omega
  · rw [leValue_leBytes 4 _ (by norm_num at hlen ⊢; omega), List.length_cons]

theorem C23_envelope_is_length_tag_payload_witness :
    Encoder.WriteBlockP2PMessageEnvelope (Encoder.onBuffer [] 0) 2 [9, 9] none =
        (Encoder.onBuffer ([] ++ (leBytes 4 ([9, 9].length + 1) ++ 2 :: [9, 9]))
          (0 + ([9, 9].length + 5)), none)
    ∧ Encoder.WriteBlockP2PMessageEnvelope (Encoder.onBuffer [] 0) 2 [9, 9]
        (some (Value.uint16 7)) =
        (Encoder.onBuffer ([] ++ (leBytes 4 ([7, 0].length + 1) ++ 2 :: [7, 0]))
          (0 + ([7, 0].length + 5)), none) :=
  ⟨(C23_envelope_is_length_tag_payload 2 [9, 9] [9, 9] none [] 0 (by decide)
      (Or.inl ⟨rfl, rfl⟩) (by decide)).1,
   (C23_envelope_is_length_tag_payload 2 [9, 9] [7, 0] (some (Value.uint16 7)) [] 0 (by decide)
      (Or.inr ⟨Value.uint16 7, rfl, by decide⟩) (by decide)).1⟩

/-! ## The payload of an action -/

theorem hexDigit_toNat (n : Nat) (h : n < 16) :
    fromHexChar (hexDigit n).toNat = some n := by
  interval_cases n <;> decide

theorem hexDecodeString_hexEncodeToString (r : List Nat) (hb : ∀ x ∈ r, x < 256) :
    hexDecodeString (ascii (hexEncodeToString r)) = Except.ok r := by
  induction r with
  | nil => rfl
  | cons x rest ih =>
    have hx : x < 256 := hb x (List.mem_cons_self _ _)
    have ih2 := ih (fun y hy => hb y (List.mem_cons_of_mem _ hy))
    simp only [ascii, hexEncodeToString, List.flatMap_cons, List.cons_append, List.nil_append,
      List.map_cons] at ih2 ⊢
    have ih3 : hexDecodeString (List.map Char.toNat
        (rest.flatMap fun x => [hexDigit (x / 16 % 16), hexDigit (x % 16)])) = Except.ok rest :=
      ih2
    have hx2 : x / 16 % 16 * 16 + x % 16 = x := by omega
    simp only [hexDecodeString, hexDigit_toNat (x / 16 % 16) (by omega),
      hexDigit_toNat (x % 16) (by omega), ih3, hx2]

theorem writeActionData_marshal (e : Encoder) (hexData : List Nat) (d : Value)
    (hs : isString d = false) (hp : pointerKind d = false) :
    Encoder.writeActionData e hexData (some d) =
      if stringKind d then (e, some (Err.panic "interface conversion: interface is not string"))
      else
        match Encoder.Encode (NewEncoder (bytesBuffer [])) d with
        | (_, some err) => (e, some err)
        | (sub, none) => e.WriteByteArray sub.output.data := by
  cases d <;> simp only [isString, pointerKind, Bool.true_eq_false] at hs hp <;>
    simp only [Encoder.writeActionData]

theorem writeActionData_marshal_ptr (e : Encoder) (hexData : List Nat) (d : Value)
    (hs : isString d = false) :
    Encoder.writeActionData e hexData (some (Value.ptr d)) =
      if stringKind d then (e, some (Err.panic "interface conversion: interface is not string"))
      else
        match Encoder.Encode (NewEncoder (bytesBuffer [])) d with
        | (_, some err) => (e, some err)
        | (sub, none) => e.WriteByteArray sub.output.data := by
  cases d <;> simp only [isString, Bool.true_eq_false] at hs <;>
    simp only [Encoder.writeActionData]

theorem Encode_new_of_MarshalBinary (d : Value) (r : List Nat) (err : Option Err)
    (hd : MarshalBinary d = (r, err)) :
    Encoder.Encode (NewEncoder (bytesBuffer [])) d =
      (Encoder.onBuffer r r.length, err) := by
  have := Encode_onBuffer d [] 0
  rw [hd] at this
  simpa using this

theorem writeActionData_value_onBuffer (d : Value) (r hexData : List Nat) (data : List Nat)
    (count : Nat) (hd : MarshalBinary d = (r, none)) (hk : stringKind d = false)
    (hs : isString d = false) (hp : pointerKind d = false) (hr : r.length < 2 ^ 56) :
    Encoder.writeActionData (Encoder.onBuffer data count) hexData (some d) =
      (Encoder.onBuffer (data ++ leb128 r.length ++ r)
        (count + (leb128 r.length).length + r.length), none) := by
  rw [writeActionData_marshal _ _ d hs hp]
  simp only [hk, Bool.false_eq_true, if_false, Encode_new_of_MarshalBinary d r none hd]
  exact WriteByteArray_onBuffer data count r hr

/-- C22: the three forms of an action payload encode identically. For every value `d`
that is neither of kind string nor a pointer and whose binary encoding succeeds with the
bytes `r` (fewer than `2^56`), over a `bytes.Buffer` an `ActionData` whose `Data` is `d`,
one whose `Data` is a pointer to `d`, one whose `Data` is the hex text of `r`, and one
without `Data` whose `HexData` is `r` all make `writeActionData` (and `Encode`) append
exactly the varint of `len(r)` followed by `r`. -/
theorem C22_action_payload_forms_agree (d : Value) (r hexData : List Nat) (data : List Nat)
    (count : Nat) (hd : MarshalBinary d = (r, none))
    (hk : stringKind d = false) (hs : isString d = false) (hp : pointerKind d = false)
    (hr : r.length < 2 ^ 56) (hb : ∀ x ∈ r, x < 256) :
    Encoder.writeActionData (Encoder.onBuffer data count) hexData (some d) =
        (Encoder.onBuffer (data ++ leb128 r.length ++ r)
          (count + (leb128 r.length).length + r.length), none)
    ∧ Encoder.writeActionData (Encoder.onBuffer data count) hexData (some (Value.ptr d)) =
        (Encoder.onBuffer (data ++ leb128 r.length ++ r)
          (count + (leb128 r.length).length + r.length), none)
    ∧ Encoder.writeActionData (Encoder.onBuffer data count) hexData
          (some (Value.string (ascii (hexEncodeToString r)))) =
        (Encoder.onBuffer (data ++ leb128 r.length ++ r)
          (count + (leb128 r.length).length + r.length), none)
    ∧ Encoder.writeActionData (Encoder.onBuffer data count) r none =
        (Encoder.onBuffer (data ++ leb128 r.length ++ r)
          (count + (leb128 r.length).length + r.length), none)
    ∧ (Encoder.onBuffer data count).Encode (Value.ActionData hexData (some d)) =
        (Encoder.onBuffer data count).Encode (Value.ActionData r none)
    ∧ (Encoder.onBuffer data count).Encode (Value.ActionData hexData (some (Value.ptr d))) =
        (Encoder.onBuffer data count).Encode (Value.ActionData r none)
    ∧ (Encoder.onBuffer data count).Encode
          (Value.ActionData hexData (some (Value.string (ascii (hexEncodeToString r))))) =
        (Encoder.onBuffer data count).Encode (Value.ActionData r none) := by
  have hsub := Encode_new_of_MarshalBinary d r none hd
  have h1 := writeActionData_value_onBuffer d r hexData data count hd hk hs hp hr
  have h2 : Encoder.writeActionData (Encoder.onBuffer data count) hexData
      (some (Value.ptr d)) =
      (Encoder.onBuffer (data ++ leb128 r.length ++ r)
        (count + (leb128 r.length).length + r.length), none) := by
    rw [writeActionData_marshal_ptr _ _ d hs]
    simp only [hk, Bool.false_eq_true, if_false, hsub]
    exact WriteByteArray_onBuffer data count r hr
  have h3 : Encoder.writeActionData (Encoder.onBuffer data count) hexData
      (some (Value.string (ascii (hexEncodeToString r)))) =
      (Encoder.onBuffer (data ++ leb128 r.length ++ r)
        (count + (leb128 r.length).length + r.length), none) := by
    simp only [Encoder.writeActionData, hexDecodeString_hexEncodeToString r hb,
      WriteByteArray_onBuffer data count r hr, dropError]
  have h4 : Encoder.writeActionData (Encoder.onBuffer data count) r none =
      (Encoder.onBuffer (data ++ leb128 r.length ++ r)
        (count + (leb128 r.length).length + r.length), none) := by
    simp only [Encoder.writeActionData]
    exact WriteByteArray_onBuffer data count r hr
  refine ⟨h1, h2, h3, h4, ?_, ?_, ?_⟩
  · simp only [Encoder.Encode]
    rw [h1, h4]
  · simp only [Encoder.Encode]
    rw [h2, h4]
  · simp only [Encoder.Encode]
    rw [h3, h4]

theorem C22_action_payload_forms_agree_witness :
    Encoder.writeActionData (Encoder.onBuffer [] 0) []
        (some (Value.struct "main.T" [(plainField "N", Value.uint16 7)])) =
      (Encoder.onBuffer ([] ++ leb128 [7, 0].length ++ [7, 0])
        (0 + (leb128 [7, 0].length).length + [7, 0].length), none)
    ∧ Encoder.writeActionData (Encoder.onBuffer [] 0) []
        (some (Value.string (ascii (hexEncodeToString [7, 0])))) =
      (Encoder.onBuffer ([] ++ leb128 [7, 0].length ++ [7, 0])
        (0 + (leb128 [7, 0].length).length + [7, 0].length), none) :=
  have h := C22_action_payload_forms_agree
    (Value.struct "main.T" [(plainField "N", Value.uint16 7)]) [7, 0] [] [] 0
    (by decide) rfl rfl rfl (by decide) (by decide)
  ⟨h.1, h.2.2.1⟩

/-! ## Actions -/

theorem validName_ok (s : List Nat) (h : validName s = true) :
    ∃ n, StringToName s = Except.ok n ∧ nameBytes s = leBytes 8 n := by
  unfold validName at h
  unfold nameBytes
  cases hs : StringToName s with
  | ok n => exact ⟨n, rfl, rfl⟩
  | error m => rw [hs] at h; simp at h

theorem length_nameBytes (s : List Nat) (h : validName s = true) : (nameBytes s).length = 8 := by
  obtain ⟨n, _, hb⟩ := validName_ok s h
  rw [hb, length_leBytes]

theorem WriteName_onBuffer (s : List Nat) (h : validName s = true) (data : List Nat)
    (count : Nat) :
    (Encoder.onBuffer data count).WriteName s =
      (Encoder.onBuffer (data ++ nameBytes s) (count + (nameBytes s).length), none) := by
  obtain ⟨n, hn, hb⟩ := validName_ok s h
  simp only [Encoder.WriteName, hn, hb, WriteUint64_onBuffer, length_leBytes]

theorem MarshalBinary_AccountName (s : List Nat) (h : validName s = true) :
    MarshalBinary (Value.AccountName s) = (nameBytes s, none) :=
  MarshalBinary_of_ActsAs _ _ _ (fun data count => by
    show (Encoder.onBuffer data count).Encode (Value.AccountName s) = _
    simp only [Encoder.Encode]
    exact WriteName_onBuffer s h data count)

theorem MarshalBinary_ActionName (s : List Nat) (h : validName s = true) :
    MarshalBinary (Value.ActionName s) = (nameBytes s, none) :=
  MarshalBinary_of_ActsAs _ _ _ (fun data count => by
    show (Encoder.onBuffer data count).Encode (Value.ActionName s) = _
    simp only [Encoder.Encode]
    exact WriteName_onBuffer s h data count)

theorem MarshalBinary_PermissionName (s : List Nat) (h : validName s = true) :
    MarshalBinary (Value.PermissionName s) = (nameBytes s, none) :=
  MarshalBinary_of_ActsAs _ _ _ (fun data count => by
    show (Encoder.onBuffer data count).Encode (Value.PermissionName s) = _
    simp only [Encoder.Encode]
    exact WriteName_onBuffer s h data count)

theorem fieldStep_plainField (name : String) (v : Value) (h : name ≠ "_") :
    fieldStep (plainField name, v) = MarshalBinary v :=
  fieldStep_plain (plainField name, v) (by simp [StructField.isEncoded, plainField, h])
    (by simp [plainField])

theorem MarshalBinary_PermissionLevel (pl : List Nat × List Nat) (h1 : validName pl.1 = true)
    (h2 : validName pl.2 = true) :
    MarshalBinary (PermissionLevel.value pl) = (nameBytes pl.1 ++ nameBytes pl.2, none) := by
  unfold PermissionLevel.value
  rw [MarshalBinary_struct]
  simp only [List.map_cons, List.map_nil, fieldStep_plainField "Actor" _ (by decide),
    fieldStep_plainField "Permission" _ (by decide), MarshalBinary_AccountName _ h1,
    MarshalBinary_PermissionName _ h2, runAll, List.append_nil]

theorem MarshalBinary_authorization (auths : List (List Nat × List Nat))
    (hk : auths.length < 2 ^ 56)
    (h : ∀ pl ∈ auths, validName pl.1 = true ∧ validName pl.2 = true) :
    MarshalBinary (Value.slice "[]types.PermissionLevel" (auths.map PermissionLevel.value)) =
      (leb128 auths.length ++ (auths.map (fun pl => nameBytes pl.1 ++ nameBytes pl.2)).flatten,
        none) := by
  rw [MarshalBinary_slice _ _ (by rw [List.length_map]; exact hk), runAll_prefixed,
    runAll_map_ok _ (fun v hv => by
      obtain ⟨pl, hpl, rfl⟩ := List.mem_map.1 hv
      rw [MarshalBinary_PermissionLevel pl (h pl hpl).1 (h pl hpl).2]),
    List.length_map, List.map_map]
  have hmap : List.map (wire ∘ PermissionLevel.value) auths =
      List.map (fun pl => nameBytes pl.1 ++ nameBytes pl.2) auths := by
    apply List.map_congr_left
    intro pl hpl
    show wire (PermissionLevel.value pl) = _
    rw [wire, MarshalBinary_PermissionLevel pl (h pl hpl).1 (h pl hpl).2]
  rw [hmap]

theorem MarshalBinary_ActionData_bytes (p : List Nat) (hp : p.length < 2 ^ 56) :
    MarshalBinary (Value.ActionData p none) = (leb128 p.length ++ p, none) :=
  MarshalBinary_of_ActsAs _ _ _ (fun data count => by
    show (Encoder.onBuffer data count).Encode (Value.ActionData p none) = _
    simp only [Encoder.Encode, Encoder.writeActionData]
    rw [WriteByteArray_onBuffer data count p hp]
    simp only [List.append_assoc, List.length_append, Nat.add_assoc])

/-- The encoding of an action whose names are valid, given the encoding of its payload. -/
theorem MarshalBinary_Action (account name : List Nat) (auths : List (List Nat × List Nat))
    (hexData : List Nat) (d : Option Value) (payload : List Nat)
    (ha : validName account = true) (hn : validName name = true)
    (hauth : ∀ pl ∈ auths, validName pl.1 = true ∧ validName pl.2 = true)
    (hk : auths.length < 2 ^ 56)
    (hd : MarshalBinary (Value.ActionData hexData d) = (payload, none)) :
    MarshalBinary (Action.value account name auths hexData d) =
      (nameBytes account ++ (nameBytes name ++ (leb128 auths.length ++
        ((auths.map (fun pl => nameBytes pl.1 ++ nameBytes pl.2)).flatten ++ payload))), none) := by
  unfold Action.value
  rw [MarshalBinary_struct]
  have hf : fieldStep (⟨"Authorization", "", true, some auths.isEmpty⟩,
      Value.slice "[]types.PermissionLevel" (auths.map PermissionLevel.value)) =
      MarshalBinary (Value.slice "[]types.PermissionLevel" (auths.map PermissionLevel.value)) :=
    fieldStep_plain _ rfl (by simp)
  simp only [List.map_cons, List.map_nil, fieldStep_plainField "Account" _ (by decide),
    fieldStep_plainField "Name" _ (by decide), fieldStep_plainField "ActionData" _ (by decide),
    hf, MarshalBinary_AccountName _ ha, MarshalBinary_ActionName _ hn,
    MarshalBinary_authorization auths hk hauth, hd, runAll, List.append_nil, List.append_assoc]

/-- C21: for every `Action` whose account and action names are valid, with `k`
authorizations (`k < 2^56`) whose names are valid and an opaque payload `p`
(`len(p) < 2^56`), `Encode` appends the 8-byte account Name, the 8-byte action Name, the
varint of `k`, for each authorization in order the 8-byte actor Name then the 8-byte
permission Name, then the varint of `len(p)` followed by `p`. With one authorization and
an empty payload these are 34 bytes; `eosio`/`transfer` authorised by `eosio@active`
gives `0000000000ea3055 000000572d3ccdcd 01 0000000000ea3055 00000000a8ed3232 00`. -/
theorem C21_action_layout (account name : List Nat) (auths : List (List Nat × List Nat))
    (p : List Nat) (data : List Nat) (count : Nat)
    (ha : validName account = true) (hn : validName name = true)
    (hauth : ∀ pl ∈ auths, validName pl.1 = true ∧ validName pl.2 = true)
    (hk : auths.length < 2 ^ 56) (hp : p.length < 2 ^ 56) :
    (Encoder.onBuffer data count).Encode (Action.value account name auths p none) =
        (Encoder.onBuffer
          (data ++ (nameBytes account ++ (nameBytes name ++ (leb128 auths.length ++
            ((auths.map (fun pl => nameBytes pl.1 ++ nameBytes pl.2)).flatten ++
              (leb128 p.length ++ p))))))
          (count + (nameBytes account ++ (nameBytes name ++ (leb128 auths.length ++
            ((auths.map (fun pl => nameBytes pl.1 ++ nameBytes pl.2)).flatten ++
              (leb128 p.length ++ p))))).length), none)
    ∧ MarshalBinary (Value.ptr (Action.value account name auths p none)) =
        (nameBytes account ++ (nameBytes name ++ (leb128 auths.length ++
          ((auths.map (fun pl => nameBytes pl.1 ++ nameBytes pl.2)).flatten ++
            (leb128 p.length ++ p)))), none)
    ∧ (nameBytes account).length = 8 ∧ (nameBytes name).length = 8
    ∧ (∀ pl ∈ auths, (nameBytes pl.1).length = 8 ∧ (nameBytes pl.2).length = 8)
    ∧ (auths.length = 1 → p = [] →
        (nameBytes account ++ (nameBytes name ++ (leb128 auths.length ++
          ((auths.map (fun pl => nameBytes pl.1 ++ nameBytes pl.2)).flatten ++
            (leb128 p.length ++ p))))).length = 34)
    ∧ MarshalBinary (Value.ptr (Action.value (ascii "eosio") (ascii "transfer")
          [(ascii "eosio", ascii "active")] [] none)) =
        ([0x00, 0x00, 0x00, 0x00, 0x00, 0xea, 0x30, 0x55,
          0x00, 0x00, 0x00, 0x57, 0x2d, 0x3c, 0xcd, 0xcd, 0x01,
          0x00, 0x00, 0x00, 0x00, 0x00, 0xea, 0x30, 0x55,
          0x00, 0x00, 0x00, 0x00, 0xa8, 0xed, 0x32, 0x32, 0x00], none) := by
  have hm := MarshalBinary_Action account name auths p none (leb128 p.length ++ p) ha hn hauth
    hk (MarshalBinary_ActionData_bytes p hp)
  refine ⟨?_, ?_, length_nameBytes _ ha, length_nameBytes _ hn, ?_, ?_, by decide⟩
  · rw [Encode_onBuffer, hm]
  · rw [MarshalBinary_ptr_of_isStructural (Action.value account name auths p none) rfl, hm]
  · intro pl hpl
    exact ⟨length_nameBytes _ (hauth pl hpl).1, length_nameBytes _ (hauth pl hpl).2⟩
  · intro h1 h0
    subst h0
    match auths, h1, hauth with
    | [pl], _, hauth =>
      have h := hauth pl (List.mem_singleton.2 rfl)
      simp only [List.length_append, length_nameBytes _ ha, length_nameBytes _ hn,
        length_nameBytes _ h.1, length_nameBytes _ h.2, List.map_cons, List.map_nil,
        List.flatten_cons, List.flatten_nil, List.length_nil, List.length_singleton,
        leb128_small 1 (by decide), leb128_small 0 (by decide)]

theorem C21_action_layout_witness :
    MarshalBinary (Value.ptr (Action.value (ascii "eosio") (ascii "transfer")
        [(ascii "eosio", ascii "active")] [1, 2, 3] none)) =
      (nameBytes (ascii "eosio") ++ (nameBytes (ascii "transfer") ++
        (leb128 [(ascii "eosio", ascii "active")].length ++
          (([(ascii "eosio", ascii "active")].map
            (fun pl => nameBytes pl.1 ++ nameBytes pl.2)).flatten ++
            (leb128 [1, 2, 3].length ++ [1, 2, 3])))), none) :=
  (C21_action_layout (ascii "eosio") (ascii "transfer") [(ascii "eosio", ascii "active")]
    [1, 2, 3] [] 0 (by decide) (by decide) (by decide) (by decide) (by decide)).2.1

theorem MarshalBinary_Asset (a : Asset) :
    MarshalBinary (Value.Asset a) =
      (leBytes 8 (a.Amount % 2 ^ 64).toNat ++ [a.Symbol.Precision] ++
        copyBytes (makeBytes 7) a.Symbol.Symbol, none) :=
  MarshalBinary_of_ActsAs _ _ _ (fun data count => by
    show (Encoder.onBuffer data count).Encode (Value.Asset a) = _
    simp only [Encoder.Encode]
    rw [writeAsset_onBuffer]
    simp only [List.append_assoc, List.length_append, length_leBytes, List.length_singleton,
      length_copyBytes_make])

theorem MarshalBinary_string (s : List Nat) (hs : s.length < 2 ^ 56) :
    MarshalBinary (Value.string s) = (leb128 s.length ++ s, none) :=
  MarshalBinary_of_ActsAs _ _ _ (fun data count => by
    show (Encoder.onBuffer data count).Encode (Value.string s) = _
    simp only [Encoder.Encode, Encoder.WriteString]
    rw [WriteByteArray_onBuffer data count s hs]
    simp only [List.append_assoc, List.length_append, Nat.add_assoc])

theorem MarshalBinary_ActionData_value (d : Value) (r hexData : List Nat)
    (hd : MarshalBinary d = (r, none)) (hk : stringKind d = false)
    (hs : isString d = false) (hp : pointerKind d = false) (hr : r.length < 2 ^ 56) :
    MarshalBinary (Value.ActionData hexData (some d)) = (leb128 r.length ++ r, none) :=
  MarshalBinary_of_ActsAs _ _ _ (fun data count => by
    show (Encoder.onBuffer data count).Encode (Value.ActionData hexData (some d)) = _
    simp only [Encoder.Encode]
    rw [writeActionData_value_onBuffer d r hexData data count hd hk hs hp hr]
    simp only [List.append_assoc, List.length_append, Nat.add_assoc])

/-! ## `NewTransfer` -/

theorem MarshalBinary_Transfer (src dst : List Nat) (quantity : Asset) (memo : List Nat)
    (hs : validName src = true) (hd : validName dst = true) (hm : memo.length < 2 ^ 56) :
    MarshalBinary (Transfer.value src dst quantity memo) =
      (nameBytes src ++ (nameBytes dst ++ (leBytes 8 (quantity.Amount % 2 ^ 64).toNat ++
        (quantity.Symbol.Precision :: (copyBytes (makeBytes 7) quantity.Symbol.Symbol ++
          (leb128 memo.length ++ memo))))), none) := by
  unfold Transfer.value
  rw [MarshalBinary_struct]
  simp only [List.map_cons, List.map_nil, fieldStep_plainField "From" _ (by decide),
    fieldStep_plainField "To" _ (by decide), fieldStep_plainField "Quantity" _ (by decide),
    fieldStep_plainField "Memo" _ (by decide), MarshalBinary_AccountName _ hs,
    MarshalBinary_AccountName _ hd, MarshalBinary_Asset, MarshalBinary_string memo hm, runAll,
    List.append_nil, List.append_assoc, List.singleton_append, List.cons_append,
    List.nil_append]

/-- C29: for valid account names `from` and `to`, a quantity whose ticker has at most
7 bytes and a memo `m` (shorter than `2^55`), `NewTransfer(from, to, quantity, m)` returns
an action on account `eosio.token` named `transfer` with exactly one authorization, actor
`from` with permission `active`. The payload part of its encoding is the varint of `L`
followed by `L` bytes: the 8-byte Name of `from`, the 8-byte Name of `to`, the 16 bytes of
the asset, the varint of `len(m)`, and `m`; so `L` is 32 plus `len(m)` plus the size of
that varint, which is `33 + len(m)` when `len(m) < 128`. -/
theorem C29_NewTransfer_payload (src dst : List Nat) (quantity : Asset) (memo : List Nat)
    (data : List Nat) (count : Nat)
    (hs : validName src = true) (hd : validName dst = true)
    (ht : quantity.Symbol.Symbol.length ≤ 7) (hm : memo.length < 2 ^ 55) :
    NewTransfer src dst quantity memo =
        Value.ptr (Action.value (ascii "eosio.token") (ascii "transfer")
          [(src, ascii "active")] [] (some (Transfer.value src dst quantity memo)))
    ∧ MarshalBinary (Transfer.value src dst quantity memo) =
        (nameBytes src ++ (nameBytes dst ++ (leBytes 8 (quantity.Amount % 2 ^ 64).toNat ++
          (quantity.Symbol.Precision :: (quantity.Symbol.Symbol ++
            List.replicate (7 - quantity.Symbol.Symbol.length) 0 ++
            (leb128 memo.length ++ memo))))), none)
    ∧ (leBytes 8 (quantity.Amount % 2 ^ 64).toNat ++ (quantity.Symbol.Precision ::
        (quantity.Symbol.Symbol ++
          List.replicate (7 - quantity.Symbol.Symbol.length) 0))).length = 16
    ∧ (wire (Transfer.value src dst quantity memo)).length =
        32 + memo.length + (leb128 memo.length).length
    ∧ (memo.length < 128 → (wire (Transfer.value src dst quantity memo)).length =
        33 + memo.length)
    ∧ MarshalBinary (Value.ActionData [] (some (Transfer.value src dst quantity memo))) =
        (leb128 (wire (Transfer.value src dst quantity memo)).length ++
          wire (Transfer.value src dst quantity memo), none)
    ∧ MarshalBinary (NewTransfer src dst quantity memo) =
        (nameBytes (ascii "eosio.token") ++ (nameBytes (ascii "transfer") ++ ([1] ++
          (nameBytes src ++ nameBytes (ascii "active") ++
            (leb128 (wire (Transfer.value src dst quantity memo)).length ++
              wire (Transfer.value src dst quantity memo))))), none)
    ∧ (Encoder.onBuffer data count).Encode (NewTransfer src dst quantity memo) =
        (Encoder.onBuffer (data ++ (MarshalBinary (NewTransfer src dst quantity memo)).1)
          (count + (MarshalBinary (NewTransfer src dst quantity memo)).1.length), none) := by
  have hm56 : memo.length < 2 ^ 56 := by
    have : (2 : Nat) ^ 55 < 2 ^ 56 := by norm_num
    omega
  have hT := MarshalBinary_Transfer src dst quantity memo hs hd hm56
  rw [copyBytes_make_short 7 _ ht] at hT
  have hvar : (leb128 memo.length).length ≤ 8 := by
    rw [length_leb128_le_iff 7]
    norm_num at hm56 ⊢
    omega
  have hlen : (wire (Transfer.value src dst quantity memo)).length =
      32 + memo.length + (leb128 memo.length).length := by
    rw [wire, hT]
    simp only [List.length_append, List.length_cons, length_nameBytes _ hs,
      length_nameBytes _ hd, length_leBytes, List.length_replicate]
    omega
  have hL : (wire (Transfer.value src dst quantity memo)).length < 2 ^ 56 := by
    rw [hlen]
    norm_num at hm ⊢
    omega
  have hA : MarshalBinary (Value.ActionData [] (some (Transfer.value src dst quantity memo))) =
      (leb128 (wire (Transfer.value src dst quantity memo)).length ++
        wire (Transfer.value src dst quantity memo), none) :=
    MarshalBinary_ActionData_value _ _ [] (by rw [wire, hT]) rfl rfl rfl hL
  have hN : MarshalBinary (NewTransfer src dst quantity memo) =
      (nameBytes (ascii "eosio.token") ++ (nameBytes (ascii "transfer") ++ ([1] ++
        (nameBytes src ++ nameBytes (ascii "active") ++
          (leb128 (wire (Transfer.value src dst quantity memo)).length ++
            wire (Transfer.value src dst quantity memo))))), none) := by
    unfold NewTransfer
    rw [MarshalBinary_ptr_of_isStructural (Action.value _ _ _ _ _) rfl,
      MarshalBinary_Action _ _ _ _ _ _ (by decide) (by decide)
        (fun pl hpl => by
          rw [List.mem_singleton.1 hpl]
          exact ⟨hs, (by decide : validName (ascii "active") = true)⟩)
        (by simp) hA]
    simp only [List.length_singleton, leb128_small 1 (by decide), List.map_cons, List.map_nil,
      List.flatten_cons, List.flatten_nil, List.append_nil, List.append_assoc]
  refine ⟨rfl, hT, ?_, hlen, ?_, hA, hN, ?_⟩
  · simp only [List.length_append, List.length_cons, length_leBytes, List.length_replicate]
    omega
  · intro h128
    rw [hlen, leb128_small _ h128]
    simp only [List.length_singleton]
    omega
  · rw [Encode_onBuffer, hN]

theorem C29_NewTransfer_payload_witness :
    (wire (Transfer.value (ascii "alice") (ascii "bob") ⟨10000, ⟨4, ascii "EOS"⟩⟩
        (ascii "hi"))).length = 32 + (ascii "hi").length + (leb128 (ascii "hi").length).length
    ∧ MarshalBinary (Value.ActionData [] (some (Transfer.value (ascii "alice") (ascii "bob")
        ⟨10000, ⟨4, ascii "EOS"⟩⟩ (ascii "hi")))) =
      (leb128 (wire (Transfer.value (ascii "alice") (ascii "bob") ⟨10000, ⟨4, ascii "EOS"⟩⟩
          (ascii "hi"))).length ++
        wire (Transfer.value (ascii "alice") (ascii "bob") ⟨10000, ⟨4, ascii "EOS"⟩⟩
          (ascii "hi")), none) :=
  have h := C29_NewTransfer_payload (ascii "alice") (ascii "bob") ⟨10000, ⟨4, ascii "EOS"⟩⟩
    (ascii "hi") [] 0 (by decide) (by decide) (by decide) (by decide)
  ⟨h.2.2.2.1, h.2.2.2.2.2.1⟩

/-! ## Write errors that are dropped -/

/-- C24 (what the code does): three call sites drop the error of a write. When the sink
rejects the first write, `writeAsset` (the `Asset` rule of `Encode`) returns no error and
the sink holds only the precision and the ticker; when it rejects the second, only the
amount and the ticker. The field loop drops the error of the presence byte of an
`optional` field, and the hex-text branch of `writeActionData` drops the error of
`WriteByteArray`. The sibling paths hand the error on: `WriteByteArray` itself, and the
`HexData` branch of `writeActionData`. -/
theorem C24_swallowed_write_errors (a : Asset) (data : List Nat) (count : Nat) :
    Encoder.Encode ⟨⟨data, [true]⟩, count⟩ (Value.Asset a) =
        (⟨⟨data ++ (a.Symbol.Precision :: copyBytes (makeBytes 7) a.Symbol.Symbol), []⟩,
          count + 16⟩, none)
    ∧ Encoder.Encode ⟨⟨data, [false, true]⟩, count⟩ (Value.Asset a) =
        (⟨⟨data ++ (leBytes 8 (a.Amount % 2 ^ 64).toNat ++
          copyBytes (makeBytes 7) a.Symbol.Symbol), []⟩, count + 16⟩, none)
    ∧ Encoder.Encode ⟨⟨data, [true]⟩, count⟩ (Value.struct "main.T"
          [(⟨"Ext", "optional", true, some true⟩, Value.nil "*main.S")]) =
        (⟨⟨data, []⟩, count + 1⟩, none)
    ∧ Encoder.Encode ⟨⟨data, [true]⟩, count⟩
          (Value.ActionData [] (some (Value.string (ascii "0102")))) =
        (⟨⟨data, []⟩, count + 1⟩, none)
    ∧ (∀ b : List Nat, b.length < 2 ^ 56 →
        (Encoder.WriteByteArray ⟨⟨data, [true]⟩, count⟩ b).2 =
          some (Err.error "write rejected"))
    ∧ (Encoder.Encode ⟨⟨data, [true]⟩, count⟩ (Value.ActionData [1, 2] none)).2 =
        some (Err.error "write rejected") := by
  refine ⟨?_, ?_, ?_, ?_, ?_, ?_⟩
  · simp only [Encoder.Encode, Encoder.writeAsset, Encoder.WriteUint64, PutUint64_make,
      Encoder.WriteByte, Encoder.toWriter, Writer.Write, dropError, length_leBytes,
      List.length_singleton, length_copyBytes_make, List.append_assoc, List.singleton_append,
      Nat.add_assoc]
  · simp only [Encoder.Encode, Encoder.writeAsset, Encoder.WriteUint64, PutUint64_make,
      Encoder.WriteByte, Encoder.toWriter, Writer.Write, dropError, length_leBytes,
      List.length_singleton, length_copyBytes_make, List.append_assoc, Nat.add_assoc]
  · simp only [Encoder.Encode]
    rw [Encoder.encodeFields, if_neg (by decide), if_pos (by decide), if_pos (by decide)]
    simp only [Bool.not_true, Bool.false_eq_true, if_false, Encoder.WriteBool,
      Encoder.WriteByte, Encoder.toWriter, Writer.Write, dropError, List.length_singleton,
      Encoder.encodeFields]
  · have hx : hexDecodeString (ascii "0102") = Except.ok [1, 2] := by decide
    have hv : PutUvarint 8 (Int.ofNat [1, 2].length % 2 ^ 64).toNat = some [2] := by decide
    simp only [Encoder.Encode, Encoder.writeActionData, hx, Encoder.WriteByteArray,
      Encoder.WriteUVarInt, hv, Encoder.toWriter, Writer.Write, dropError,
      List.length_singleton]
  · intro b hb
    have h1 : (Int.ofNat b.length % 2 ^ 64).toNat = b.length := by
      simp only [Int.ofNat_eq_coe]
      omega
    simp only [Encoder.WriteByteArray, Encoder.WriteUVarInt, h1,
      PutUvarint_eq 8 b.length (by norm_num) (by norm_num at hb ⊢; omega), Encoder.toWriter,
      Writer.Write]
  · have hv : PutUvarint 8 (Int.ofNat [1, 2].length % 2 ^ 64).toNat = some [2] := by decide
    simp only [Encoder.Encode, Encoder.writeActionData, Encoder.WriteByteArray,
      Encoder.WriteUVarInt, hv, Encoder.toWriter, Writer.Write]

/-! ## The text form of an asset -/

theorem decimalDigits_lt (fuel n : Nat) : ∀ d ∈ decimalDigits fuel n, d < 10 := by
  induction fuel generalizing n with
  | zero => intro d hd; simp [decimalDigits] at hd
  | succ fuel ih =>
    intro d hd
    unfold decimalDigits at hd
    by_cases h : n < 10
    · rw [if_pos h] at hd
      rw [List.mem_singleton.1 hd]
      exact h
    · rw [if_neg h] at hd
      rcases List.mem_cons.1 hd with rfl | hd
      · omega
      · exact ih _ d hd

theorem decimalText_digits (n : Nat) : ∀ c ∈ decimalText n, 48 ≤ c ∧ c ≤ 57 := by
  intro c hc
  unfold decimalText at hc
  rw [List.mem_reverse] at hc
  obtain ⟨d, hd, rfl⟩ := List.mem_map.1 hc
  have := decimalDigits_lt _ _ d hd
  omega

theorem decimalText_ne_nil (n : Nat) : decimalText n ≠ [] := by
  unfold decimalText decimalDigits
  by_cases h : n < 10
  · simp [h]
  · simp [h]

theorem digitsValue_decimalDigits (fuel n : Nat) (h : n < fuel) (suffix : List Nat) :
    digitsValue 0 (((decimalDigits fuel n).map (fun d => d + 48)).reverse ++ suffix) =
      digitsValue n suffix := by
  induction fuel generalizing n suffix with
  | zero => omega
  | succ fuel ih =>
    unfold decimalDigits
    by_cases hn : n < 10
    · rw [if_pos hn]
      simp only [List.map_cons, List.map_nil, List.reverse_cons, List.reverse_nil,
        List.nil_append, List.singleton_append, digitsValue]
      rw [if_pos (by omega)]
      congr 1
      omega
    · rw [if_neg hn]
      simp only [List.map_cons, List.reverse_cons, List.append_assoc, List.singleton_append]
      rw [ih (n / 10) (by omega)]
      simp only [digitsValue]
      rw [if_pos (by omega)]
      congr 1
      omega

theorem digitsValue_zeros (k : Nat) (s : List Nat) :
    digitsValue 0 (List.replicate k 48 ++ s) = digitsValue 0 s := by
  induction k with
  | zero => rfl
  | succ k ih =>
    simp only [List.replicate_succ, List.cons_append, digitsValue]
    rw [if_pos (by omega)]
    exact ih

theorem digitsValue_padded (k n : Nat) :
    digitsValue 0 (List.replicate k 48 ++ decimalText n) = some n := by
  rw [digitsValue_zeros]
  have := digitsValue_decimalDigits (n + 1) n (by omega) []
  rw [List.append_nil] at this
  unfold decimalText
  rw [this]
  rfl

theorem splitFirst_append (sep : Nat) (a b : List Nat) (h : sep ∉ a) :
    splitFirst sep (a ++ sep :: b) = some (a, b) := by
  induction a with
  | nil => simp [splitFirst]
  | cons c rest ih =>
    have hc : c ≠ sep := fun e => h (by rw [e]; exact List.mem_cons_self _ _)
    have := ih (fun hm => h (List.mem_cons_of_mem _ hm))
    rw [List.cons_append, splitFirst, if_neg hc, this]

theorem splitFirst_none (sep : Nat) (a : List Nat) (h : sep ∉ a) : splitFirst sep a = none := by
  induction a with
  | nil => rfl
  | cons c rest ih =>
    have hc : c ≠ sep := fun e => h (by rw [e]; exact List.mem_cons_self _ _)
    have := ih (fun hm => h (List.mem_cons_of_mem _ hm))
    simp only [splitFirst, if_neg hc, this]

theorem parseInt64_digits (s : List Nat) (n : Nat) (hne : s ≠ [])
    (hd : ∀ c ∈ s, 48 ≤ c ∧ c ≤ 57) (hv : digitsValue 0 s = some n) (hn : n < 2 ^ 63) :
    parseInt64 s = Except.ok (n : Int) := by
  cases s with
  | nil => exact absurd rfl hne
  | cons d ds =>
    have h45 : d ≠ 45 := by
      have := hd d (List.mem_cons_self _ _)
      omega
    unfold parseInt64
    rw [if_neg (by simp [h45])]
    simp only [hv, if_pos hn]

/-- Parsing the printed form: digits, with the decimal point `p` places from the right
when `p` is not 0, a space and the ticker. -/
theorem NewAsset_printed (padded tk : List Nat) (p n : Nat)
    (hd : ∀ c ∈ padded, 48 ≤ c ∧ c ≤ 57) (hv : digitsValue 0 padded = some n)
    (hl : p + 1 ≤ padded.length) (hn : n < 2 ^ 63) (ht1 : 1 ≤ tk.length) (ht7 : tk.length ≤ 7) :
    NewAsset ((if p = 0 then padded
        else padded.take (padded.length - p) ++ 46 :: padded.drop (padded.length - p)) ++
        32 :: tk) = Except.ok ⟨(n : Int), ⟨p, tk⟩⟩ := by
  have hne : padded ≠ [] := by
    intro h
    rw [h] at hl
    simp at hl
  have hno : ∀ x : Nat, (x = 32 ∨ x = 46) → x ∉ padded := by
    intro x hx hm
    have := hd x hm
    omega
  have htk : ¬ (tk.length = 0 ∨ 7 < tk.length) := by omega
  by_cases hp : p = 0
  · subst hp
    rw [if_pos rfl]
    unfold NewAsset
    rw [splitFirst_append 32 padded tk (hno 32 (Or.inl rfl))]
    simp only [if_neg htk, splitFirst_none 46 padded (hno 46 (Or.inr rfl)),
      parseInt64_digits padded n hne hd hv hn]
  · rw [if_neg hp]
    have h32 : 32 ∉ padded.take (padded.length - p) ++ 46 :: padded.drop (padded.length - p) := by
      intro hm
      rcases List.mem_append.1 hm with h | h
      · exact hno 32 (Or.inl rfl) (List.mem_of_mem_take h)
      · rcases List.mem_cons.1 h with h | h
        · omega
        · exact hno 32 (Or.inl rfl) (List.mem_of_mem_drop h)
    have h46 : 46 ∉ padded.take (padded.length - p) := fun h =>
      hno 46 (Or.inr rfl) (List.mem_of_mem_take h)
    have hlen : (padded.drop (padded.length - p)).length = p := by
      rw [List.length_drop]
      omega
    unfold NewAsset
    rw [splitFirst_append 32 _ tk h32]
    simp only [if_neg htk, splitFirst_append 46 _ _ h46, List.take_append_drop,
      parseInt64_digits padded n hne hd hv hn, hlen]

/-- C25: printing an asset is the inverse of parsing it. For every `Asset` with a
non-negative amount, a precision `p` and a ticker of 1 to 7 characters, `String()` is the
decimal digits of the amount (padded with zeros to `p + 1` digits) with a decimal point
`p` digits from the right, no point when `p = 0`, then one space, then the ticker; and
`NewAsset` of that text succeeds and returns the asset itself.
`6000000/4/EOS -> "600.0000 EOS"`, `10/5/SYS -> "0.00010 SYS"`,
`6000/0/MAMA -> "6000 MAMA"`. -/
theorem C25_asset_text_round_trip (a : Asset) (h0 : 0 ≤ a.Amount) (h63 : a.Amount < 2 ^ 63)
    (ht1 : 1 ≤ a.Symbol.Symbol.length) (ht7 : a.Symbol.Symbol.length ≤ 7) :
    NewAsset a.String = Except.ok a
    ∧ (∃ whole fraction : List Nat,
        whole ++ fraction =
          List.replicate (a.Symbol.Precision + 1 - (decimalText a.Amount.toNat).length) 48 ++
            decimalText a.Amount.toNat
        ∧ fraction.length = a.Symbol.Precision
        ∧ whole ≠ []
        ∧ a.String = whole ++ (if a.Symbol.Precision = 0 then [] else 46 :: fraction) ++
            32 :: a.Symbol.Symbol)
    ∧ digitsValue 0 (decimalText a.Amount.toNat) = some a.Amount.toNat
    ∧ Asset.String ⟨6000000, ⟨4, ascii "EOS"⟩⟩ = ascii "600.0000 EOS"
    ∧ Asset.String ⟨10, ⟨5, ascii "SYS"⟩⟩ = ascii "0.00010 SYS"
    ∧ Asset.String ⟨6000, ⟨0, ascii "MAMA"⟩⟩ = ascii "6000 MAMA"
    ∧ NewAsset (ascii "1000.0000 EOS") = Except.ok ⟨10000000, ⟨4, ascii "EOS"⟩⟩
    ∧ NewAsset (ascii "1000 CUR") = Except.ok ⟨1000, ⟨0, ascii "CUR"⟩⟩
    ∧ NewAsset (ascii "1000.1 CURRENT") = Except.ok ⟨10001, ⟨1, ascii "CURRENT"⟩⟩ := by
  obtain ⟨amount, ⟨p, tk⟩⟩ := a
  simp only at h0 h63 ht1 ht7
  obtain ⟨n, rfl⟩ := Int.eq_ofNat_of_zero_le h0
  have hn : n < 2 ^ 63 := by
    have : ((n : Nat) : Int) < 2 ^ 63 := h63
    omega
  have htext : intText (n : Int) = decimalText n := by
    unfold intText
    rw [if_neg (by omega), Int.toNat_ofNat]
  have hd : ∀ c ∈ List.replicate (p + 1 - (decimalText n).length) 48 ++ decimalText n,
      48 ≤ c ∧ c ≤ 57 := by
    intro c hc
    rcases List.mem_append.1 hc with h | h
    · rw [(List.mem_replicate.1 h).2]
      omega
    · exact decimalText_digits n c h
  have hpos : 0 < (decimalText n).length :=
    List.length_pos.2 (decimalText_ne_nil n)
  have hl : p + 1 ≤ (List.replicate (p + 1 - (decimalText n).length) 48 ++
      decimalText n).length := by
    rw [List.length_append, List.length_replicate]
    omega
  have hs : Asset.String ⟨(n : Int), ⟨p, tk⟩⟩ =
      (if p = 0 then List.replicate (p + 1 - (decimalText n).length) 48 ++ decimalText n
        else (List.replicate (p + 1 - (decimalText n).length) 48 ++ decimalText n).take
            ((List.replicate (p + 1 - (decimalText n).length) 48 ++ decimalText n).length - p) ++
          46 :: (List.replicate (p + 1 - (decimalText n).length) 48 ++ decimalText n).drop
            ((List.replicate (p + 1 - (decimalText n).length) 48 ++ decimalText n).length - p)) ++
        32 :: tk := by
    simp only [Asset.String, htext]
  refine ⟨?_, ?_, ?_, by decide, by decide, by decide, by decide, by decide, by decide⟩
  · rw [hs]
    exact NewAsset_printed _ tk p n hd (digitsValue_padded _ n) hl hn ht1 ht7
  · simp only [Int.toNat_ofNat]
    generalize hpad : List.replicate (p + 1 - (decimalText n).length) 48 ++ decimalText n = padded
      at hs hl
    refine ⟨padded.take (padded.length - p), padded.drop (padded.length - p),
      List.take_append_drop _ _, ?_, ?_, ?_⟩
    · rw [List.length_drop]
      omega
    · intro h
      have := congrArg List.length h
      rw [List.length_take] at this
      simp at this
      omega
    · rw [hs]
      by_cases hp : p = 0
      · subst hp
        simp
      · simp only [if_neg hp, List.append_assoc]
  · simp only [Int.toNat_ofNat]
    have := digitsValue_padded 0 n
    simpa using this

theorem C25_asset_text_round_trip_witness :
    NewAsset (Asset.String ⟨6000000, ⟨4, ascii "EOS"⟩⟩) =
      Except.ok ⟨6000000, ⟨4, ascii "EOS"⟩⟩ :=
  (C25_asset_text_round_trip ⟨6000000, ⟨4, ascii "EOS"⟩⟩ (by decide) (by decide) (by decide)
    (by decide)).1

/-! ## The round trip of the remaining plain values -/

theorem rt_TransactionStatus (v : Value) (h : conforms Shape.TransactionStatus v = true) :
    EncodesTo v (wire v) ∧ DecodesFrom Shape.TransactionStatus (normalize v) (wire v) := by
  cases v <;> simp only [conforms, Bool.false_eq_true, decide_eq_true_eq] at h
  case TransactionStatus b =>
    refine roundTrip_intro _ _ _ [b] ?_ ?_
    · intro data count
      simp only [Encoder.Encode, Encoder.WriteByte, toWriter_onBuffer, Nat.mod_eq_of_lt h]
    · intro rest
      simp only [Decode, normalize, readBytes_append "byte" 1 [b] rest rfl, Read_map_ok,
        List.headD_cons]

theorem rt_IDListMode (v : Value) (h : conforms Shape.IDListMode v = true) :
    EncodesTo v (wire v) ∧ DecodesFrom Shape.IDListMode (normalize v) (wire v) := by
  cases v <;> simp only [conforms, Bool.false_eq_true, decide_eq_true_eq] at h
  case IDListMode b =>
    refine roundTrip_intro _ _ _ [b] ?_ ?_
    · intro data count
      simp only [Encoder.Encode, Encoder.WriteByte, toWriter_onBuffer, Nat.mod_eq_of_lt h]
    · intro rest
      simp only [Decode, normalize, readBytes_append "byte" 1 [b] rest rfl, Read_map_ok,
        List.headD_cons]

theorem rt_int8 (v : Value) (h : conforms Shape.int8 v = true) :
    EncodesTo v (wire v) ∧ DecodesFrom Shape.int8 (normalize v) (wire v) := by
  cases v <;> simp only [conforms, Bool.false_eq_true, decide_eq_true_eq] at h
  case int8 i =>
    refine roundTrip_intro _ _ _ [(i % 256).toNat] ?_ ?_
    · intro data count
      simp only [Encoder.Encode, Encoder.WriteByte, toWriter_onBuffer]
    · intro rest
      have hi : asInt8 (i % 256).toNat = i := by
        unfold asInt8
        split <;> omega
      simp only [Decode, normalize, readBytes_append "byte" 1 [(i % 256).toNat] rest rfl,
        Read_map_ok, List.headD_cons, hi]

theorem rt_Bool (v : Value) (h : conforms Shape.Bool v = true) :
    EncodesTo v (wire v) ∧ DecodesFrom Shape.Bool (normalize v) (wire v) := by
  cases v <;> simp only [conforms, Bool.false_eq_true] at h
  case Bool b =>
    refine roundTrip_intro _ _ _ [if b then 1 else 0] ?_ ?_
    · intro data count
      simp only [Encoder.Encode, Encoder.WriteBool, Encoder.WriteByte, toWriter_onBuffer]
    · intro rest
      simp only [Decode, normalize,
        readBytes_append "bool" 1 [if b then 1 else 0] rest rfl, Read_map_ok, List.headD_cons]
      cases b <;> rfl

theorem rt_JSONTime (v : Value) (h : conforms Shape.JSONTime v = true) :
    EncodesTo v (wire v) ∧ DecodesFrom Shape.JSONTime (normalize v) (wire v) := by
  cases v <;> simp only [conforms, Bool.false_eq_true, decide_eq_true_eq] at h
  case JSONTime t =>
    obtain ⟨sec, nsec⟩ := t
    simp only at h
    have hu : (sec % 2 ^ 32).toNat < 256 ^ 4 := by omega
    refine roundTrip_intro _ _ _ (leBytes 4 (sec % 2 ^ 32).toNat) ?_ ?_
    · intro data count
      simp only [Encoder.Encode, Encoder.writeJSONTime, Time.Unix, WriteUint32_onBuffer,
        length_leBytes]
    · intro rest
      have e1 : (((sec % 2 ^ 32).toNat : Nat) : Int) = sec := by omega
      simp only [Decode, normalize, readLE_leBytes "uint32" 4 _ rest hu, Read_map_ok, e1, h.1]

theorem rt_CurrencyName (v : Value) (h : conforms Shape.CurrencyName v = true) :
    EncodesTo v (wire v) ∧ DecodesFrom Shape.CurrencyName (normalize v) (wire v) := by
  cases v <;> simp only [conforms, Bool.false_eq_true, decide_eq_true_eq] at h
  case CurrencyName s =>
    refine roundTrip_intro _ _ _ (s ++ List.replicate (7 - s.length) 0) ?_ ?_
    · intro data count
      simp only [Encoder.Encode, Encoder.writeCurrencyName, copyBytes_make_short 7 s h.1,
        toWriter_onBuffer]
    · intro rest
      simp only [Decode, normalize,
        readBytes_append "currencyName" 7 (s ++ List.replicate (7 - s.length) 0) rest
          (by simp; omega), Read_map_ok, trimRight_append_replicate 0 s _ h.2]

theorem rt_ActionData (v : Value) (h : conforms Shape.ActionData v = true) :
    EncodesTo v (wire v) ∧ DecodesFrom Shape.ActionData (normalize v) (wire v) := by
  cases v <;> simp only [conforms, Bool.false_eq_true, Bool.and_eq_true, decide_eq_true_eq,
    Option.isNone_iff_eq_none] at h
  case ActionData hexData data =>
    obtain ⟨hd, hl⟩ := h
    subst hd
    refine roundTrip_intro _ _ _ (leb128 hexData.length ++ hexData)
      (EncodesTo_byteArray _ hexData hl (fun e => by
        simp only [Encoder.Encode, Encoder.writeActionData])) ?_
    intro rest
    simp only [Decode, normalize, ReadByteArray_append hexData rest hl, Read_map_ok]

theorem rt_P2PMessageEnvelopePtr (v : Value)
    (h : conforms Shape.P2PMessageEnvelopePtr v = true) :
    EncodesTo v (wire v) ∧ DecodesFrom Shape.P2PMessageEnvelopePtr (normalize v) (wire v) := by
  cases v <;> simp only [conforms, Bool.false_eq_true, Bool.and_eq_true, decide_eq_true_eq,
    Option.isNone_iff_eq_none] at h
  case P2PMessageEnvelopePtr typ payload msg =>
    obtain ⟨hm, ht, hl⟩ := h
    subst hm
    refine roundTrip_intro _ _ _ (leBytes 4 (payload.length + 1) ++ typ :: payload) ?_ ?_
    · intro data count
      simp only [Encoder.Encode, Encoder.WriteBlockP2PMessageEnvelope, Nat.mod_eq_of_lt hl,
        Nat.mod_eq_of_lt ht, WriteUint32_onBuffer, Encoder.WriteByte, toWriter_onBuffer,
        List.length_singleton, List.append_assoc, List.singleton_append, List.length_append,
        length_leBytes, List.length_cons, List.length_nil, Nat.add_assoc]
      congr 2
      omega
    · intro rest
      simp only [Decode, normalize, ReadP2PMessageEnvelope, List.append_assoc,
        readLE_leBytes "uint32" 4 _ _ (show payload.length + 1 < 256 ^ 4 by
          norm_num at hl ⊢; omega)]
      rw [show typ :: payload ++ rest = [typ] ++ (payload ++ rest) from rfl,
        readBytes_append "byte" 1 [typ] _ rfl]
      simp only [Nat.add_sub_cancel, readBytes_append "payload" payload.length payload rest rfl,
        List.headD_cons]

theorem MarshalBinary_ok_of_EncodesTo (v : Value) (h : EncodesTo v (wire v)) :
    (MarshalBinary v).2 = none := by
  rw [MarshalBinary_of_ActsAs v (wire v) none h]

theorem encodeByteElems_onBuffer (bs : List Nat) (data : List Nat) (count : Nat) :
    (Encoder.onBuffer data count).encodeByteElems bs =
      (Encoder.onBuffer (data ++ bs) (count + bs.length), none) := by
  induction bs generalizing data count with
  | nil => simp [Encoder.encodeByteElems, Encoder.onBuffer]
  | cons b rest ih =>
    simp only [Encoder.encodeByteElems, Encoder.WriteByte, toWriter_onBuffer, ih,
      List.length_singleton, List.append_assoc, List.singleton_append, List.length_cons,
      List.length_nil]
    congr 2
    omega

/-- A pointer that `Encode` follows is encoded like the value it points to. -/
theorem MarshalBinary_ptr_followed (w : Value) (h : followedByPointer w = true)
    (hlen : ∀ b, w = Value.HexBytes b ∨ w = Value.bytes b → b.length < 2 ^ 56) :
    MarshalBinary (Value.ptr w) = MarshalBinary w := by
  cases w <;> simp only [followedByPointer, Bool.false_eq_true] at h
  case array t vs => simp only [MarshalBinary, Encoder.Encode]
  case slice t vs => simp only [MarshalBinary, Encoder.Encode]
  case struct t fs => simp only [MarshalBinary, Encoder.Encode]
  case map t es => simp only [MarshalBinary, Encoder.Encode]
  case ActionData hd d => simp only [MarshalBinary, Encoder.Encode]
  case HexBytes b =>
    have hb := hlen b (Or.inl rfl)
    rw [MarshalBinary_of_ActsAs (Value.ptr (Value.HexBytes b)) (leb128 b.length ++ b) none
        (fun data count => by
          show (Encoder.onBuffer data count).Encode (Value.ptr (Value.HexBytes b)) = _
          simp only [Encoder.Encode, WriteUVarInt_onBuffer data count b.length hb,
            encodeByteElems_onBuffer, List.append_assoc, List.length_append, Nat.add_assoc]),
      MarshalBinary_of_ActsAs (Value.HexBytes b) (leb128 b.length ++ b) none
        (fun data count => by
          show (Encoder.onBuffer data count).Encode (Value.HexBytes b) = _
          simp only [Encoder.Encode, WriteByteArray_onBuffer data count b hb,
            List.append_assoc, List.length_append, Nat.add_assoc])]
  case bytes b =>
    have hb := hlen b (Or.inr rfl)
    rw [MarshalBinary_of_ActsAs (Value.ptr (Value.bytes b)) (leb128 b.length ++ b) none
        (fun data count => by
          show (Encoder.onBuffer data count).Encode (Value.ptr (Value.bytes b)) = _
          simp only [Encoder.Encode, WriteUVarInt_onBuffer data count b.length hb,
            encodeByteElems_onBuffer, List.append_assoc, List.length_append, Nat.add_assoc]),
      MarshalBinary_of_ActsAs (Value.bytes b) (leb128 b.length ++ b) none
        (fun data count => by
          show (Encoder.onBuffer data count).Encode (Value.bytes b) = _
          simp only [Encoder.Encode, WriteByteArray_onBuffer data count b hb,
            List.append_assoc, List.length_append, Nat.add_assoc])]

/-! ## The round trip of sequences, maps, aggregates and pointers -/

theorem conforms_array_inv (tname : String) (len : Nat) (elem : Shape) (v : Value)
    (h : conforms (Shape.array tname len elem) v = true) :
    ∃ vs, v = Value.array tname vs ∧ vs.length = len ∧ ∀ x ∈ vs, conforms elem x = true := by
  cases v <;> simp only [conforms, Bool.false_eq_true, Bool.and_eq_true, decide_eq_true_eq,
    List.all_eq_true] at h
  case array t vs =>
    obtain ⟨⟨ht, hl⟩, hall⟩ := h
    subst ht
    exact ⟨vs, rfl, hl, hall⟩

theorem conforms_slice_inv (tname : String) (elem : Shape) (v : Value)
    (h : conforms (Shape.slice tname elem) v = true) :
    ∃ vs, v = Value.slice tname vs ∧ vs.length < 2 ^ 56
      ∧ ∀ x ∈ vs, conforms elem x = true := by
  cases v <;> simp only [conforms, Bool.false_eq_true, Bool.and_eq_true, decide_eq_true_eq,
    List.all_eq_true] at h
  case slice t vs =>
    obtain ⟨⟨ht, hl⟩, hall⟩ := h
    subst ht
    exact ⟨vs, rfl, hl, hall⟩

theorem conforms_map_inv (tname : String) (key value : Shape) (v : Value)
    (h : conforms (Shape.map tname key value) v = true) :
    ∃ es, v = Value.map tname es ∧ es.length < 2 ^ 56
      ∧ ∀ kv ∈ es, conforms key kv.1 = true ∧ conforms value kv.2 = true := by
  cases v <;> simp only [conforms, Bool.false_eq_true, Bool.and_eq_true, decide_eq_true_eq,
    List.all_eq_true] at h
  case map t es =>
    obtain ⟨⟨ht, hl⟩, hall⟩ := h
    subst ht
    exact ⟨es, rfl, hl, hall⟩

theorem conforms_struct_inv (tname : String) (fields : List (StructField × Shape)) (v : Value)
    (h : conforms (Shape.struct tname fields) v = true) :
    ∃ fvs, v = Value.struct tname fvs ∧ conformsFields fields fvs = true := by
  cases v <;> simp only [conforms, Bool.false_eq_true, Bool.and_eq_true, decide_eq_true_eq] at h
  case struct t fvs =>
    obtain ⟨ht, hall⟩ := h
    subst ht
    exact ⟨fvs, rfl, hall⟩

theorem conforms_ptr_inv (tname : String) (elem : Shape) (v : Value)
    (h : conforms (Shape.ptr tname elem) v = true) :
    ∃ w, v = Value.ptr w ∧ followedByPointer w = true ∧ conforms elem w = true := by
  cases v <;> simp only [conforms, Bool.false_eq_true, Bool.and_eq_true] at h
  case ptr w => exact ⟨w, rfl, h.1, h.2⟩

theorem conforms_HexBytes_length (elem : Shape) (b : List Nat)
    (h : conforms elem (Value.HexBytes b) = true) : b.length < 2 ^ 56 := by
  cases elem <;> simp only [conforms, Bool.false_eq_true, decide_eq_true_eq] at h
  exact h

theorem conforms_bytes_length (elem : Shape) (b : List Nat)
    (h : conforms elem (Value.bytes b) = true) : b.length < 2 ^ 56 := by
  cases elem <;> simp only [conforms, Bool.false_eq_true, decide_eq_true_eq] at h
  exact h

/-- A pointer that `Encode` follows, to a value that conforms, is encoded like the
value. -/
theorem MarshalBinary_ptr_conforms (elem : Shape) (w : Value)
    (hf : followedByPointer w = true) (hc : conforms elem w = true) :
    MarshalBinary (Value.ptr w) = MarshalBinary w := by
  refine MarshalBinary_ptr_followed w hf ?_
  intro b hb
  rcases hb with hb | hb
  · subst hb
    exact conforms_HexBytes_length elem b hc
  · subst hb
    exact conforms_bytes_length elem b hc

theorem roundTrip_leaf (sh : Shape) (v : Value) (he : expected sh v = normalize v)
    (h : EncodesTo v (wire v) ∧ DecodesFrom sh (normalize v) (wire v)) :
    (MarshalBinary v).2 = none ∧ DecodesFrom sh (expected sh v) (wire v) := by
  rw [he]
  exact ⟨MarshalBinary_ok_of_EncodesTo v h.1, h.2⟩

theorem isEncoded_inv (g : StructField) (h : g.isEncoded = true) :
    g.tag ≠ "-" ∧ g.Name ≠ "_" ∧ g.exported = true := by
  simpa [StructField.isEncoded] using h

mutual

/-- The round trip, by recursion on the shape: `Encode` of a conforming value succeeds,
and the bytes of `MarshalBinary` decode to the value that `expected` names. -/
theorem roundTrip (sh : Shape) (v : Value) (h : conforms sh v = true) :
    (MarshalBinary v).2 = none ∧ DecodesFrom sh (expected sh v) (wire v) := by
  match sh with
  | .Name => exact roundTrip_leaf _ v (by simp only [expected]) (rt_Name v h)
  | .AccountName => exact roundTrip_leaf _ v (by simp only [expected]) (rt_AccountName v h)
  | .PermissionName =>
    exact roundTrip_leaf _ v (by simp only [expected]) (rt_PermissionName v h)
  | .ActionName => exact roundTrip_leaf _ v (by simp only [expected]) (rt_ActionName v h)
  | .TableName => exact roundTrip_leaf _ v (by simp only [expected]) (rt_TableName v h)
  | .ScopeName => exact roundTrip_leaf _ v (by simp only [expected]) (rt_ScopeName v h)
  | .string => exact roundTrip_leaf _ v (by simp only [expected]) (rt_string v h)
  | .TransactionStatus =>
    exact roundTrip_leaf _ v (by simp only [expected]) (rt_TransactionStatus v h)
  | .IDListMode => exact roundTrip_leaf _ v (by simp only [expected]) (rt_IDListMode v h)
  | .byte => exact roundTrip_leaf _ v (by simp only [expected]) (rt_byte v h)
  | .int8 => exact roundTrip_leaf _ v (by simp only [expected]) (rt_int8 v h)
  | .int16 => exact roundTrip_leaf _ v (by simp only [expected]) (rt_int16 v h)
  | .uint16 => exact roundTrip_leaf _ v (by simp only [expected]) (rt_uint16 v h)
  | .uint32 => exact roundTrip_leaf _ v (by simp only [expected]) (rt_uint32 v h)
  | .uint64 => exact roundTrip_leaf _ v (by simp only [expected]) (rt_uint64 v h)
  | .Varuint32 => exact roundTrip_leaf _ v (by simp only [expected]) (rt_Varuint32 v h)
  | .bool => exact roundTrip_leaf _ v (by simp only [expected]) (rt_bool v h)
  | .Bool => exact roundTrip_leaf _ v (by simp only [expected]) (rt_Bool v h)
  | .JSONTime => exact roundTrip_leaf _ v (by simp only [expected]) (rt_JSONTime v h)
  | .HexBytes => exact roundTrip_leaf _ v (by simp only [expected]) (rt_HexBytes v h)
  | .bytes => exact roundTrip_leaf _ v (by simp only [expected]) (rt_bytes v h)
  | .SHA256Bytes => exact roundTrip_leaf _ v (by simp only [expected]) (rt_SHA256Bytes v h)
  | .PublicKey => exact roundTrip_leaf _ v (by simp only [expected]) (rt_PublicKey v h)
  | .Signature => exact roundTrip_leaf _ v (by simp only [expected]) (rt_Signature v h)
  | .Tstamp => exact roundTrip_leaf _ v (by simp only [expected]) (rt_Tstamp v h)
  | .BlockTimestamp =>
    exact roundTrip_leaf _ v (by simp only [expected]) (rt_BlockTimestamp v h)
  | .CurrencyName => exact roundTrip_leaf _ v (by simp only [expected]) (rt_CurrencyName v h)
  | .Asset => exact roundTrip_leaf _ v (by simp only [expected]) (rt_Asset v h)
  | .ActionData => exact roundTrip_leaf _ v (by simp only [expected]) (rt_ActionData v h)
  | .P2PMessageEnvelopePtr =>
    exact roundTrip_leaf _ v (by simp only [expected]) (rt_P2PMessageEnvelopePtr v h)
  | .array tname len elem =>
    obtain ⟨vs, hv, hlen, hall⟩ := conforms_array_inv tname len elem v h
    subst hv
    have hE : ∀ x ∈ vs, (MarshalBinary x).2 = none :=
      fun x hx => (roundTrip elem x (hall x hx)).1
    have hD : ∀ x ∈ vs, ∀ rest,
        Decode elem (wire x ++ rest) = Except.ok (expected elem x, rest) :=
      fun x hx => (roundTrip elem x (hall x hx)).2
    have hM : MarshalBinary (Value.array tname vs) = ((vs.map wire).flatten, none) := by
      rw [MarshalBinary_array, runAll_map_ok vs hE]
    have hw : wire (Value.array tname vs) = (vs.map wire).flatten := by
      show (MarshalBinary _).1 = _
      rw [hM]
    refine ⟨by rw [hM], ?_⟩
    intro rest
    rw [hw]
    simp only [Decode, expected, ← hlen,
      decodeN_roundTrip (Decode elem) wire (expected elem) vs hD rest, Read_map_ok]
  | .slice tname elem =>
    obtain ⟨vs, hv, hlen, hall⟩ := conforms_slice_inv tname elem v h
    subst hv
    have hE : ∀ x ∈ vs, (MarshalBinary x).2 = none :=
      fun x hx => (roundTrip elem x (hall x hx)).1
    have hD : ∀ x ∈ vs, ∀ rest,
        Decode elem (wire x ++ rest) = Except.ok (expected elem x, rest) :=
      fun x hx => (roundTrip elem x (hall x hx)).2
    have hM : MarshalBinary (Value.slice tname vs) =
        (leb128 vs.length ++ (vs.map wire).flatten, none) := by
      rw [MarshalBinary_slice tname vs hlen, runAll_prefixed, runAll_map_ok vs hE]
    have hw : wire (Value.slice tname vs) = leb128 vs.length ++ (vs.map wire).flatten := by
      show (MarshalBinary _).1 = _
      rw [hM]
    refine ⟨by rw [hM], ?_⟩
    intro rest
    rw [hw]
    simp only [Decode, expected, List.append_assoc, ReadUvarint_leb128 vs.length _ hlen,
      decodeN_roundTrip (Decode elem) wire (expected elem) vs hD rest, Read_map_ok]
  | .struct tname fields =>
    obtain ⟨fvs, hv, hall⟩ := conforms_struct_inv tname fields v h
    subst hv
    have hF := roundTripFields fields fvs hall
    have hM : MarshalBinary (Value.struct tname fvs) =
        (((fvs.map fieldStep).map Prod.fst).flatten, none) := by
      rw [MarshalBinary_struct, runAll_ok _ hF.1]
    have hw : wire (Value.struct tname fvs) = ((fvs.map fieldStep).map Prod.fst).flatten := by
      show (MarshalBinary _).1 = _
      rw [hM]
    refine ⟨by rw [hM], ?_⟩
    intro rest
    rw [hw]
    simp only [Decode, expected, hF.2 rest, Read_map_ok]
  | .map tname key value =>
    obtain ⟨es, hv, hlen, hall⟩ := conforms_map_inv tname key value v h
    subst hv
    have hE : ∀ kv ∈ es, (MarshalBinary kv.1).2 = none ∧ (MarshalBinary kv.2).2 = none :=
      fun kv hkv => ⟨(roundTrip key kv.1 (hall kv hkv).1).1,
        (roundTrip value kv.2 (hall kv hkv).2).1⟩
    have hD : ∀ kv ∈ es, ∀ rest,
        decodeEntry (Decode key) (Decode value) ((wire kv.1 ++ wire kv.2) ++ rest) =
          Except.ok ((expected key kv.1, expected value kv.2), rest) := by
      intro kv hkv rest
      unfold decodeEntry
      simp only [List.append_assoc, (roundTrip key kv.1 (hall kv hkv).1).2 _,
        (roundTrip value kv.2 (hall kv hkv).2).2 rest]
    have hM : MarshalBinary (Value.map tname es) =
        (leb128 es.length ++ (es.map (fun kv => wire kv.1 ++ wire kv.2)).flatten, none) := by
      rw [MarshalBinary_map tname es hlen, runAll_prefixed, runAll_entries_ok es hE]
    have hw : wire (Value.map tname es) =
        leb128 es.length ++ (es.map (fun kv => wire kv.1 ++ wire kv.2)).flatten := by
      show (MarshalBinary _).1 = _
      rw [hM]
    refine ⟨by rw [hM], ?_⟩
    intro rest
    rw [hw]
    simp only [Decode, expected, List.append_assoc, ReadUvarint_leb128 es.length _ hlen,
      decodeN_roundTrip (decodeEntry (Decode key) (Decode value))
        (fun kv => wire kv.1 ++ wire kv.2)
        (fun kv => (expected key kv.1, expected value kv.2)) es hD rest, Read_map_ok]
  | .ptr tname elem =>
    obtain ⟨w, hv, hf, hc⟩ := conforms_ptr_inv tname elem v h
    subst hv
    have hW := roundTrip elem w hc
    have hM : MarshalBinary (Value.ptr w) = MarshalBinary w :=
      MarshalBinary_ptr_conforms elem w hf hc
    have hw : wire (Value.ptr w) = wire w := by
      show (MarshalBinary _).1 = _
      rw [hM]
      rfl
    refine ⟨by rw [hM]; exact hW.1, ?_⟩
    intro rest
    rw [hw]
    simp only [Decode, expected, hW.2 rest, Read_map_ok]
termination_by structural sh

/-- The round trip of the fields of an aggregate: every field step succeeds, and the
bytes of the steps decode to the fields that `expectedFields` names. -/
theorem roundTripFields (fields : List (StructField × Shape))
    (fvs : List (StructField × Value)) (h : conformsFields fields fvs = true) :
    (∀ r ∈ fvs.map fieldStep, r.2 = none)
    ∧ ∀ rest, decodeFields fields (((fvs.map fieldStep).map Prod.fst).flatten ++ rest) =
        Except.ok (expectedFields fields fvs, rest) := by
  match fields, fvs with
  | [], [] =>
    exact ⟨by simp, fun rest => by simp [decodeFields, expectedFields]⟩
  | [], _ :: _ => simp [conformsFields] at h
  | _ :: _, [] => simp [conformsFields] at h
  | (field, sh) :: rest1, (g, v) :: fvs1 =>
    simp only [conformsFields, Bool.and_eq_true, decide_eq_true_eq] at h
    obtain ⟨⟨⟨hN, hT, hX⟩, hmode⟩, hrest⟩ := h
    have hF := roundTripFields rest1 fvs1 hrest
    have hge : g.isEncoded = field.isEncoded := by
      simp only [StructField.isEncoded, hN, hT, hX]
    by_cases henc : field.isEncoded = true
    · rw [if_pos henc] at hmode
      obtain ⟨_, hname, hexp⟩ := isEncoded_inv g (hge.trans henc)
      by_cases hopt : field.tag = "optional"
      · rw [if_pos hopt] at hmode
        simp only [Bool.or_eq_true, Bool.and_eq_true, decide_eq_true_eq] at hmode
        rcases hmode with hnil | ⟨hnil, hc⟩
        · have hS : fieldStep (g, v) = ([0], none) :=
            fieldStep_optional_nil g v (hT.trans hopt) hname hexp hnil
          constructor
          · intro r hr
            simp only [List.map_cons, List.mem_cons] at hr
            rcases hr with hr | hr
            · rw [hr, hS]
            · exact hF.1 r hr
          · intro rest
            simp only [List.map_cons, hS, List.flatten_cons, List.append_assoc]
            rw [decodeFields, if_pos henc, if_pos hopt,
              readBytes_append "bool" 1 [0] _ rfl]
            simp only [List.headD_cons, bne_self_eq_false, Bool.false_eq_true, if_false,
              hF.2 rest, expectedFields, if_pos henc, if_pos hopt, hnil, if_true]
        · have hV := roundTrip sh v hc
          have hS : fieldStep (g, v) = (1 :: wire v, none) := by
            rw [fieldStep_optional_present g v (hT.trans hopt) hname hexp hnil, hV.1]
            rfl
          constructor
          · intro r hr
            simp only [List.map_cons, List.mem_cons] at hr
            rcases hr with hr | hr
            · rw [hr, hS]
            · exact hF.1 r hr
          · intro rest
            simp only [List.map_cons, hS, List.flatten_cons, List.append_assoc]
            rw [decodeFields, if_pos henc, if_pos hopt,
              show 1 :: wire v ++
                  (((fvs1.map fieldStep).map Prod.fst).flatten ++ rest) =
                [1] ++ (wire v ++ (((fvs1.map fieldStep).map Prod.fst).flatten ++ rest))
                from rfl,
              readBytes_append "bool" 1 [1] _ rfl]
            have hne : (g.IsNil = some true) = False := by simp [hnil]
            simp only [List.headD_cons, hV.2 _, hF.2 rest, expectedFields, if_pos henc,
              if_pos hopt, hne, if_false]
            rfl
      · rw [if_neg hopt] at hmode
        simp only [Bool.and_eq_true, decide_eq_true_eq] at hmode
        obtain ⟨hnil, hc⟩ := hmode
        have hV := roundTrip sh v hc
        have hS : fieldStep (g, v) = (wire v, none) := by
          rw [fieldStep_plain (g, v) (hge.trans henc) (fun e => hopt (hT.symm.trans e)),
            ← hV.1]
          rfl
        constructor
        · intro r hr
          simp only [List.map_cons, List.mem_cons] at hr
          rcases hr with hr | hr
          · rw [hr, hS]
          · exact hF.1 r hr
        · intro rest
          simp only [List.map_cons, hS, List.flatten_cons, List.append_assoc]
          rw [decodeFields, if_pos henc, if_neg hopt]
          simp only [hV.2 _, hF.2 rest, expectedFields, if_pos henc, if_neg hopt]
    · have hS : fieldStep (g, v) = ([], none) :=
        fieldStep_not_encoded (g, v) (by
          have : g.isEncoded ≠ true := fun e => henc (hge.symm.trans e)
          simpa using this)
      constructor
      · intro r hr
        simp only [List.map_cons, List.mem_cons] at hr
        rcases hr with hr | hr
        · rw [hr, hS]
        · exact hF.1 r hr
      · intro rest
        simp only [List.map_cons, hS, List.flatten_cons, List.nil_append]
        rw [decodeFields, if_neg henc]
        simp only [hF.2 rest, expectedFields, if_neg henc]
termination_by structural fields

end

/-! ## Beyond the lengths that the length words hold -/

end types
